import Mathlib

/-!
Verification of the evoxy HTTP/1.1 proxy core: a shallow embedding of the
incremental HTTP parser (`src/http.cc`, `src/http.h`), the per-session
progress machine pieces of `src/connection.cc`, and the DNS name cache of
`src/cache.h`, together with theorems about the behaviour claimed in the
specification.  Bytes are modelled as `Nat`, machine integers as `Nat`/`Int`
with explicit reduction modulo `2^w` where the C code can overflow.
-/

namespace Evoxy

/-! ## Byte constants and helpers -/

def CR : Nat := 13
def LF : Nat := 10
def SPC : Nat := 32
def HTAB : Nat := 9
def SEMI : Nat := 59

/-- Convert a Lean string literal to the byte list it denotes (ASCII). -/
def strBytes (s : String) : List Nat := s.data.map Char.toNat

/-- `SIZE_MAX` for the 64-bit `size_t` used throughout the source. -/
def SIZE_MAX : Nat := 2 ^ 64 - 1

/-- `HTTPParser::cl_unset = (size_t) -1`. -/
def clUnset : Nat := 2 ^ 64 - 1

/-- Conversion of a C `long` value to `size_t` (two's complement, mod `2^64`). -/
def toSizeT (i : Int) : Nat := (i % (2 ^ 64 : Int)).toNat

/-- Conversion of a C `long` value to a 32-bit `unsigned` (mod `2^32`). -/
def toU32 (i : Int) : Nat := (i % (2 ^ 32 : Int)).toNat

/-! ## `buffer::stol` (src/buffer_string.h, lines 2156-2272)

This is a strtol-style routine over a non-terminated byte window:
optional sign, then digits of the given base accumulated with an
overflow cutoff; `errno`-style errors are modelled as a boolean flag. -/

/-- `isdigit` over ASCII byte values. -/
def isDigitB (c : Nat) : Bool := 48 ≤ c && c ≤ 57

/-- `isupper` over ASCII byte values. -/
def isUpperB (c : Nat) : Bool := 65 ≤ c && c ≤ 90

/-- `islower` over ASCII byte values. -/
def isLowerB (c : Nat) : Bool := 97 ≤ c && c ≤ 122

/-- The candidate digit value the stol loop computes before its
`c >= base` check: `c - '0'` for digits, `c - 'A' + 10` / `c - 'a' + 10`
for letters, nothing otherwise. -/
def digitVal (c : Nat) : Option Nat :=
  if isDigitB c then some (c - 48)
  else if isUpperB c then some (c - 55)
  else if isLowerB c then some (c - 87)
  else none

/-- The digit-accumulation loop of `buffer::stol`.  Returns
`(acc, index, any)` where `any` is `-1` on overflow, `0` when no digit was
consumed and `1` otherwise, exactly as in the source. -/
def stolDigits (base cutoff cutlim : Nat) :
    List Nat → Nat → Nat → Int → Nat × Nat × Int
  | [], acc, idx, any => (acc, idx, any)
  | c :: rest, acc, idx, any =>
    match digitVal c with
    | none => (acc, idx, any)
    | some d =>
      if d ≥ base then (acc, idx, any)
      else if acc > cutoff ∨ (acc = cutoff ∧ d > cutlim) then (acc, idx + 1, -1)
      else stolDigits base cutoff cutlim rest (acc * base + d) (idx + 1) 1

/-- Result of `buffer::stol`: the returned `long` (as a mathematical
integer), the consumed-character count written to `*idx`, and whether
`errno` was set. -/
structure StolResult where
  value : Int
  idx : Nat
  err : Bool
deriving DecidableEq, Repr

/-- The part of `buffer::stol` after sign handling. -/
def stolAfterSign (neg : Bool) (s : List Nat) (sOff : Nat) (base : Nat) :
    StolResult :=
  if s = [] then ⟨0, 0, true⟩
  else
    let lim : Nat := if neg then 2 ^ 63 else 2 ^ 63 - 1
    match stolDigits base (lim / base) (lim % base) s 0 0 0 with
    | (acc, idx, any) =>
      if any < 0 then
        ⟨if neg then -(2 ^ 63 : Int) else ((2 ^ 63 - 1 : Nat) : Int),
         sOff + idx, true⟩
      else if any = 0 then ⟨0, sOff + idx, true⟩
      else ⟨if neg then -(acc : Int) else (acc : Int), sOff + idx, false⟩

/-- `buffer::stol(str, &idx, base)`.  On the early `EINVAL` returns the
source leaves `*idx` unset; those paths always set `err`, and the proxy
never reads `idx` then, so `idx = 0` stands in for the indeterminate
value. -/
def stol (str : List Nat) (base : Nat) : StolResult :=
  match str with
  | [] => ⟨0, 0, true⟩
  | c :: rest =>
    if c = 45 then stolAfterSign true rest 1 base
    else if c = 43 then stolAfterSign false rest 1 base
    else stolAfterSign false str 0 base

theorem stolDigits_idx_mono (base cutoff cutlim : Nat) :
    ∀ (s : List Nat) (acc idx : Nat) (any : Int),
      idx ≤ (stolDigits base cutoff cutlim s acc idx any).2.1 := by
  intro s
  induction s with
  | nil => intro acc idx any; simp [stolDigits]
  | cons c rest ih =>
    intro acc idx any
    simp only [stolDigits]
    cases hdv : digitVal c with
    | none => simp
    | some d =>
      simp only
      by_cases hb : d ≥ base
      · simp [hb]
      · simp only [hb, if_false]
        by_cases hc : acc > cutoff ∨ (acc = cutoff ∧ d > cutlim)
        · simp [hc]
        · simp only [hc, if_false]
          have := ih (acc * base + d) (idx + 1) 1
          omega

theorem stolDigits_idx_pos (base cutoff cutlim : Nat) :
    ∀ (s : List Nat) (acc idx : Nat),
      (stolDigits base cutoff cutlim s acc idx 0).2.2 ≠ 0 →
      idx + 1 ≤ (stolDigits base cutoff cutlim s acc idx 0).2.1 := by
  intro s
  induction s with
  | nil => intro acc idx h; simp [stolDigits] at h
  | cons c rest ih =>
    intro acc idx h
    simp only [stolDigits] at h ⊢
    cases hdv : digitVal c with
    | none => simp [hdv] at h
    | some d =>
      simp only [hdv] at h ⊢
      by_cases hb : d ≥ base
      · simp [hb] at h
      · simp only [hb, if_false] at h ⊢
        by_cases hc : acc > cutoff ∨ (acc = cutoff ∧ d > cutlim)
        · simp [hc]
        · simp only [hc, if_false] at h ⊢
          have := stolDigits_idx_mono base cutoff cutlim rest
            (acc * base + d) (idx + 1) 1
          omega

theorem stolAfterSign_idx_pos (neg : Bool) (s : List Nat) (sOff base : Nat)
    (h : (stolAfterSign neg s sOff base).err = false) :
    1 ≤ (stolAfterSign neg s sOff base).idx := by
  unfold stolAfterSign at h ⊢
  by_cases hs : s = []
  · simp [hs] at h
  · simp only [hs, if_false] at h ⊢
    set lim : Nat := if neg then 2 ^ 63 else 2 ^ 63 - 1 with hlim
    rcases hd : stolDigits base (lim / base) (lim % base) s 0 0 0 with ⟨acc, idx, any⟩
    simp only [hd] at h ⊢
    by_cases h1 : any < 0
    · simp [h1] at h
    · simp only [h1, if_false] at h ⊢
      by_cases h2 : any = 0
      · simp [h2] at h
      · simp only [h2, if_false] at h ⊢
        have := stolDigits_idx_pos base (lim / base) (lim % base) s 0 0
        rw [hd] at this
        simp only at this
        have := this h2
        omega

theorem stol_idx_pos (str : List Nat) (base : Nat)
    (h : (stol str base).err = false) : 1 ≤ (stol str base).idx := by
  unfold stol at h ⊢
  match str with
  | [] => simp at h
  | c :: rest =>
    by_cases h45 : c = 45
    · simp only [h45, if_true] at h ⊢
      exact stolAfterSign_idx_pos _ _ _ _ h
    · by_cases h43 : c = 43
      · simp only [h45, h43, if_false, if_true] at h ⊢
        exact stolAfterSign_idx_pos _ _ _ _ h
      · simp only [h45, h43, if_false] at h ⊢
        exact stolAfterSign_idx_pos _ _ _ _ h

/-! ## The chunked-body machine `HTTPParser::parse_body`
(src/http.cc, lines 629-804; state in src/http.h) -/

inductive CRLFSearch
  | NO_SEARCH
  | MARKER_CR_SEARCH
  | MARKER_LF_EXPECT
  | CHUNK_CR_EXPECT
  | CHUNK_LF_EXPECT
  | TRAILER_CR_SEARCH
  | TRAILER_LF_EXPECT
  | TRAILER_CR2_EXPECT
  | TRAILER_LF2_EXPECT
deriving DecidableEq, Repr

inductive Status
  | TERMINATE
  | CONTINUE
  | PROCEED
deriving DecidableEq, Repr

/-- The parser fields that `parse_body` reads and writes. -/
structure BodyState where
  crlfSearch : CRLFSearch
  skipChunk : Nat
  markerHoarder : Nat
  bodyEnd : Bool
  chunked : Bool
deriving DecidableEq, Repr

/-- Result of one `parse_body` call: status, state, the value of the
`recv_chunk` window at return, and whether the
`assert(recv_chunk.size() == 1)` in the `CHUNK_LF_EXPECT` branch held on
every visit (asserts are no-ops in release builds, so they do not alter
control flow). -/
structure BodyResult where
  status : Status
  state : BodyState
  rest : List Nat
  lfAssertOk : Bool
deriving DecidableEq, Repr

/-- `find_first_of('\r')`: index of the first CR, if any. -/
def findCR : List Nat → Option Nat
  | [] => none
  | b :: rest => if b = CR then some 0 else (findCR rest).map (· + 1)

theorem findCR_lt {l : List Nat} {i : Nat} (h : findCR l = some i) :
    i < l.length := by
  induction l generalizing i with
  | nil => simp [findCR] at h
  | cons b rest ih =>
    simp only [findCR] at h
    by_cases hb : b = CR
    · simp [hb] at h
      simp only [List.length_cons]
      omega
    · simp [hb] at h
      obtain ⟨j, hj, hji⟩ := h
      have hjl := ih hj
      simp only [List.length_cons]
      omega

/-- Termination measure helper: the `NO_SEARCH` fall-through block may
re-enter the state switch on the same `recv_chunk` after only changing
`crlf_search`, so states are ranked. -/
def searchRank : CRLFSearch → Nat
  | .NO_SEARCH => 1
  | _ => 0

/-- `HTTPParser::parse_body` (src/http.cc lines 629-804).  A faithful
transcription of the source's `while (!recv_chunk.empty())` loop; each
`continue` is a recursive call.  The loop either consumes bytes or moves
from the `NO_SEARCH` fall-through into `MARKER_CR_SEARCH`, so it is
written with a fuel argument; `parseBody` below supplies enough fuel for
any input.  The two `assert(marker_hoarder != cl_unset)` checks are
invariants with no release-build effect; the tracked assertion is the one
the specification claims about (`recv_chunk.size() == 1`).
`marker_hoarder <<= bits` and `+= marker_part` are `size_t` operations,
modelled modulo `2^64`, and `SIZE_MAX >> bits` is division by `2^bits`. -/
def parseBodyF : Nat → BodyState → List Nat → BodyResult
  | 0, st, recv => ⟨.CONTINUE, st, recv, true⟩
  | _, st, [] => ⟨.CONTINUE, st, [], true⟩
  | fuel + 1, st, recv@(b :: rest) =>
    match st.crlfSearch with
    | .MARKER_CR_SEARCH =>
      match findCR recv with
      | none => ⟨.CONTINUE, st, recv, true⟩
      | some cr =>
        if cr = recv.length - 1 then
          ⟨.CONTINUE, { st with crlfSearch := .MARKER_LF_EXPECT }, recv, true⟩
        else if recv.getD (cr + 1) 0 = LF then
          -- shrink_front(cr + 2); goto found_marker_end
          if st.markerHoarder = 0 then
            parseBodyF fuel
              { st with crlfSearch := .CHUNK_CR_EXPECT, bodyEnd := true }
              (recv.drop (cr + 2))
          else
            parseBodyF fuel
              { st with crlfSearch := .NO_SEARCH,
                        skipChunk := st.markerHoarder,
                        markerHoarder := clUnset }
              (recv.drop (cr + 2))
        else
          parseBodyF fuel st (recv.drop (cr + 1))
    | .MARKER_LF_EXPECT =>
      if b = LF then
        -- shrink_front(1); found_marker_end
        if st.markerHoarder = 0 then
          parseBodyF fuel
            { st with crlfSearch := .CHUNK_CR_EXPECT, bodyEnd := true } rest
        else
          parseBodyF fuel
            { st with crlfSearch := .NO_SEARCH,
                      skipChunk := st.markerHoarder,
                      markerHoarder := clUnset } rest
      else
        parseBodyF fuel { st with crlfSearch := .MARKER_CR_SEARCH } rest
    | .CHUNK_CR_EXPECT =>
      if b ≠ CR then
        if st.bodyEnd then
          parseBodyF fuel { st with crlfSearch := .TRAILER_CR_SEARCH } rest
        else
          ⟨.TERMINATE, st, recv, true⟩
      else
        parseBodyF fuel { st with crlfSearch := .CHUNK_LF_EXPECT } rest
    | .CHUNK_LF_EXPECT =>
      if b ≠ LF then
        ⟨.TERMINATE, st, recv, true⟩
      else if st.bodyEnd then
        ⟨.PROCEED, st, recv, recv.length = 1⟩
      else
        parseBodyF fuel { st with crlfSearch := .NO_SEARCH } rest
    | .TRAILER_CR_SEARCH =>
      match findCR recv with
      | none => ⟨.CONTINUE, st, recv, true⟩
      | some cr =>
        parseBodyF fuel { st with crlfSearch := .TRAILER_LF_EXPECT }
          (recv.drop (cr + 1))
    | .TRAILER_LF_EXPECT =>
      if b ≠ LF then
        parseBodyF fuel { st with crlfSearch := .TRAILER_CR_SEARCH } rest
      else
        parseBodyF fuel { st with crlfSearch := .TRAILER_CR2_EXPECT } rest
    | .TRAILER_CR2_EXPECT =>
      if b ≠ CR then
        parseBodyF fuel { st with crlfSearch := .TRAILER_CR_SEARCH } rest
      else
        parseBodyF fuel { st with crlfSearch := .TRAILER_LF2_EXPECT } rest
    | .TRAILER_LF2_EXPECT =>
      if b ≠ LF then
        parseBodyF fuel { st with crlfSearch := .TRAILER_CR_SEARCH } rest
      else
        ⟨.PROCEED, st, recv, true⟩
    | .NO_SEARCH =>
      if st.skipChunk ≥ recv.length then
        let st1 := { st with skipChunk := st.skipChunk - recv.length }
        if st1.skipChunk = 0 then
          if st.chunked = false then ⟨.PROCEED, st1, recv, true⟩
          else ⟨.CONTINUE, { st1 with crlfSearch := .CHUNK_CR_EXPECT }, recv, true⟩
        else ⟨.CONTINUE, st1, recv, true⟩
      else if st.skipChunk > 0 then
        if st.chunked = false then ⟨.PROCEED, st, recv, true⟩
        else
          parseBodyF fuel { st with skipChunk := 0, crlfSearch := .CHUNK_CR_EXPECT }
            (recv.drop st.skipChunk)
      else if st.markerHoarder ≠ clUnset ∧ (b = CR ∨ b = SEMI) then
        parseBodyF fuel { st with crlfSearch := .MARKER_CR_SEARCH } recv
      else
        if (stol recv 16).err then ⟨.TERMINATE, st, recv, true⟩
        else
          if (stol recv 16).idx < recv.length ∧
              recv.getD ((stol recv 16).idx) 0 ≠ SEMI ∧
              recv.getD ((stol recv 16).idx) 0 ≠ CR then
            ⟨.TERMINATE, st, recv, true⟩
          else
            match
              (if st.markerHoarder = clUnset then
                some { st with markerHoarder := toSizeT (stol recv 16).value }
              else
                if st.markerHoarder > SIZE_MAX / 2 ^ ((stol recv 16).idx * 4)
                then none
                else some { st with markerHoarder :=
                  (st.markerHoarder * 2 ^ ((stol recv 16).idx * 4) +
                    toSizeT (stol recv 16).value) % 2 ^ 64 }) with
            | none => ⟨.TERMINATE, st, recv, true⟩
            | some st2 =>
              if (stol recv 16).idx = recv.length then ⟨.CONTINUE, st2, recv, true⟩
              else
                parseBodyF fuel { st2 with crlfSearch := .MARKER_CR_SEARCH }
                  (recv.drop ((stol recv 16).idx))

/-- `parse_body` with enough fuel for its recv chunk. -/
def parseBody (st : BodyState) (recv : List Nat) : BodyResult :=
  parseBodyF (2 * recv.length + 2) st recv

/-! ## The head parser `HTTPParser::parse_head`
(src/http.cc lines 143-626, state in src/http.h)

The input buffer window is modelled as a byte list (index 0 is the window
begin, which stays at the storage base for the whole head phase; each recv
appends at the end).  `buffer::string` views into the buffer (`found_line`,
`method`, `via`, ...) are spans, i.e. pairs of absolute indices, since the
source compares such views by pointer identity.  The output buffer is the
list of emitted bytes plus its capacity. -/

abbrev Span := Nat × Nat

/-- A default-constructed `buffer::string` is empty; every assignment in the
head parser produces a non-empty view, so emptiness of `via` and
`x_forwarded_for` is the span being degenerate. -/
def spanEmpty (s : Span) : Bool := s.2 ≤ s.1

/-- Content of a span of the buffer. -/
def slice (buf : List Nat) (s : Span) : List Nat := (buf.take s.2).drop s.1

/-- `find(ch)`: index of the first occurrence of a byte. -/
def findB (c : Nat) : List Nat → Option Nat
  | [] => none
  | b :: rest => if b = c then some 0 else (findB c rest).map (· + 1)

/-- `find(ch, pos)`. -/
def findBFrom (c : Nat) (l : List Nat) (s : Nat) : Option Nat :=
  (findB c (l.drop s)).map (· + s)

/-- Membership in `LWSP = "\t \r\n"`. -/
def isLWSP (b : Nat) : Bool := b = HTAB || b = SPC || b = CR || b = LF

/-- `find_first_not_of(LWSP)`. -/
def findNotLWSP : List Nat → Option Nat
  | [] => none
  | b :: rest =>
    if isLWSP b then (findNotLWSP rest).map (· + 1) else some 0

/-- `find_first_not_of(LWSP, pos)`. -/
def findNotLWSPFrom (l : List Nat) (s : Nat) : Option Nat :=
  (findNotLWSP (l.drop s)).map (· + s)

/-- First occurrence of the two-byte sequence CRLF. -/
def findCRLFIn : List Nat → Option Nat
  | [] => none
  | [_] => none
  | a :: b :: rest =>
    if a = CR ∧ b = LF then some 0 else (findCRLFIn (b :: rest)).map (· + 1)

/-- `scan_buf.find(CRLF)` where the scan window is `[s, buf.length)`;
returns the absolute index of the CR. -/
def findCRLF (buf : List Nat) (s : Nat) : Option Nat :=
  (findCRLFIn (buf.drop s)).map (· + s)

/-- `std::toupper` on ASCII bytes, as used by `ci_char_traits`. -/
def toUpperB (c : Nat) : Nat := if 97 ≤ c ∧ c ≤ 122 then c - 32 else c

/-- Case-insensitive equality of byte strings (`ci_char_traits::compare`). -/
def ciEq (a b : List Nat) : Bool := a.map toUpperB = b.map toUpperB

inductive ReqHeader
  | CACHE_CONTROL | CONNECTION | CONTENT_LENGTH | HOST
  | TRANSFER_ENCODING | VIA | X_FORWARDED_FOR | unknownHeader
deriving DecidableEq, Repr

/-- `RequestHeader::find`: linear scan over the lowercase name table in enum
order with case-insensitive comparison. -/
def reqHeaderFind (name : List Nat) : ReqHeader :=
  if ciEq name (strBytes "cache-control") then .CACHE_CONTROL
  else if ciEq name (strBytes "connection") then .CONNECTION
  else if ciEq name (strBytes "content-length") then .CONTENT_LENGTH
  else if ciEq name (strBytes "host") then .HOST
  else if ciEq name (strBytes "transfer-encoding") then .TRANSFER_ENCODING
  else if ciEq name (strBytes "via") then .VIA
  else if ciEq name (strBytes "x-forwarded-for") then .X_FORWARDED_FOR
  else .unknownHeader

inductive RespHeader
  | CONNECTION | CONTENT_LENGTH | TRANSFER_ENCODING | unknownHeader
deriving DecidableEq, Repr

/-- `ResponseHeader::find`. -/
def respHeaderFind (name : List Nat) : RespHeader :=
  if ciEq name (strBytes "connection") then .CONNECTION
  else if ciEq name (strBytes "content-length") then .CONTENT_LENGTH
  else if ciEq name (strBytes "transfer-encoding") then .TRANSFER_ENCODING
  else .unknownHeader

inductive Phase
  | reqLine | reqHead | respLine | respHead
deriving DecidableEq, Repr

/-- The `HTTPParser` state relevant to head parsing, plus the shared body
fields that `reset()` touches. -/
structure HeadState where
  buf : List Nat
  fl : Option Span
  store : Option Nat
  phase : Phase
  method : Span
  requestUri : Span
  httpVersion : Span
  host : Span
  statusCode : Span
  reasonPhrase : Span
  via : Span
  xff : Span
  hostTerminator : Nat
  port : Nat
  contentLength : Nat
  chunked : Bool
  keepAlive : Bool
  forceClose : Bool
  noTransform : Bool
  requestVersion : Nat
  responseVersion : Nat
  skipChunk : Nat
  markerHoarder : Nat
  crlfSearch : CRLFSearch
  bodyEnd : Bool
  output : List Nat
  outCap : Nat
  localAddress : List Nat
  peerAddress : List Nat
deriving DecidableEq, Repr

/-- `HTTPParser::copy_line`: fails without emitting when the line exceeds
the output buffer's free space, otherwise appends to the emitted bytes. -/
def copyLineOut (out : List Nat) (cap : Nat) (line : List Nat) :
    Option (List Nat) :=
  if line.length > cap - out.length then none else some (out ++ line)

/-- A sequence of `copy_line` calls short-circuiting on failure (earlier
successful copies remain emitted). -/
def copySeqOut (cap : Nat) : List Nat → List (List Nat) → Bool × List Nat
  | out, [] => (false, out)
  | out, l :: ls =>
    match copyLineOut out cap l with
    | none => (true, out)
    | some out2 => copySeqOut cap out2 ls

/-- `HTTPParser::copy_modified_headers` (src/http.cc lines 185-225),
returning the error flag and the new output contents.
Note two places where the source deviates from the specification: the
re-emitted `via` view still carries its terminating CRLF, and the
X-Forwarded-For branch re-emits `via` (not `x_forwarded_for`). -/
def copyModifiedHeadersOut (st : HeadState) : Bool × List Nat :=
  let hv := slice st.buf st.httpVersion
  let first :=
    if spanEmpty st.via then
      if st.noTransform = false then
        copySeqOut st.outCap st.output [strBytes "via: ", hv, st.localAddress]
      else (false, st.output)
    else
      match copySeqOut st.outCap st.output [slice st.buf st.via] with
      | (true, out1) => (true, out1)
      | (false, out1) =>
        if st.noTransform = false then
          copySeqOut st.outCap out1 [strBytes ", ", hv, st.localAddress]
        else (false, out1)
  match first with
  | (true, out1) => (true, out1)
  | (false, out1) =>
    if spanEmpty st.xff then
      if st.noTransform = false then
        copySeqOut st.outCap out1 [strBytes "x-forwarded-for: ", st.peerAddress]
      else (false, out1)
    else
      match copySeqOut st.outCap out1 [slice st.buf st.via] with
      | (true, out2) => (true, out2)
      | (false, out2) =>
        if st.noTransform = false then
          copySeqOut st.outCap out2 [strBytes ", ", st.peerAddress]
        else (false, out2)

/-- `HTTPParser::parse_http_version`: `major*1000 + minor` computed in
`long` and stored into a 32-bit `unsigned`. -/
def parseHttpVersion (v : List Nat) : Nat :=
  match findB 46 v with
  | some sep =>
    toU32 ((stol (v.take sep) 10).value * 1000 + (stol (v.drop (sep + 1)) 10).value)
  | none => toU32 ((stol v 10).value * 1000)

/-- `HTTPParser::parse_request_line` (src/http.cc lines 279-334). -/
def parseRequestLine (st : HeadState) : Status × HeadState :=
  let fsp := st.fl.getD (0, 0)
  let a := fsp.1
  let line := slice st.buf fsp
  let L := line.length
  match findB SPC line with
  | none => (.TERMINATE, st)
  | some sp1 =>
    let st := { st with method := (a, a + sp1) }
    let sp1 := sp1 + 1
    if sp1 + 2 ≥ L then (.TERMINATE, st)
    else
      match findBFrom SPC line sp1 with
      | none => (.TERMINATE, st)
      | some sp2 =>
        let st := { st with requestUri := (a + sp1, a + sp2) }
        let sp2 := sp2 + 1
        if sp2 + 2 ≥ L then (.TERMINATE, st)
        else
          match findBFrom 47 line sp2 with
          | none => (.TERMINATE, st)
          | some sep =>
            let sep := sep + 1
            if sep + 2 ≥ L then (.TERMINATE, st)
            else
              let st := { st with httpVersion := (a + sep, a + L - 2) }
              let rv := parseHttpVersion (slice st.buf (a + sep, a + L - 2))
              let st := { st with requestVersion := rv,
                                  forceClose :=
                                    if rv ≤ 1000 then true else st.forceClose,
                                  phase := .reqHead }
              match copyLineOut st.output st.outCap line with
              | none => (.TERMINATE, st)
              | some out => (.CONTINUE, { st with output := out })

/-- `HTTPParser::get_header_value` (src/http.cc lines 388-405); returns the
value span relative to the line, or nothing on error. -/
def getHeaderValue (line : List Nat) (colon : Nat) : Option Span :=
  let cl := colon + 1
  if cl + 2 ≥ line.length then none
  else
    match findNotLWSPFrom line cl with
    | none => none
    | some val => some (val, line.length - 2)

/-- `HTTPParser::parse_request_head` (src/http.cc lines 407-533). -/
def parseRequestHead (st : HeadState) : Status × HeadState :=
  let fsp := st.fl.getD (0, 0)
  let a := fsp.1
  let line := slice st.buf fsp
  let L := line.length
  if L = 2 then
    -- found the CRLFCRLF sequence
    let st :=
      if st.chunked then st
      else { st with skipChunk :=
        if st.contentLength = clUnset then 0 else st.contentLength }
    match copyModifiedHeadersOut st with
    | (true, out) => (.TERMINATE, { st with output := out })
    | (false, out) =>
      let st := { st with output := out }
      match copyLineOut st.output st.outCap line with
      | none => (.TERMINATE, st)
      | some out2 => (.PROCEED, { st with output := out2 })
      -- the source then rebases input_buf to the body remainder and widens
      -- output_buf to the emitted bytes; neither changes any parser field
  else
    match findB 58 line with
    | none => (.TERMINATE, st)
    | some colon =>
      let name := line.take colon
      match reqHeaderFind name with
      | .HOST =>
        match copyLineOut st.output st.outCap line with
        | none => (.TERMINATE, st)
        | some out =>
          let st := { st with output := out }
          match getHeaderValue line colon with
          | none => (.TERMINATE, st)
          | some vsp =>
            let hostSpan : Span := (a + vsp.1, a + vsp.2)
            let hostContent := slice st.buf hostSpan
            let res : Span × HeadState :=
              match findB 58 hostContent with
              | some c2 =>
                let st :=
                  if c2 + 1 < hostContent.length then
                    { st with port :=
                      (toU32 (stol (hostContent.drop (c2 + 1)) 10).value) }
                  else st
                ((hostSpan.1, hostSpan.1 + c2), st)
              | none => (hostSpan, st)
            match res with
            | (hsp, st) =>
              let st := { st with host := hsp }
              -- fix host terminator: save and zero the byte after the host
              let st := { st with hostTerminator := st.buf.getD hsp.2 0,
                                  buf := st.buf.set hsp.2 0 }
              (.CONTINUE, st)
      | .CONTENT_LENGTH =>
        match copyLineOut st.output st.outCap line with
        | none => (.TERMINATE, st)
        | some out =>
          let st := { st with output := out }
          match getHeaderValue line colon with
          | none => (.TERMINATE, st)
          | some vsp =>
            (.CONTINUE, { st with contentLength :=
              (toSizeT (stol ((line.take vsp.2).drop vsp.1) 10).value) })
      | .TRANSFER_ENCODING =>
        match copyLineOut st.output st.outCap line with
        | none => (.TERMINATE, st)
        | some out =>
          let st := { st with output := out }
          match getHeaderValue line colon with
          | none => (.TERMINATE, st)
          | some vsp =>
            (.CONTINUE,
             if ciEq ((line.take vsp.2).drop vsp.1) (strBytes "chunked") then
               { st with chunked := true }
             else st)
      | .CACHE_CONTROL =>
        match copyLineOut st.output st.outCap line with
        | none => (.TERMINATE, st)
        | some out =>
          let st := { st with output := out }
          match getHeaderValue line colon with
          | none => (.TERMINATE, st)
          | some vsp =>
            (.CONTINUE,
             if ciEq ((line.take vsp.2).drop vsp.1) (strBytes "no-transform") then
               { st with noTransform := true }
             else st)
      | .CONNECTION =>
        match copyLineOut st.output st.outCap line with
        | none => (.TERMINATE, st)
        | some out =>
          let st := { st with output := out }
          match getHeaderValue line colon with
          | none => (.TERMINATE, st)
          | some vsp =>
            let v := (line.take vsp.2).drop vsp.1
            (.CONTINUE,
             if ciEq v (strBytes "close") then { st with forceClose := true }
             else if ciEq v (strBytes "keep-alive") then
               { st with forceClose := false }
             else st)
      | .VIA => (.CONTINUE, { st with via := (a, a + L) })
      | .X_FORWARDED_FOR => (.CONTINUE, { st with xff := (a, a + L) })
      | .unknownHeader =>
        match copyLineOut st.output st.outCap line with
        | none => (.TERMINATE, st)
        | some out => (.CONTINUE, { st with output := out })

/-- `HTTPParser::parse_response_line` (src/http.cc lines 336-386). -/
def parseResponseLine (st : HeadState) : Status × HeadState :=
  let fsp := st.fl.getD (0, 0)
  let a := fsp.1
  let line := slice st.buf fsp
  let L := line.length
  match findB 47 line with
  | none => (.TERMINATE, st)
  | some sep =>
    let sep := sep + 1
    if sep + 2 ≥ L then (.TERMINATE, st)
    else
      match findBFrom SPC line sep with
      | none => (.TERMINATE, st)
      | some sp1 =>
        let st := { st with httpVersion := (a + sep, a + sp1) }
        let rv := parseHttpVersion ((line.take sp1).drop sep)
        let st := { st with responseVersion := rv }
        let st :=
          if rv > 1000 ∧ st.forceClose = false then
            { st with keepAlive := true }
          else st
        let sp1 := sp1 + 1
        if sp1 + 2 ≥ L then (.TERMINATE, st)
        else
          match findBFrom SPC line sp1 with
          | none => (.TERMINATE, st)
          | some sp2 =>
            let st := { st with statusCode := (a + sp1, a + sp2) }
            let sp2 := sp2 + 1
            if sp2 + 2 ≥ L then (.TERMINATE, st)
            else
              (.CONTINUE, { st with reasonPhrase := (a + sp2, a + L - 2),
                                    phase := .respHead })

/-- `HTTPParser::parse_response_head` (src/http.cc lines 535-596).
Response headers are not copied: the response buffer itself is forwarded. -/
def parseResponseHead (st : HeadState) : Status × HeadState :=
  let fsp := st.fl.getD (0, 0)
  let line := slice st.buf fsp
  let L := line.length
  if L = 2 then
    let st :=
      if st.chunked then st
      else { st with skipChunk :=
        if st.contentLength = clUnset then 0 else st.contentLength }
    (.PROCEED, st)
  else
    match findB 58 line with
    | none => (.TERMINATE, st)
    | some colon =>
      let name := line.take colon
      match respHeaderFind name with
      | .CONTENT_LENGTH =>
        match getHeaderValue line colon with
        | none => (.TERMINATE, st)
        | some vsp =>
          (.CONTINUE, { st with contentLength :=
            (toSizeT (stol ((line.take vsp.2).drop vsp.1) 10).value) })
      | .TRANSFER_ENCODING =>
        match getHeaderValue line colon with
        | none => (.TERMINATE, st)
        | some vsp =>
          (.CONTINUE,
           if ciEq ((line.take vsp.2).drop vsp.1) (strBytes "chunked") then
             { st with chunked := true }
           else st)
      | .CONNECTION =>
        match getHeaderValue line colon with
        | none => (.TERMINATE, st)
        | some vsp =>
          let v := (line.take vsp.2).drop vsp.1
          (.CONTINUE,
           if st.forceClose = false ∧ ciEq v (strBytes "keep-alive") then
             { st with keepAlive := true }
           else if ciEq v (strBytes "close") then
             { st with keepAlive := false }
           else st)
      | .unknownHeader => (.CONTINUE, st)

/-- The line-handler function pointer `parse_line`. -/
def parseLineDispatch (st : HeadState) : Status × HeadState :=
  match st.phase with
  | .reqLine => parseRequestLine st
  | .reqHead => parseRequestHead st
  | .respLine => parseResponseLine st
  | .respHead => parseResponseHead st

theorem findCRLFIn_lt : ∀ (l : List Nat) (j : Nat),
    findCRLFIn l = some j → j + 1 < l.length := by
  intro l
  induction l with
  | nil => intro j h; simp [findCRLFIn] at h
  | cons a t ih =>
    intro j h
    cases t with
    | nil => simp [findCRLFIn] at h
    | cons b rest =>
      simp only [findCRLFIn] at h
      by_cases hab : a = CR ∧ b = LF
      · simp [hab] at h
        simp only [List.length_cons]
        omega
      · simp [hab] at h
        obtain ⟨k, hk, hkj⟩ := h
        have := ih k hk
        simp only [List.length_cons] at *
        omega

theorem findCRLF_bounds {buf : List Nat} {s i : Nat}
    (h : findCRLF buf s = some i) : s ≤ i ∧ i + 1 < buf.length := by
  simp only [findCRLF, Option.map_eq_some'] at h
  obtain ⟨j, hj, hji⟩ := h
  have := findCRLFIn_lt _ _ hj
  simp only [List.length_drop] at this
  omega

/-- `HTTPParser::next_line` (src/http.cc lines 227-262).  The scan window
is `[s, buf.length)` and `s` only grows, so the loop is written with a
fuel argument; `nextLineF 0` coincides with the loop's exit when the scan
window is exhausted (an empty window has no CRLF).  Returns the new
`found_line`, the new scan position, the value stored into
`scan_buf_store` (if any), and whether a line was matched. -/
def nextLineF : Nat → List Nat → Option Span → Nat →
    Option Span × Nat × Option Nat × Bool
  | 0, _, fl, s => (fl, s, none, false)
  | fuel + 1, buf, fl, s =>
    match findCRLF buf s with
    | none => (fl, s, none, false)
    | some i =>
      if fl.isSome ∧ (fl.getD (0, 0)).2 ≠ i then
        if i + 2 = buf.length then (fl, s, some s, false)
        else if buf.getD (i + 2) 0 = SPC ∨ buf.getD (i + 2) 0 = HTAB then
          nextLineF fuel buf fl (i + 3)
        else
          (some ((match fl with | none => 0 | some f => f.2), i + 2),
           i + 2, none, true)
      else
        (some ((match fl with | none => 0 | some f => f.2), i + 2),
         i + 2, none, true)

/-- `next_line` with enough fuel for its scan window. -/
def nextLine (buf : List Nat) (fl : Option Span) (s : Nat) :
    Option Span × Nat × Option Nat × Bool :=
  nextLineF buf.length buf fl s

theorem findCRLF_none_of_ge {buf : List Nat} {s : Nat}
    (h : buf.length ≤ s) : findCRLF buf s = none := by
  unfold findCRLF
  rw [List.drop_eq_nil_of_le h]
  rfl

/-- Fuel irrelevance for `nextLineF`: any fuel covering the scan window
computes the same result. -/
theorem nextLineF_irrel : ∀ (f1 f2 : Nat) (buf : List Nat) (fl : Option Span)
    (s : Nat), buf.length ≤ s + f1 → buf.length ≤ s + f2 →
    nextLineF f1 buf fl s = nextLineF f2 buf fl s := by
  intro f1
  induction f1 with
  | zero =>
    intro f2 buf fl s h1 h2
    cases f2 with
    | zero => rfl
    | succ g =>
      simp only [nextLineF]
      rw [findCRLF_none_of_ge (by omega)]
  | succ f ih =>
    intro f2 buf fl s h1 h2
    cases f2 with
    | zero =>
      simp only [nextLineF]
      rw [findCRLF_none_of_ge (by omega)]
    | succ g =>
      cases hcr : findCRLF buf s with
      | none => simp only [nextLineF, hcr]
      | some i =>
        simp only [nextLineF, hcr]
        have hb := findCRLF_bounds hcr
        by_cases hne : fl.isSome ∧ (fl.getD (0, 0)).2 ≠ i
        · simp only [if_pos hne]
          by_cases hend : i + 2 = buf.length
          · simp [hend]
          · simp only [if_neg hend]
            by_cases hwsp : buf.getD (i + 2) 0 = SPC ∨ buf.getD (i + 2) 0 = HTAB
            · simp only [if_pos hwsp]
              exact ih g buf fl (i + 3) (by omega) (by omega)
            · rw [if_neg hwsp, if_neg hwsp]
        · rw [if_neg hne, if_neg hne]

theorem nextLineF_found_bounds : ∀ (fuel : Nat) (buf : List Nat)
    (fl : Option Span) (s : Nat) fl' s' store',
    nextLineF fuel buf fl s = (fl', s', store', true) →
    s + 2 ≤ s' ∧ s' ≤ buf.length := by
  intro fuel
  induction fuel with
  | zero => intro buf fl s fl' s' store' h; simp [nextLineF] at h
  | succ f ih =>
    intro buf fl s fl' s' store' h
    simp only [nextLineF] at h
    cases hcr : findCRLF buf s with
    | none => rw [hcr] at h; simp at h
    | some i =>
      rw [hcr] at h
      have hb := findCRLF_bounds hcr
      by_cases hne : fl.isSome ∧ (fl.getD (0, 0)).2 ≠ i
      · simp only [if_pos hne] at h
        by_cases hend : i + 2 = buf.length
        · simp [hend] at h
        · simp only [if_neg hend] at h
          by_cases hwsp : buf.getD (i + 2) 0 = SPC ∨ buf.getD (i + 2) 0 = HTAB
          · simp only [if_pos hwsp] at h
            have := ih buf fl (i + 3) fl' s' store' h
            omega
          · simp only [if_neg hwsp, Prod.mk.injEq] at h
            omega
      · simp only [if_neg hne, Prod.mk.injEq] at h
        omega

theorem parseRequestLine_buf (st : HeadState) :
    (parseRequestLine st).2.buf = st.buf := by
  simp only [parseRequestLine, copyLineOut]
  repeat' split
  all_goals rfl

theorem parseRequestHead_buf_len (st : HeadState) :
    (parseRequestHead st).2.buf.length = st.buf.length := by
  simp only [parseRequestHead, copyLineOut]
  repeat' split
  all_goals simp [List.length_set]

theorem parseResponseLine_buf (st : HeadState) :
    (parseResponseLine st).2.buf = st.buf := by
  simp only [parseResponseLine]
  repeat' split
  all_goals rfl

theorem parseResponseHead_buf (st : HeadState) :
    (parseResponseHead st).2.buf = st.buf := by
  simp only [parseResponseHead]
  repeat' split
  all_goals rfl

theorem parseLineDispatch_buf_len (st : HeadState) :
    (parseLineDispatch st).2.buf.length = st.buf.length := by
  unfold parseLineDispatch
  split
  · rw [parseRequestLine_buf]
  · rw [parseRequestHead_buf_len]
  · rw [parseResponseLine_buf]
  · rw [parseResponseHead_buf]

/-- The `while (next_line())` loop of `HTTPParser::parse_head`
(src/http.cc lines 618-624), with a fuel argument: the scan position
strictly grows by at least two per matched line and is bounded by the
buffer length, so any fuel with `buf.length + 2 ≤ s + 2 * fuel` is enough
(`parseHead` passes `buf.length + 1`).  Returns status, state and the
scan position reached. -/
def parseHeadLoopF : Nat → HeadState → Nat → Status × HeadState × Nat
  | 0, st, s => (.CONTINUE, { st with store := none }, s)
  | fuel + 1, st, s =>
    match nextLine st.buf st.fl s with
    | (fl', s', store', true) =>
      let st1 := { st with fl := fl' }
      match parseLineDispatch st1 with
      | (.CONTINUE, st2) => parseHeadLoopF fuel st2 s'
      | (res, st2) => (res, st2, s')
    | (fl', s', store', false) =>
      (.CONTINUE, { st with fl := fl', store := store' }, s')

theorem nextLineF_none_of_ge {buf : List Nat} {s : Nat} (fuel : Nat)
    (fl : Option Span) (h : buf.length ≤ s) :
    nextLineF fuel buf fl s = (fl, s, none, false) := by
  cases fuel with
  | zero => rfl
  | succ f =>
    simp only [nextLineF]
    rw [findCRLF_none_of_ge h]

/-- Fuel irrelevance for the head-line loop. -/
theorem parseHeadLoopF_irrel : ∀ (f1 f2 : Nat) (st : HeadState) (s : Nat),
    st.buf.length + 2 ≤ s + 2 * f1 → st.buf.length + 2 ≤ s + 2 * f2 →
    parseHeadLoopF f1 st s = parseHeadLoopF f2 st s := by
  intro f1
  induction f1 with
  | zero =>
    intro f2 st s h1 h2
    cases f2 with
    | zero => rfl
    | succ g =>
      simp only [parseHeadLoopF, nextLine]
      rw [nextLineF_none_of_ge _ _ (by omega)]
  | succ f ih =>
    intro f2 st s h1 h2
    cases f2 with
    | zero =>
      simp only [parseHeadLoopF, nextLine]
      rw [nextLineF_none_of_ge _ _ (by omega)]
    | succ g =>
      simp only [parseHeadLoopF]
      cases hnl : nextLine st.buf st.fl s with
      | mk fl' rest =>
        match rest with
        | (s', store', found) =>
          cases found with
          | false => simp
          | true =>
            simp only
            have hb := nextLineF_found_bounds st.buf.length st.buf st.fl s
              fl' s' store' hnl
            cases hpd : parseLineDispatch { st with fl := fl' } with
            | mk res st2 =>
              cases res with
              | CONTINUE =>
                simp only
                have hlen : st2.buf.length = st.buf.length := by
                  have := parseLineDispatch_buf_len { st with fl := fl' }
                  rw [hpd] at this
                  exact this
                exact ih g st2 s' (by omega) (by omega)
              | TERMINATE => simp
              | PROCEED => simp

/-- `HTTPParser::parse_head` (src/http.cc lines 598-626). -/
def parseHead (st0 : HeadState) (chunk : List Nat) : Status × HeadState :=
  let oldLen := st0.buf.length
  let stb := { st0 with buf := st0.buf ++ chunk }
  match
    (match stb.store with
     | some s0 => (s0, { stb with store := none })
     | none => (if oldLen ≥ 2 then oldLen - 1 else 0, stb)) with
  | (s, st) =>
    if st.buf.length - s < 2 then (.CONTINUE, st)
    else
      match parseHeadLoopF (st.buf.length + 1) st s with
      | (r, st', _) => (r, st')

/-- Feeding a sequence of recv chunks to `parse_head` one at a time,
stopping at the first status other than `CONTINUE`. -/
def feedHead (st : HeadState) : List (List Nat) → Status × HeadState
  | [] => (.CONTINUE, st)
  | c :: cs =>
    match parseHead st c with
    | (.CONTINUE, st1) => feedHead st1 cs
    | (r, st1) => (r, st1)

/-- The parser state after `HTTPParser::HTTPParser` (constructor calls
`reset()`; `parse_line` starts at the request line; the pre-formatted
local and peer address strings are constructor parameters here). -/
def initHead (localA peerA : List Nat) (cap : Nat) : HeadState :=
  { buf := [], fl := none, store := none, phase := .reqLine,
    method := (0, 0), requestUri := (0, 0), httpVersion := (0, 0),
    host := (0, 0), statusCode := (0, 0), reasonPhrase := (0, 0),
    via := (0, 0), xff := (0, 0), hostTerminator := 0, port := 80,
    contentLength := clUnset, chunked := false, keepAlive := false,
    forceClose := false, noTransform := false, requestVersion := 0,
    responseVersion := 0, skipChunk := 0, markerHoarder := clUnset,
    crlfSearch := .NO_SEARCH, bodyEnd := false, output := [], outCap := cap,
    localAddress := localA, peerAddress := peerA }

/-- `HTTPParser::reset` (src/http.h lines 106-116): note which fields it
does NOT touch (`via`, `x_forwarded_for`, `keep_alive`, `force_close`,
the versions, and the parsed request fields). -/
def resetParser (st : HeadState) : HeadState :=
  { st with port := 80, contentLength := clUnset, chunked := false,
            skipChunk := 0, markerHoarder := clUnset,
            crlfSearch := .NO_SEARCH, bodyEnd := false,
            noTransform := false }

/-- `HTTPParser::restart_request` (src/http.h lines 119-125): the caller
(`Frontend::write_callback`) resets the frontend buffer right after, so
the new input window is empty. -/
def restartRequest (st : HeadState) : HeadState :=
  { resetParser st with fl := none, phase := .reqLine, buf := [] }

/-- `HTTPParser::start_response` (src/http.h lines 127-134): the backend
buffer was reset by `Backend::write_callback` just before. -/
def startResponse (st : HeadState) : HeadState :=
  { resetParser st with fl := none, phase := .respLine, buf := [] }

/-! ## Session progress and the backend callbacks
(src/connection.h lines 381-390, src/connection.cc) -/

inductive Progress
  | REQUEST_STARTED
  | REQUEST_HEAD_FINISHED
  | REQUEST_FINISHED
  | RESPONSE_STARTED
  | RESPONSE_HEAD_FINISHED
  | RESPONSE_WAIT_SHUTDOWN
  | RESPONSE_FINISHED
deriving DecidableEq, Repr

def Progress.toNat : Progress → Nat
  | .REQUEST_STARTED => 0
  | .REQUEST_HEAD_FINISHED => 1
  | .REQUEST_FINISHED => 2
  | .RESPONSE_STARTED => 3
  | .RESPONSE_HEAD_FINISHED => 4
  | .RESPONSE_WAIT_SHUTDOWN => 5
  | .RESPONSE_FINISHED => 6

/-- The progress computed by `Proxy::Backend::read_callback` when
`parse_head` returns `PROCEED` for a response (src/connection.cc lines
420-424). -/
def backendProgressAfterHead (st : HeadState) : Progress :=
  if st.contentLength = 0 then .RESPONSE_FINISHED
  else if st.contentLength = clUnset ∧ st.chunked = false then
    (if st.keepAlive then .RESPONSE_FINISHED else .RESPONSE_WAIT_SHUTDOWN)
  else .RESPONSE_HEAD_FINISHED

/-- libev event masks. -/
def EV_READ : Nat := 1
def EV_WRITE : Nat := 2

/-- Decimal digits of a non-negative C `int`, as `IOBuffer::append(int)`
formats it with `%d`. -/
def decDigits (n : Nat) : List Nat := (Nat.toDigits 10 n).map Char.toNat

/-- `IOBuffer::append(buffer::string)`: copies at most the free size. -/
def bufAppend (buf : List Nat) (cap : Nat) (add : List Nat) : List Nat :=
  buf ++ add.take (cap - buf.length)

/-- `Proxy::Frontend::set_error` (src/connection.cc lines 244-250):
reset the frontend buffer, then
`appendm(err, strerror(err_no), " (", err_no, ")")`. -/
def setErrorBuf (cap : Nat) (err : List Nat) (errText : List Nat)
    (errNo : Nat) : List Nat :=
  let b := bufAppend [] cap err
  let b := bufAppend b cap errText
  let b := bufAppend b cap (strBytes " (")
  let b := bufAppend b cap (decDigits errNo)
  bufAppend b cap (strBytes ")")

/-- `BAD_GATEWAY` (src/connection.cc lines 309-314). -/
def BAD_GATEWAY : List Nat :=
  strBytes "HTTP/1.1 502 Bad Gateway\r\nConnection: close\r\nContent-Type: text/plain\r\n\r\n"

structure ErrCbResult where
  released : Bool
  progress : Progress
  backBuf : List Nat
  frontBuf : List Nat
  frontEvents : Nat
  backEvents : Nat
deriving DecidableEq, Repr

/-- `Proxy::Backend::error_callback` (src/connection.cc lines 316-330).
`strerror(err)` is a model parameter (`errText`).  `set_error` ends with
`start_only_events(EV_WRITE)` on the frontend, and the callback ends with
`stop_all_events()` on the backend. -/
def backendErrorCallback (p : Progress) (fbuf : List Nat) (fcap : Nat)
    (bbuf : List Nat) (fEv bEv : Nat) (errText : List Nat) (errNo : Nat) :
    ErrCbResult :=
  if p ≠ .REQUEST_FINISHED then
    -- proxy.release(): the session is returned to the pool
    ⟨true, p, bbuf, fbuf, fEv, bEv⟩
  else
    ⟨false, .RESPONSE_FINISHED, [],
     setErrorBuf fcap BAD_GATEWAY errText errNo, EV_WRITE, 0⟩

/-! ## The DNS name cache (src/cache.h lines 101-163)

`std::map` keyed by `DomainName` with the case-insensitive ordering of
`ci_char_traits` is modelled as an association list looked up with
case-insensitive equality (two keys are equal in the map exactly when
neither is `ci`-less than the other, i.e. when they are `ci`-equal); the
intrusive MRU list stores the entry names, most recently used first. -/

structure CacheEntry where
  name : List Nat
  ctime : Nat
  ip : Nat
deriving DecidableEq, Repr

structure NameCacheState where
  entries : List CacheEntry
  mru : List (List Nat)
deriving DecidableEq, Repr

/-- `NameCache::get` (src/cache.h lines 101-121) at time `now` with TTL
`ttl`: miss, expired-eviction, or hit with promotion to MRU front. -/
def cacheGet (c : NameCacheState) (name : List Nat) (ttl now : Nat) :
    Option Nat × NameCacheState :=
  match c.entries.find? (fun e => ciEq e.name name) with
  | none => (none, c)
  | some e =>
    if e.ctime + ttl < now then
      (none, ⟨c.entries.filter (fun e2 => !ciEq e2.name name),
              c.mru.filter (fun n => !ciEq n name)⟩)
    else
      (some e.ip,
       ⟨c.entries, e.name :: c.mru.filter (fun n => !ciEq n name)⟩)

/-! ## Body-phase plumbing -/

/-- Parser state at the start of a chunked body phase: after a head with
`Transfer-Encoding: chunked`, `reset()` left `skip_chunk = 0`,
`marker_hoarder = cl_unset`, `crlf_search = NO_SEARCH`,
`body_end = false`, and the head parser set `chunked = true`. -/
def initBody : BodyState :=
  ⟨.NO_SEARCH, 0, clUnset, false, true⟩

/-- Feeding recv chunks to `parse_body` one call at a time, stopping at
the first status other than `CONTINUE`; `lfAssertOk` accumulates over the
calls made. -/
def feedBody (st : BodyState) : List (List Nat) → BodyResult
  | [] => ⟨.CONTINUE, st, [], true⟩
  | c :: cs =>
    match parseBody st c with
    | ⟨.CONTINUE, st1, rest, ok⟩ =>
      (match cs with
       | [] => ⟨.CONTINUE, st1, rest, ok⟩
       | _ =>
         let r := feedBody st1 cs
         ⟨r.status, r.state, r.rest, ok && r.lfAssertOk⟩)
    | r => r

/-- The keep-alive restart performed by `Proxy::Frontend::write_callback`
(src/connection.cc lines 207-214): `parser.restart_request(buffer)` and
both buffers reset (the output buffer is the parser's emission target,
so the emitted bytes restart from empty). -/
def keepAliveRestart (st : HeadState) : HeadState :=
  { restartRequest st with output := [] }

/-- Whether `pat` occurs at the start of `big`. -/
def startsWithB : List Nat → List Nat → Bool
  | _, [] => true
  | [], _ :: _ => false
  | a :: as, b :: bs => a = b && startsWithB as bs

/-- Whether `pat` occurs contiguously anywhere inside `big`. -/
def containsSeq : List Nat → List Nat → Bool
  | [], pat => startsWithB [] pat
  | b :: t, pat => startsWithB (b :: t) pat || containsSeq t pat

/-- The sample addresses used in concrete runs: a local address
`10.0.0.1` (stored with its leading space and CRLF, as the constructor
formats it) and a peer address `5.6.7.8`. -/
def sampleLocal : List Nat := strBytes " 10.0.0.1\r\n"
def samplePeer : List Nat := strBytes "5.6.7.8\r\n"

/-- A freshly constructed parser with the sample addresses and the 4 KiB
buffer capacity of `Proxy`. -/
def sampleInit : HeadState := initHead sampleLocal samplePeer 4096

/-- Whether a byte is a hexadecimal digit as `buffer::stol` with base 16
accepts it. -/
def isHexB (c : Nat) : Bool :=
  match digitVal c with
  | some d => decide (d < 16)
  | none => false

/-- The value of a hex digit string continuing an accumulator. -/
def hexValFrom (acc : Nat) (ds : List Nat) : Nat :=
  ds.foldl (fun a c => a * 16 + (digitVal c).getD 0) acc

/-- The numeric value of a hexadecimal digit string. -/
def hexVal16 (ds : List Nat) : Nat := hexValFrom 0 ds

theorem hexValFrom_cons (acc c : Nat) (ds : List Nat) :
    hexValFrom acc (c :: ds) =
      hexValFrom (acc * 16 + (digitVal c).getD 0) ds := rfl

theorem hexValFrom_ge (ds : List Nat) : ∀ acc, acc ≤ hexValFrom acc ds := by
  induction ds with
  | nil => intro acc; simp [hexValFrom]
  | cons c t ih =>
    intro acc
    rw [hexValFrom_cons]
    have := ih (acc * 16 + (digitVal c).getD 0)
    omega

theorem hexValFrom_split (ds : List Nat) : ∀ acc,
    hexValFrom acc ds = acc * 16 ^ ds.length + hexVal16 ds := by
  induction ds with
  | nil => intro acc; simp [hexValFrom, hexVal16]
  | cons c t ih =>
    intro acc
    rw [hexValFrom_cons, ih]
    have h2 : hexVal16 (c :: t) =
        (digitVal c).getD 0 * 16 ^ t.length + hexVal16 t := by
      rw [hexVal16, hexValFrom_cons, ih]
      ring_nf
    rw [List.length_cons, h2, pow_succ]
    ring

theorem hexVal16_lt (ds : List Nat) (hhex : ∀ c ∈ ds, isHexB c = true) :
    hexVal16 ds < 16 ^ ds.length := by
  induction ds with
  | nil => simp [hexVal16, hexValFrom]
  | cons c t ih =>
    have hc := hhex c (by simp)
    have hd : (digitVal c).getD 0 < 16 := by
      unfold isHexB at hc
      cases hdv : digitVal c with
      | none => rw [hdv] at hc; simp at hc
      | some d => rw [hdv] at hc; simp at hc; simp [hdv, hc]
    have ht := ih (fun x hx => hhex x (by simp [hx]))
    rw [hexVal16, hexValFrom_cons, hexValFrom_split]
    simp only [List.length_cons, pow_succ]
    have h1 : (0 : Nat) * 16 + (digitVal c).getD 0 ≤ 15 := by omega
    calc ((0 : Nat) * 16 + (digitVal c).getD 0) * 16 ^ t.length + hexVal16 t
        ≤ 15 * 16 ^ t.length + hexVal16 t := by
          have := Nat.mul_le_mul_right (16 ^ t.length) h1
          omega
      _ < 15 * 16 ^ t.length + 16 ^ t.length := by omega
      _ = 16 ^ t.length * 16 := by ring
  -- goal matches up to commutativity of the final product

/-- `stolDigits` on an all-hex string whose value does not exceed
`LONG_MAX` consumes every digit, with `any = 1` once a digit was seen. -/
theorem stolDigits_hex : ∀ (ds : List Nat) (acc idx : Nat) (any : Int),
    (∀ c ∈ ds, isHexB c = true) →
    hexValFrom acc ds ≤ 2 ^ 63 - 1 →
    stolDigits 16 ((2 ^ 63 - 1) / 16) ((2 ^ 63 - 1) % 16) ds acc idx any =
      (hexValFrom acc ds, idx + ds.length,
       if ds.isEmpty then any else 1) := by
  intro ds
  induction ds with
  | nil => intro acc idx any _ _; simp [stolDigits, hexValFrom]
  | cons c t ih =>
    intro acc idx any hhex hbound
    have hc := hhex c (by simp)
    obtain ⟨d, hdv, hdlt⟩ : ∃ d, digitVal c = some d ∧ d < 16 := by
      unfold isHexB at hc
      cases hdv : digitVal c with
      | none => rw [hdv] at hc; simp at hc
      | some d => rw [hdv] at hc; simp at hc; exact ⟨d, rfl, hc⟩
    rw [hexValFrom_cons] at hbound ⊢
    simp only [stolDigits, hdv]
    have hnb : ¬ d ≥ 16 := by omega
    rw [if_neg hnb]
    have hacc : acc * 16 + d ≤ hexValFrom (acc * 16 + (digitVal c).getD 0) t := by
      have := hexValFrom_ge t (acc * 16 + (digitVal c).getD 0)
      simp [hdv] at this ⊢
      omega
    have hcut : ¬ (acc > (2 ^ 63 - 1) / 16 ∨
        (acc = (2 ^ 63 - 1) / 16 ∧ d > (2 ^ 63 - 1) % 16)) := by
      have hle : acc * 16 + d ≤ 2 ^ 63 - 1 := by
        simp only [hdv, Option.getD_some] at hbound hacc
        omega
      have hmod : (2 ^ 63 - 1) % 16 = 15 := by decide
      rintro (hgt | ⟨heq, hgt⟩)
      · have : acc ≤ (2 ^ 63 - 1) / 16 := by
          apply Nat.le_div_iff_mul_le (by omega) |>.mpr
          omega
        omega
      · omega
    rw [if_neg hcut]
    rw [ih (acc * 16 + d) (idx + 1) 1
      (fun x hx => hhex x (by simp [hx]))
      (by simp only [hdv, Option.getD_some] at hbound; exact hbound)]
    simp only [hdv, Option.getD_some, List.isEmpty_cons, ite_self,
      Prod.mk.injEq, List.length_cons]
    exact ⟨by simp, by omega, by simp⟩

/-- `buffer::stol` on a non-empty all-hex string of value at most
`LONG_MAX`: the whole string is consumed without error. -/
theorem stol_hex (ds : List Nat) (hne : ds ≠ [])
    (hhex : ∀ c ∈ ds, isHexB c = true)
    (hb : hexVal16 ds ≤ 2 ^ 63 - 1) :
    stol ds 16 = ⟨(hexVal16 ds : Nat), ds.length, false⟩ := by
  match ds, hne with
  | c :: rest, _ =>
    have hc := hhex c (by simp)
    have h45 : c ≠ 45 := by
      intro he; rw [he] at hc; exact absurd hc (by decide)
    have h43 : c ≠ 43 := by
      intro he; rw [he] at hc; exact absurd hc (by decide)
    simp only [stol]
    rw [if_neg h45, if_neg h43]
    unfold stolAfterSign
    rw [if_neg (by simp)]
    simp only [Bool.false_eq_true, if_false]
    rw [stolDigits_hex (c :: rest) 0 0 0 hhex (by simpa [hexVal16] using hb)]
    simp only [List.isEmpty_cons, if_false, ite_self]
    simp [hexVal16]

theorem bufAppend_of_le {buf add : List Nat} {cap : Nat}
    (h : buf.length + add.length ≤ cap) :
    bufAppend buf cap add = buf ++ add := by
  unfold bufAppend
  congr 1
  apply List.take_of_length_le
  omega

theorem setErrorBuf_eq {cap : Nat} {e t : List Nat} {n : Nat}
    (h : e.length + t.length + (decDigits n).length + 3 ≤ cap) :
    setErrorBuf cap e t n =
      e ++ t ++ strBytes " (" ++ decDigits n ++ strBytes ")" := by
  have h2 : (strBytes " (").length = 2 := rfl
  have h1 : (strBytes ")").length = 1 := rfl
  simp only [setErrorBuf]
  rw [@bufAppend_of_le [] e cap (by simp; omega)]
  rw [List.nil_append]
  rw [@bufAppend_of_le e t cap (by omega)]
  rw [@bufAppend_of_le (e ++ t) (strBytes " (") cap
    (by simp only [List.length_append, h2]; omega)]
  rw [@bufAppend_of_le (e ++ t ++ strBytes " (") (decDigits n) cap
    (by simp only [List.length_append, h2]; omega)]
  rw [@bufAppend_of_le (e ++ t ++ strBytes " (" ++ decDigits n)
    (strBytes ")") cap
    (by simp only [List.length_append, h2, h1]; omega)]

theorem isHexB_ne {c : Nat} (h : isHexB c = true) : c ≠ CR ∧ c ≠ SEMI := by
  constructor <;> intro he <;> rw [he] at h <;> exact absurd h (by decide)

theorem toSizeT_coe {v : Nat} (h : v < 2 ^ 64) : toSizeT (v : Int) = v := by
  unfold toSizeT
  rw [Int.emod_eq_of_lt (by positivity) (by exact_mod_cast h)]
  simp

theorem mul_pred_div (m k : Nat) (hm : 0 < m) (hk : 0 < k) :
    (m * k - 1) / m = k - 1 := by
  rcases k with _ | k'
  · omega
  · rcases m with _ | m'
    · omega
    · have hprod : (m' + 1) * (k' + 1) = (m' + 1) * k' + (m' + 1) := by ring
      apply Nat.div_eq_of_lt_le
      · have h2 : (k' + 1 - 1) * (m' + 1) = (m' + 1) * k' := by
          simp only [Nat.add_sub_cancel]
          ring
        omega
      · have h3 : (k' + 1 - 1 + 1) * (m' + 1) = (m' + 1) * (k' + 1) := by
          simp only [Nat.add_sub_cancel]
          ring
        omega

theorem shift_no_overflow (h bits part : Nat)
    (hle : h ≤ (2 ^ 64 - 1) / 2 ^ bits) (hp1 : part < 2 ^ bits)
    (hp2 : part < 2 ^ 64) : h * 2 ^ bits + part < 2 ^ 64 := by
  by_cases hb : bits ≤ 64
  · have hdvd : 2 ^ bits * 2 ^ (64 - bits) = 2 ^ 64 := by
      rw [← pow_add]
      congr 1
      omega
    have hfloor : (2 ^ 64 - 1) / 2 ^ bits = 2 ^ (64 - bits) - 1 := by
      rw [← hdvd]
      exact mul_pred_div _ _ (by positivity) (by positivity)
    rw [hfloor] at hle
    have hpos : 0 < 2 ^ (64 - bits) := by positivity
    have h1 : h + 1 ≤ 2 ^ (64 - bits) := by omega
    have h2 : (h + 1) * 2 ^ bits ≤ 2 ^ (64 - bits) * 2 ^ bits :=
      Nat.mul_le_mul_right _ h1
    have h3 : (h + 1) * 2 ^ bits = h * 2 ^ bits + 2 ^ bits := by ring
    have h4 : 2 ^ (64 - bits) * 2 ^ bits = 2 ^ 64 := by
      rw [← pow_add]
      congr 1
      omega
    omega
  · have hlt : 2 ^ 64 - 1 < 2 ^ bits := by
      have : (2 : Nat) ^ 64 ≤ 2 ^ bits := Nat.pow_le_pow_right (by omega) (by omega)
      have : (1 : Nat) ≤ 2 ^ 64 := Nat.one_le_two_pow
      omega
    rw [Nat.div_eq_of_lt hlt] at hle
    have : h = 0 := by omega
    subst this
    simpa using hp2

/-! ## A grammar of well-formed chunked bodies

RFC 7230 chunked bodies: a sequence of non-empty chunks (hex size marker,
optional extension introduced by `;`, CRLF, payload, CRLF), a zero-valued
last marker, an optional trailer of header lines, and the final CRLF.
Extension and trailer-line bytes exclude CR and LF, as the RFC grammar
does. -/

def catB : List (List Nat) → List Nat
  | [] => []
  | c :: cs => c ++ catB cs

/-- One non-empty chunk: size digits, extension, payload. -/
structure ChunkSp where
  ds : List Nat
  ext : List Nat
  data : List Nat

def chunkBytes (c : ChunkSp) : List Nat :=
  c.ds ++ c.ext ++ [CR, LF] ++ c.data ++ [CR, LF]

def lineBytes (l : List Nat) : List Nat := l ++ [CR, LF]

/-- Trailer section bytes: the trailer lines, then the final CRLF. -/
def trailerBytes (tr : List (List Nat)) : List Nat :=
  catB (tr.map lineBytes) ++ [CR, LF]

/-- Everything from some chunk's marker to the end of the body. -/
structure BTail where
  chunks : List ChunkSp
  lds : List Nat
  lext : List Nat
  trailer : List (List Nat)

def tailBytes (t : BTail) : List Nat :=
  catB (t.chunks.map chunkBytes) ++
    t.lds ++ t.lext ++ [CR, LF] ++ trailerBytes t.trailer

def extOk (e : List Nat) : Prop :=
  (e = [] ∨ ∃ t, e = SEMI :: t) ∧ ∀ x ∈ e, x ≠ CR ∧ x ≠ LF

def chunkOk (c : ChunkSp) : Prop :=
  c.ds ≠ [] ∧ (∀ x ∈ c.ds, isHexB x = true) ∧
  hexVal16 c.ds = c.data.length ∧ 0 < c.data.length ∧
  c.data.length ≤ 2 ^ 63 - 1 ∧ extOk c.ext

def lineOk (l : List Nat) : Prop := l ≠ [] ∧ ∀ x ∈ l, x ≠ CR ∧ x ≠ LF

def tailOk (t : BTail) : Prop :=
  (∀ c ∈ t.chunks, chunkOk c) ∧
  t.lds ≠ [] ∧ (∀ x ∈ t.lds, isHexB x = true) ∧ hexVal16 t.lds = 0 ∧
  extOk t.lext ∧ ∀ l ∈ t.trailer, lineOk l

/-- What follows the current chunk's marker: either the chunk's payload
and then the rest of the body, or — for the zero-valued last marker —
the trailer section. -/
inductive Pay where
  | chunk (data : List Nat) (t : BTail)
  | last (tr : List (List Nat))

def payBytes : Pay → List Nat
  | .chunk data t => data ++ [CR, LF] ++ tailBytes t
  | .last tr => trailerBytes tr

def payVal : Pay → Nat
  | .chunk data _ => data.length
  | .last _ => 0

def payOk : Pay → Prop
  | .chunk data t => 0 < data.length ∧ data.length ≤ 2 ^ 63 - 1 ∧ tailOk t
  | .last tr => ∀ l ∈ tr, lineOk l

/-- A resumption point of the chunked-body machine inside a well-formed
body: the remaining input bytes together with the `parse_body` state the
machine holds when a recv boundary falls there. -/
inductive Conf where
  | marker (pre suf e : List Nat) (pay : Pay)
  | markerScan (esuf : List Nat) (pay : Pay)
  | markerLF (pay : Pay)
  | inData (dsuf : List Nat) (t : BTail)
  | afterData (t : BTail)
  | afterDataCR (t : BTail)
  | trailerStart (tr : List (List Nat))
  | inLine (lsuf : List Nat) (tr : List (List Nat))
  | lineCR (tr : List (List Nat))
  | lineLF (tr : List (List Nat))
  | finalTrailerCR
  | finalChunkCR

def confBytes : Conf → List Nat
  | .marker _ suf e pay => suf ++ e ++ [CR, LF] ++ payBytes pay
  | .markerScan esuf pay => esuf ++ [CR, LF] ++ payBytes pay
  | .markerLF pay => LF :: payBytes pay
  | .inData dsuf t => dsuf ++ [CR, LF] ++ tailBytes t
  | .afterData t => CR :: LF :: tailBytes t
  | .afterDataCR t => LF :: tailBytes t
  | .trailerStart tr => trailerBytes tr
  | .inLine lsuf tr => lsuf ++ [CR, LF] ++ trailerBytes tr
  | .lineCR tr => LF :: trailerBytes tr
  | .lineLF tr => trailerBytes tr
  | .finalTrailerCR => [LF]
  | .finalChunkCR => [LF]

def confState : Conf → BodyState
  | .marker pre _ _ _ =>
    ⟨.NO_SEARCH, 0, if pre = [] then clUnset else hexVal16 pre, false, true⟩
  | .markerScan _ pay => ⟨.MARKER_CR_SEARCH, 0, payVal pay, false, true⟩
  | .markerLF pay => ⟨.MARKER_LF_EXPECT, 0, payVal pay, false, true⟩
  | .inData dsuf _ => ⟨.NO_SEARCH, dsuf.length, clUnset, false, true⟩
  | .afterData _ => ⟨.CHUNK_CR_EXPECT, 0, clUnset, false, true⟩
  | .afterDataCR _ => ⟨.CHUNK_LF_EXPECT, 0, clUnset, false, true⟩
  | .trailerStart _ => ⟨.CHUNK_CR_EXPECT, 0, 0, true, true⟩
  | .inLine _ _ => ⟨.TRAILER_CR_SEARCH, 0, 0, true, true⟩
  | .lineCR _ => ⟨.TRAILER_LF_EXPECT, 0, 0, true, true⟩
  | .lineLF _ => ⟨.TRAILER_CR2_EXPECT, 0, 0, true, true⟩
  | .finalTrailerCR => ⟨.TRAILER_LF2_EXPECT, 0, 0, true, true⟩
  | .finalChunkCR => ⟨.CHUNK_LF_EXPECT, 0, 0, true, true⟩

def confOk : Conf → Prop
  | .marker pre suf e pay =>
    pre ++ suf ≠ [] ∧ (∀ x ∈ pre, isHexB x = true) ∧
    (∀ x ∈ suf, isHexB x = true) ∧ hexVal16 (pre ++ suf) = payVal pay ∧
    extOk e ∧ payOk pay
  | .markerScan esuf pay => (∀ x ∈ esuf, x ≠ CR ∧ x ≠ LF) ∧ payOk pay
  | .markerLF pay => payOk pay
  | .inData dsuf t => dsuf ≠ [] ∧ tailOk t
  | .afterData t => tailOk t
  | .afterDataCR t => tailOk t
  | .trailerStart tr => ∀ l ∈ tr, lineOk l
  | .inLine lsuf tr => (∀ x ∈ lsuf, x ≠ CR ∧ x ≠ LF) ∧ ∀ l ∈ tr, lineOk l
  | .lineCR tr => ∀ l ∈ tr, lineOk l
  | .lineLF tr => ∀ l ∈ tr, lineOk l
  | .finalTrailerCR => True
  | .finalChunkCR => True

/-- Extra fuel needed at a marker resumption point: the `NO_SEARCH`
fall-through may re-enter the state switch without consuming a byte. -/
def markerFuel : Conf → Nat
  | .marker _ _ _ _ => 1
  | _ => 0

theorem hexValFrom_append (acc : Nat) (a b : List Nat) :
    hexValFrom acc (a ++ b) = hexValFrom (hexValFrom acc a) b := by
  simp [hexValFrom, List.foldl_append]

theorem hexVal16_append (a b : List Nat) :
    hexVal16 (a ++ b) = hexVal16 a * 16 ^ b.length + hexVal16 b := by
  rw [hexVal16, hexValFrom_append, hexValFrom_split]
  rfl

theorem hexVal16_prefix_le (a b : List Nat) :
    hexVal16 a ≤ hexVal16 (a ++ b) := by
  simp only [hexVal16, hexValFrom_append]
  exact hexValFrom_ge b _

theorem pow16 (k : Nat) : (16 : Nat) ^ k = 2 ^ (k * 4) := by
  rw [show (16 : Nat) = 2 ^ 4 from rfl, ← pow_mul, Nat.mul_comm]

/-- `stolDigits` stops at the first non-hex byte (base 16). -/
theorem stolDigits_stop (cutoff cutlim : Nat) (c : Nat) (r : List Nat)
    (acc idx : Nat) (any : Int) (hc : isHexB c = false) :
    stolDigits 16 cutoff cutlim (c :: r) acc idx any = (acc, idx, any) := by
  simp only [stolDigits]
  unfold isHexB at hc
  cases hdv : digitVal c with
  | none => simp [hdv]
  | some d =>
    rw [hdv] at hc
    simp only [decide_eq_false_iff_not] at hc
    simp only [hdv]
    rw [if_pos (by omega)]

/-- `stolDigits` on hex digits followed by a non-hex byte consumes
exactly the digits. -/
theorem stolDigits_hex_app : ∀ (ds : List Nat) (r : List Nat)
    (acc idx : Nat) (any : Int),
    (∀ c ∈ ds, isHexB c = true) →
    hexValFrom acc ds ≤ 2 ^ 63 - 1 →
    (r = [] ∨ ∃ c t, r = c :: t ∧ isHexB c = false) →
    stolDigits 16 ((2 ^ 63 - 1) / 16) ((2 ^ 63 - 1) % 16) (ds ++ r) acc idx any =
      (hexValFrom acc ds, idx + ds.length,
       if ds.isEmpty then any else 1) := by
  intro ds
  induction ds with
  | nil =>
    intro r acc idx any _ _ hr
    rcases hr with rfl | ⟨c, t, rfl, hc⟩
    · simp [stolDigits, hexValFrom]
    · rw [List.nil_append, stolDigits_stop _ _ _ _ _ _ _ hc]
      simp [hexValFrom]
  | cons c t ih =>
    intro r acc idx any hhex hbound hr
    have hc := hhex c (by simp)
    obtain ⟨d, hdv, hdlt⟩ : ∃ d, digitVal c = some d ∧ d < 16 := by
      unfold isHexB at hc
      cases hdv : digitVal c with
      | none => rw [hdv] at hc; simp at hc
      | some d => rw [hdv] at hc; simp at hc; exact ⟨d, rfl, hc⟩
    rw [hexValFrom_cons] at hbound ⊢
    simp only [List.cons_append, stolDigits, hdv, List.append_eq]
    have hnb : ¬ d ≥ 16 := by omega
    rw [if_neg hnb]
    have hacc : acc * 16 + d ≤ hexValFrom (acc * 16 + (digitVal c).getD 0) t := by
      have := hexValFrom_ge t (acc * 16 + (digitVal c).getD 0)
      simp [hdv] at this ⊢
      omega
    have hcut : ¬ (acc > (2 ^ 63 - 1) / 16 ∨
        (acc = (2 ^ 63 - 1) / 16 ∧ d > (2 ^ 63 - 1) % 16)) := by
      have hle : acc * 16 + d ≤ 2 ^ 63 - 1 := by
        simp only [hdv, Option.getD_some] at hbound hacc
        omega
      have hmod : (2 ^ 63 - 1) % 16 = 15 := by decide
      rintro (hgt | ⟨heq, hgt⟩)
      · have : acc ≤ (2 ^ 63 - 1) / 16 := by
          apply Nat.le_div_iff_mul_le (by omega) |>.mpr
          omega
        omega
      · omega
    rw [if_neg hcut]
    rw [ih r (acc * 16 + d) (idx + 1) 1
      (fun x hx => hhex x (by simp [hx]))
      (by simp only [hdv, Option.getD_some] at hbound; exact hbound) hr]
    simp only [hdv, Option.getD_some, List.isEmpty_cons, ite_self,
      Prod.mk.injEq, List.length_cons]
    exact ⟨by simp, by omega, by simp⟩

/-- `buffer::stol` on hex digits followed by a non-hex byte. -/
theorem stol_hex_app (ds r : List Nat) (hne : ds ≠ [])
    (hhex : ∀ c ∈ ds, isHexB c = true)
    (hb : hexVal16 ds ≤ 2 ^ 63 - 1)
    (hr : r = [] ∨ ∃ c t, r = c :: t ∧ isHexB c = false) :
    stol (ds ++ r) 16 = ⟨(hexVal16 ds : Nat), ds.length, false⟩ := by
  match ds, hne with
  | c :: rest, _ =>
    have hc := hhex c (by simp)
    have h45 : c ≠ 45 := by
      intro he; rw [he] at hc; exact absurd hc (by decide)
    have h43 : c ≠ 43 := by
      intro he; rw [he] at hc; exact absurd hc (by decide)
    simp only [List.cons_append, stol]
    rw [if_neg h45, if_neg h43]
    unfold stolAfterSign
    rw [if_neg (by simp)]
    simp only [Bool.false_eq_true, if_false]
    rw [show (c :: (rest ++ r)) = (c :: rest) ++ r from rfl]
    rw [stolDigits_hex_app (c :: rest) r 0 0 0 hhex
      (by simpa [hexVal16] using hb) hr]
    simp only [List.isEmpty_cons, if_false, ite_self]
    simp [hexVal16]

theorem findCR_none (l : List Nat) (h : ∀ x ∈ l, x ≠ CR) :
    findCR l = none := by
  induction l with
  | nil => rfl
  | cons b t ih =>
    simp only [findCR]
    rw [if_neg (h b (by simp)), ih (fun x hx => h x (by simp [hx]))]
    rfl

theorem findCR_app (a : List Nat) (r : List Nat) (h : ∀ x ∈ a, x ≠ CR) :
    findCR (a ++ CR :: r) = some a.length := by
  induction a with
  | nil => simp [findCR]
  | cons b t ih =>
    simp only [List.cons_append, findCR, List.append_eq]
    rw [if_neg (h b (by simp)), ih (fun x hx => h x (by simp [hx]))]
    simp

theorem payVal_le (pay : Pay) (h : payOk pay) : payVal pay ≤ 2 ^ 63 - 1 := by
  cases pay with
  | chunk data t => exact h.2.1
  | last tr => exact Nat.zero_le _

theorem confBytes_ne (d : Conf) : confBytes d ≠ [] := by
  cases d <;> simp [confBytes, trailerBytes, payBytes, tailBytes]

/-! ### One-step unfoldings of `parseBodyF` by machine state -/

theorem pbF_nil (f : Nat) (st : BodyState) (hf : 1 ≤ f) :
    parseBodyF f st [] = ⟨.CONTINUE, st, [], true⟩ := by
  match f, hf with
  | g + 1, _ => rfl

theorem pbF_no_search (f sk mh : Nat) (be ch : Bool) (recv : List Nat)
    (h : recv ≠ []) :
    parseBodyF (f + 1) ⟨.NO_SEARCH, sk, mh, be, ch⟩ recv =
      if sk ≥ recv.length then
        if sk - recv.length = 0 then
          if ch = false then
            ⟨.PROCEED, ⟨.NO_SEARCH, sk - recv.length, mh, be, ch⟩, recv, true⟩
          else
            ⟨.CONTINUE, ⟨.CHUNK_CR_EXPECT, sk - recv.length, mh, be, ch⟩, recv, true⟩
        else ⟨.CONTINUE, ⟨.NO_SEARCH, sk - recv.length, mh, be, ch⟩, recv, true⟩
      else if sk > 0 then
        if ch = false then ⟨.PROCEED, ⟨.NO_SEARCH, sk, mh, be, ch⟩, recv, true⟩
        else parseBodyF f ⟨.CHUNK_CR_EXPECT, 0, mh, be, ch⟩ (recv.drop sk)
      else if mh ≠ clUnset ∧ (recv.headD 0 = CR ∨ recv.headD 0 = SEMI) then
        parseBodyF f ⟨.MARKER_CR_SEARCH, sk, mh, be, ch⟩ recv
      else
        if (stol recv 16).err then
          ⟨.TERMINATE, ⟨.NO_SEARCH, sk, mh, be, ch⟩, recv, true⟩
        else
          if (stol recv 16).idx < recv.length ∧
              recv.getD ((stol recv 16).idx) 0 ≠ SEMI ∧
              recv.getD ((stol recv 16).idx) 0 ≠ CR then
            ⟨.TERMINATE, ⟨.NO_SEARCH, sk, mh, be, ch⟩, recv, true⟩
          else
            match
              (if mh = clUnset then
                some (⟨.NO_SEARCH, sk, toSizeT (stol recv 16).value, be, ch⟩ : BodyState)
              else
                if mh > SIZE_MAX / 2 ^ ((stol recv 16).idx * 4) then none
                else some ⟨.NO_SEARCH, sk,
                  (mh * 2 ^ ((stol recv 16).idx * 4) +
                    toSizeT (stol recv 16).value) % 2 ^ 64, be, ch⟩) with
            | none => ⟨.TERMINATE, ⟨.NO_SEARCH, sk, mh, be, ch⟩, recv, true⟩
            | some st2 =>
              if (stol recv 16).idx = recv.length then ⟨.CONTINUE, st2, recv, true⟩
              else
                parseBodyF f { st2 with crlfSearch := .MARKER_CR_SEARCH }
                  (recv.drop ((stol recv 16).idx)) := by
  obtain ⟨b, r, rfl⟩ := List.exists_cons_of_ne_nil h
  rfl

theorem pbF_marker_cr (f sk mh : Nat) (be ch : Bool) (recv : List Nat)
    (h : recv ≠ []) :
    parseBodyF (f + 1) ⟨.MARKER_CR_SEARCH, sk, mh, be, ch⟩ recv =
      match findCR recv with
      | none => ⟨.CONTINUE, ⟨.MARKER_CR_SEARCH, sk, mh, be, ch⟩, recv, true⟩
      | some cr =>
        if cr = recv.length - 1 then
          ⟨.CONTINUE, ⟨.MARKER_LF_EXPECT, sk, mh, be, ch⟩, recv, true⟩
        else if recv.getD (cr + 1) 0 = LF then
          if mh = 0 then
            parseBodyF f ⟨.CHUNK_CR_EXPECT, sk, mh, true, ch⟩ (recv.drop (cr + 2))
          else
            parseBodyF f ⟨.NO_SEARCH, mh, clUnset, be, ch⟩ (recv.drop (cr + 2))
        else
          parseBodyF f ⟨.MARKER_CR_SEARCH, sk, mh, be, ch⟩ (recv.drop (cr + 1)) := by
  obtain ⟨b, r, rfl⟩ := List.exists_cons_of_ne_nil h
  rfl

theorem pbF_marker_lf (f sk mh : Nat) (be ch : Bool) (recv : List Nat)
    (h : recv ≠ []) :
    parseBodyF (f + 1) ⟨.MARKER_LF_EXPECT, sk, mh, be, ch⟩ recv =
      if recv.headD 0 = LF then
        if mh = 0 then
          parseBodyF f ⟨.CHUNK_CR_EXPECT, sk, mh, true, ch⟩ recv.tail
        else
          parseBodyF f ⟨.NO_SEARCH, mh, clUnset, be, ch⟩ recv.tail
      else parseBodyF f ⟨.MARKER_CR_SEARCH, sk, mh, be, ch⟩ recv.tail := by
  obtain ⟨b, r, rfl⟩ := List.exists_cons_of_ne_nil h
  rfl

theorem pbF_chunk_cr (f sk mh : Nat) (be ch : Bool) (recv : List Nat)
    (h : recv ≠ []) :
    parseBodyF (f + 1) ⟨.CHUNK_CR_EXPECT, sk, mh, be, ch⟩ recv =
      if recv.headD 0 ≠ CR then
        if be then parseBodyF f ⟨.TRAILER_CR_SEARCH, sk, mh, be, ch⟩ recv.tail
        else ⟨.TERMINATE, ⟨.CHUNK_CR_EXPECT, sk, mh, be, ch⟩, recv, true⟩
      else parseBodyF f ⟨.CHUNK_LF_EXPECT, sk, mh, be, ch⟩ recv.tail := by
  obtain ⟨b, r, rfl⟩ := List.exists_cons_of_ne_nil h
  rfl

theorem pbF_chunk_lf (f sk mh : Nat) (be ch : Bool) (recv : List Nat)
    (h : recv ≠ []) :
    parseBodyF (f + 1) ⟨.CHUNK_LF_EXPECT, sk, mh, be, ch⟩ recv =
      if recv.headD 0 ≠ LF then
        ⟨.TERMINATE, ⟨.CHUNK_LF_EXPECT, sk, mh, be, ch⟩, recv, true⟩
      else if be then
        ⟨.PROCEED, ⟨.CHUNK_LF_EXPECT, sk, mh, be, ch⟩, recv,
          decide (recv.length = 1)⟩
      else parseBodyF f ⟨.NO_SEARCH, sk, mh, be, ch⟩ recv.tail := by
  obtain ⟨b, r, rfl⟩ := List.exists_cons_of_ne_nil h
  rfl

theorem pbF_trailer_cr (f sk mh : Nat) (be ch : Bool) (recv : List Nat)
    (h : recv ≠ []) :
    parseBodyF (f + 1) ⟨.TRAILER_CR_SEARCH, sk, mh, be, ch⟩ recv =
      match findCR recv with
      | none => ⟨.CONTINUE, ⟨.TRAILER_CR_SEARCH, sk, mh, be, ch⟩, recv, true⟩
      | some cr =>
        parseBodyF f ⟨.TRAILER_LF_EXPECT, sk, mh, be, ch⟩ (recv.drop (cr + 1)) := by
  obtain ⟨b, r, rfl⟩ := List.exists_cons_of_ne_nil h
  rfl

theorem pbF_trailer_lf (f sk mh : Nat) (be ch : Bool) (recv : List Nat)
    (h : recv ≠ []) :
    parseBodyF (f + 1) ⟨.TRAILER_LF_EXPECT, sk, mh, be, ch⟩ recv =
      if recv.headD 0 ≠ LF then
        parseBodyF f ⟨.TRAILER_CR_SEARCH, sk, mh, be, ch⟩ recv.tail
      else parseBodyF f ⟨.TRAILER_CR2_EXPECT, sk, mh, be, ch⟩ recv.tail := by
  obtain ⟨b, r, rfl⟩ := List.exists_cons_of_ne_nil h
  rfl

theorem pbF_trailer_cr2 (f sk mh : Nat) (be ch : Bool) (recv : List Nat)
    (h : recv ≠ []) :
    parseBodyF (f + 1) ⟨.TRAILER_CR2_EXPECT, sk, mh, be, ch⟩ recv =
      if recv.headD 0 ≠ CR then
        parseBodyF f ⟨.TRAILER_CR_SEARCH, sk, mh, be, ch⟩ recv.tail
      else parseBodyF f ⟨.TRAILER_LF2_EXPECT, sk, mh, be, ch⟩ recv.tail := by
  obtain ⟨b, r, rfl⟩ := List.exists_cons_of_ne_nil h
  rfl

theorem pbF_trailer_lf2 (f sk mh : Nat) (be ch : Bool) (recv : List Nat)
    (h : recv ≠ []) :
    parseBodyF (f + 1) ⟨.TRAILER_LF2_EXPECT, sk, mh, be, ch⟩ recv =
      if recv.headD 0 ≠ LF then
        parseBodyF f ⟨.TRAILER_CR_SEARCH, sk, mh, be, ch⟩ recv.tail
      else ⟨.PROCEED, ⟨.TRAILER_LF2_EXPECT, sk, mh, be, ch⟩, recv, true⟩ := by
  obtain ⟨b, r, rfl⟩ := List.exists_cons_of_ne_nil h
  rfl

/-! ### The chunk-step simulation -/

def confStep (fuel : Nat) (d : Conf) (n : Nat) : BodyResult :=
  parseBodyF fuel (confState d) ((confBytes d).take n)

/-- One `parse_body` call on the first `n` bytes remaining at resumption
point `d` either finishes the body (`n` covers everything remaining, the
machine returns `PROCEED` with the window at the final LF) or consumes
the whole recv chunk, returning `CONTINUE` in the state of the resumption
point `n` bytes further on. -/
def stepOut (fuel : Nat) (d : Conf) (n : Nat) : Prop :=
  if n = (confBytes d).length then
    (confStep fuel d n).status = .PROCEED ∧
    (confStep fuel d n).rest = [LF] ∧
    (confStep fuel d n).lfAssertOk = true
  else
    ∃ d', confOk d' ∧ confBytes d' = (confBytes d).drop n ∧
      (confStep fuel d n).status = .CONTINUE ∧
      (confStep fuel d n).state = confState d' ∧
      (confStep fuel d n).lfAssertOk = true

def StepIH (f : Nat) : Prop :=
  ∀ (d : Conf) (n : Nat), confOk d → n ≤ (confBytes d).length →
    2 * n + 1 + markerFuel d ≤ f → stepOut f d n

theorem step_zero (f : Nat) (d : Conf) (hok : confOk d) (hf : 1 ≤ f) :
    stepOut f d 0 := by
  unfold stepOut confStep
  rw [if_neg (by
    intro hx
    exact confBytes_ne d (List.length_eq_zero.mp hx.symm))]
  refine ⟨d, hok, by simp, ?_⟩
  rw [List.take_zero, pbF_nil f _ hf]
  exact ⟨rfl, rfl, rfl⟩

theorem stepOut_transfer (f g : Nat) (d d2 : Conf) (n m : Nat)
    (hres : confStep g d n = confStep f d2 m)
    (hlen : n = (confBytes d).length ↔ m = (confBytes d2).length)
    (hdrop : (confBytes d2).drop m = (confBytes d).drop n)
    (h : stepOut f d2 m) : stepOut g d n := by
  unfold stepOut at h ⊢
  rw [hres]
  by_cases hc : m = (confBytes d2).length
  · rw [if_pos (hlen.mpr hc)]
    rw [if_pos hc] at h
    exact h
  · rw [if_neg (fun hx => hc (hlen.mp hx))]
    rw [if_neg hc] at h
    obtain ⟨d', h1, h2, h3⟩ := h
    exact ⟨d', h1, by rw [h2, hdrop], h3⟩

theorem takeApp_le (a r : List Nat) (n : Nat) (h : n ≤ a.length) :
    (a ++ r).take n = a.take n := by
  rw [List.take_append_eq_append_take, Nat.sub_eq_zero_of_le h]
  simp

theorem takeApp_ge (a r : List Nat) (n : Nat) (h : a.length ≤ n) :
    (a ++ r).take n = a ++ r.take (n - a.length) := by
  rw [List.take_append_eq_append_take, List.take_of_length_le h]

theorem dropApp_le (a r : List Nat) (n : Nat) (h : n ≤ a.length) :
    (a ++ r).drop n = a.drop n ++ r := by
  rw [List.drop_append_eq_append_drop, Nat.sub_eq_zero_of_le h, List.drop_zero]

theorem dropApp_ge (a r : List Nat) (n : Nat) (h : a.length ≤ n) :
    (a ++ r).drop n = r.drop (n - a.length) := by
  rw [List.drop_append_eq_append_drop, List.drop_eq_nil_of_le h, List.nil_append]

theorem getD_right (a b : List Nat) (k d : Nat) :
    (a ++ b).getD (a.length + k) d = b.getD k d := by
  rw [List.getD_append_right a b d (a.length + k) (by omega)]
  congr 1
  omega

/-- The resumption point at the start of a body remainder's first
marker. -/
def startConf (t : BTail) : Conf :=
  match t.chunks with
  | [] => .marker [] t.lds t.lext (.last t.trailer)
  | c :: cs => .marker [] c.ds c.ext (.chunk c.data ⟨cs, t.lds, t.lext, t.trailer⟩)

theorem startConf_bytes (t : BTail) : confBytes (startConf t) = tailBytes t := by
  rcases t with ⟨chunks, lds, lext, trailer⟩
  cases chunks with
  | nil => simp [startConf, confBytes, payBytes, tailBytes, catB]
  | cons c cs =>
    simp [startConf, confBytes, payBytes, tailBytes, catB, chunkBytes]

theorem startConf_state (t : BTail) :
    confState (startConf t) = ⟨.NO_SEARCH, 0, clUnset, false, true⟩ := by
  rcases t with ⟨chunks, lds, lext, trailer⟩
  cases chunks <;> rfl

theorem startConf_ok (t : BTail) (h : tailOk t) : confOk (startConf t) := by
  rcases t with ⟨chunks, lds, lext, trailer⟩
  obtain ⟨hchunks, hlds, hldsHex, hldsVal, hlext, htrail⟩ := h
  cases chunks with
  | nil =>
    exact ⟨by simpa using hlds, by simp, by simpa using hldsHex,
      by simpa [payVal] using hldsVal, hlext, htrail⟩
  | cons c cs =>
    obtain ⟨hds, hdsHex, hdsVal, hdpos, hdle, hext⟩ := hchunks c (by simp)
    exact ⟨by simpa using hds, by simp, by simpa using hdsHex,
      by simpa [payVal] using hdsVal, hext,
      hdpos, hdle, fun x hx => hchunks x (by simp [hx]), hlds, hldsHex,
      hldsVal, hlext, htrail⟩

theorem startConf_fuel (t : BTail) : markerFuel (startConf t) = 1 := by
  rcases t with ⟨chunks, lds, lext, trailer⟩
  cases chunks <;> rfl

theorem step_finalChunkCR (f : Nat) (n : Nat) (h0 : 0 < n)
    (hn : n ≤ (confBytes .finalChunkCR).length) :
    stepOut (f + 1) .finalChunkCR n := by
  have hn1 : n = 1 := by
    simp only [confBytes, List.length_cons, List.length_nil] at hn
    omega
  subst hn1
  unfold stepOut confStep
  rw [if_pos (by simp [confBytes])]
  simp only [confBytes, confState, List.take_succ_cons, List.take_zero]
  rw [pbF_chunk_lf f 0 0 true true [LF] (by simp)]
  simp

theorem step_finalTrailerCR (f : Nat) (n : Nat) (h0 : 0 < n)
    (hn : n ≤ (confBytes .finalTrailerCR).length) :
    stepOut (f + 1) .finalTrailerCR n := by
  have hn1 : n = 1 := by
    simp only [confBytes, List.length_cons, List.length_nil] at hn
    omega
  subst hn1
  unfold stepOut confStep
  rw [if_pos (by simp [confBytes])]
  simp only [confBytes, confState, List.take_succ_cons, List.take_zero]
  rw [pbF_trailer_lf2 f 0 0 true true [LF] (by simp)]
  simp

theorem trailerBytes_nil : trailerBytes [] = [CR, LF] := rfl

theorem trailerBytes_cons (x : Nat) (l' : List Nat) (ls : List (List Nat)) :
    trailerBytes ((x :: l') :: ls) =
      x :: (l' ++ [CR, LF] ++ trailerBytes ls) := by
  simp [trailerBytes, catB, lineBytes]

theorem step_lineCR (f : Nat) (ih : StepIH f) (tr : List (List Nat)) (n : Nat)
    (hok : confOk (.lineCR tr)) (h0 : 0 < n)
    (hn : n ≤ (confBytes (.lineCR tr)).length)
    (hf : 2 * n + 1 + markerFuel (.lineCR tr) ≤ f + 1) :
    stepOut (f + 1) (.lineCR tr) n := by
  obtain ⟨m, rfl⟩ : ∃ m, n = m + 1 := ⟨n - 1, by omega⟩
  simp only [confBytes, List.length_cons] at hn
  simp only [markerFuel] at hf
  apply stepOut_transfer f (f + 1) (.lineCR tr) (.lineLF tr) (m + 1) m
  · unfold confStep
    simp only [confBytes, confState, List.take_succ_cons]
    rw [pbF_trailer_lf f 0 0 true true (LF :: (trailerBytes tr).take m) (by simp)]
    simp
  · simp only [confBytes, List.length_cons]
    omega
  · simp [confBytes]
  · exact ih (.lineLF tr) m hok (by simp only [confBytes]; omega)
      (by simp [markerFuel]; omega)

theorem step_lineLF (f : Nat) (ih : StepIH f) (tr : List (List Nat)) (n : Nat)
    (hok : confOk (.lineLF tr)) (h0 : 0 < n)
    (hn : n ≤ (confBytes (.lineLF tr)).length)
    (hf : 2 * n + 1 + markerFuel (.lineLF tr) ≤ f + 1) :
    stepOut (f + 1) (.lineLF tr) n := by
  obtain ⟨m, rfl⟩ : ∃ m, n = m + 1 := ⟨n - 1, by omega⟩
  simp only [markerFuel] at hf
  cases tr with
  | nil =>
    simp only [confBytes, trailerBytes_nil, List.length_cons,
      List.length_nil] at hn
    apply stepOut_transfer f (f + 1) (.lineLF []) .finalTrailerCR (m + 1) m
    · unfold confStep
      simp only [confBytes, trailerBytes_nil, confState, List.take_succ_cons]
      rw [pbF_trailer_cr2 f 0 0 true true (CR :: [LF].take m) (by simp)]
      simp
    · simp only [confBytes, trailerBytes_nil]
      simp
    · simp [confBytes, trailerBytes_nil]
    · exact ih .finalTrailerCR m trivial
        (by simp only [confBytes]; simp; omega)
        (by simp [markerFuel]; omega)
  | cons l ls =>
    obtain ⟨hlne, hlok⟩ := hok l (by simp)
    obtain ⟨x, l', rfl⟩ := List.exists_cons_of_ne_nil hlne
    have hbytes : confBytes (.lineLF ((x :: l') :: ls)) =
        x :: (l' ++ [CR, LF] ++ trailerBytes ls) := by
      simp [confBytes, trailerBytes_cons]
    rw [hbytes] at hn
    simp only [List.length_cons] at hn
    apply stepOut_transfer f (f + 1) (.lineLF ((x :: l') :: ls))
      (.inLine l' ls) (m + 1) m
    · unfold confStep
      rw [hbytes]
      simp only [confState, List.take_succ_cons]
      rw [pbF_trailer_cr2 f 0 0 true true
        (x :: (l' ++ [CR, LF] ++ trailerBytes ls).take m) (by simp)]
      rw [if_pos (by simpa using (hlok x (by simp)).1)]
      simp [confBytes]
    · rw [hbytes]
      simp only [confBytes, List.length_cons]
      omega
    · rw [hbytes]
      simp [confBytes]
    · exact ih (.inLine l' ls) m
        ⟨fun y hy => hlok y (by simp [hy]), fun w hw => hok w (by simp [hw])⟩
        (by simp only [confBytes]; omega)
        (by simp [markerFuel]; omega)

theorem step_trailerStart (f : Nat) (ih : StepIH f) (tr : List (List Nat))
    (n : Nat) (hok : confOk (.trailerStart tr)) (h0 : 0 < n)
    (hn : n ≤ (confBytes (.trailerStart tr)).length)
    (hf : 2 * n + 1 + markerFuel (.trailerStart tr) ≤ f + 1) :
    stepOut (f + 1) (.trailerStart tr) n := by
  obtain ⟨m, rfl⟩ : ∃ m, n = m + 1 := ⟨n - 1, by omega⟩
  simp only [markerFuel] at hf
  cases tr with
  | nil =>
    simp only [confBytes, trailerBytes_nil, List.length_cons,
      List.length_nil] at hn
    apply stepOut_transfer f (f + 1) (.trailerStart []) .finalChunkCR (m + 1) m
    · unfold confStep
      simp only [confBytes, trailerBytes_nil, confState, List.take_succ_cons]
      rw [pbF_chunk_cr f 0 0 true true (CR :: [LF].take m) (by simp)]
      simp
    · simp only [confBytes, trailerBytes_nil]
      simp
    · simp [confBytes, trailerBytes_nil]
    · exact ih .finalChunkCR m trivial
        (by simp only [confBytes]; simp; omega)
        (by simp [markerFuel]; omega)
  | cons l ls =>
    obtain ⟨hlne, hlok⟩ := hok l (by simp)
    obtain ⟨x, l', rfl⟩ := List.exists_cons_of_ne_nil hlne
    have hbytes : confBytes (.trailerStart ((x :: l') :: ls)) =
        x :: (l' ++ [CR, LF] ++ trailerBytes ls) := by
      simp [confBytes, trailerBytes_cons]
    rw [hbytes] at hn
    simp only [List.length_cons] at hn
    apply stepOut_transfer f (f + 1) (.trailerStart ((x :: l') :: ls))
      (.inLine l' ls) (m + 1) m
    · unfold confStep
      rw [hbytes]
      simp only [confState, List.take_succ_cons]
      rw [pbF_chunk_cr f 0 0 true true
        (x :: (l' ++ [CR, LF] ++ trailerBytes ls).take m) (by simp)]
      rw [if_pos (by simpa using (hlok x (by simp)).1)]
      simp [confBytes]
    · rw [hbytes]
      simp only [confBytes, List.length_cons]
      omega
    · rw [hbytes]
      simp [confBytes]
    · exact ih (.inLine l' ls) m
        ⟨fun y hy => hlok y (by simp [hy]), fun w hw => hok w (by simp [hw])⟩
        (by simp only [confBytes]; omega)
        (by simp [markerFuel]; omega)

theorem step_inLine (f : Nat) (ih : StepIH f) (lsuf : List Nat)
    (tr : List (List Nat)) (n : Nat)
    (hok : confOk (.inLine lsuf tr)) (h0 : 0 < n)
    (hn : n ≤ (confBytes (.inLine lsuf tr)).length)
    (hf : 2 * n + 1 + markerFuel (.inLine lsuf tr) ≤ f + 1) :
    stepOut (f + 1) (.inLine lsuf tr) n := by
  obtain ⟨hno, htr⟩ := hok
  have hbytes : confBytes (.inLine lsuf tr) =
      lsuf ++ (CR :: LF :: trailerBytes tr) := by
    simp [confBytes]
  simp only [markerFuel] at hf
  by_cases hcase : n ≤ lsuf.length
  · unfold stepOut confStep
    have hlen : n ≠ (confBytes (.inLine lsuf tr)).length := by
      rw [hbytes]
      simp
      omega
    rw [if_neg hlen]
    have hslice : (confBytes (.inLine lsuf tr)).take n = lsuf.take n := by
      rw [hbytes, takeApp_le _ _ _ hcase]
    rw [hslice]
    have hne : lsuf.take n ≠ [] := by
      intro hx
      have : (lsuf.take n).length = 0 := by rw [hx]; rfl
      rw [List.length_take] at this
      omega
    simp only [confState]
    rw [pbF_trailer_cr f 0 0 true true _ hne]
    rw [findCR_none _ (fun x hx => (hno x (List.take_subset _ _ hx)).1)]
    exact ⟨Conf.inLine (lsuf.drop n) tr,
      ⟨fun x hx => hno x (List.drop_subset _ _ hx), htr⟩,
      by rw [hbytes, dropApp_le _ _ _ hcase]; simp [confBytes],
      rfl, rfl, rfl⟩
  · push_neg at hcase
    have hm : ∃ m, n = lsuf.length + 1 + m := ⟨n - lsuf.length - 1, by omega⟩
    obtain ⟨m, rfl⟩ := hm
    rw [hbytes] at hn
    simp only [List.length_append, List.length_cons] at hn
    apply stepOut_transfer f (f + 1) (.inLine lsuf tr) (.lineCR tr)
      (lsuf.length + 1 + m) m
    · unfold confStep
      rw [hbytes]
      have hslice : (lsuf ++ (CR :: LF :: trailerBytes tr)).take
          (lsuf.length + 1 + m) =
          lsuf ++ (CR :: (LF :: trailerBytes tr).take m) := by
        rw [takeApp_ge _ _ _ (by omega)]
        congr 1
        rw [show lsuf.length + 1 + m - lsuf.length = m + 1 by omega]
        rfl
      rw [hslice]
      simp only [confState]
      rw [pbF_trailer_cr f 0 0 true true _ (by simp)]
      rw [findCR_app lsuf _ (fun x hx => (hno x hx).1)]
      simp only []
      rw [dropApp_ge lsuf _ _ (by omega)]
      rw [show lsuf.length + 1 - lsuf.length = 1 by omega]
      simp [confBytes, confState]
    · rw [hbytes]
      simp only [confBytes, List.length_append, List.length_cons]
      omega
    · rw [hbytes]
      rw [dropApp_ge _ _ _ (by omega)]
      rw [show lsuf.length + 1 + m - lsuf.length = m + 1 by omega]
      simp [confBytes]
    · exact ih (.lineCR tr) m htr
        (by simp only [confBytes, List.length_cons]; omega)
        (by simp [markerFuel]; omega)

theorem step_afterData (f : Nat) (ih : StepIH f) (t : BTail) (n : Nat)
    (hok : confOk (.afterData t)) (h0 : 0 < n)
    (hn : n ≤ (confBytes (.afterData t)).length)
    (hf : 2 * n + 1 + markerFuel (.afterData t) ≤ f + 1) :
    stepOut (f + 1) (.afterData t) n := by
  obtain ⟨m, rfl⟩ : ∃ m, n = m + 1 := ⟨n - 1, by omega⟩
  simp only [confBytes, List.length_cons] at hn
  simp only [markerFuel] at hf
  apply stepOut_transfer f (f + 1) (.afterData t) (.afterDataCR t) (m + 1) m
  · unfold confStep
    simp only [confBytes, confState, List.take_succ_cons]
    rw [pbF_chunk_cr f 0 clUnset false true
      (CR :: (LF :: tailBytes t).take m) (by simp)]
    simp
  · simp only [confBytes, List.length_cons]
    omega
  · simp [confBytes]
  · exact ih (.afterDataCR t) m hok
      (by simp only [confBytes, List.length_cons]; omega)
      (by simp [markerFuel]; omega)

theorem step_afterDataCR (f : Nat) (ih : StepIH f) (t : BTail) (n : Nat)
    (hok : confOk (.afterDataCR t)) (h0 : 0 < n)
    (hn : n ≤ (confBytes (.afterDataCR t)).length)
    (hf : 2 * n + 1 + markerFuel (.afterDataCR t) ≤ f + 1) :
    stepOut (f + 1) (.afterDataCR t) n := by
  obtain ⟨m, rfl⟩ : ∃ m, n = m + 1 := ⟨n - 1, by omega⟩
  simp only [confBytes, List.length_cons] at hn
  simp only [markerFuel] at hf
  apply stepOut_transfer f (f + 1) (.afterDataCR t) (startConf t) (m + 1) m
  · unfold confStep
    rw [startConf_bytes, startConf_state]
    simp only [confBytes, confState, List.take_succ_cons]
    rw [pbF_chunk_lf f 0 clUnset false true
      (LF :: (tailBytes t).take m) (by simp)]
    simp
  · rw [startConf_bytes]
    simp only [confBytes, List.length_cons]
    omega
  · rw [startConf_bytes]
    simp [confBytes]
  · exact ih (startConf t) m (startConf_ok t hok)
      (by rw [startConf_bytes]; omega)
      (by rw [startConf_fuel]; omega)

theorem step_inData (f : Nat) (ih : StepIH f) (dsuf : List Nat) (t : BTail)
    (n : Nat) (hok : confOk (.inData dsuf t)) (h0 : 0 < n)
    (hn : n ≤ (confBytes (.inData dsuf t)).length)
    (hf : 2 * n + 1 + markerFuel (.inData dsuf t) ≤ f + 1) :
    stepOut (f + 1) (.inData dsuf t) n := by
  obtain ⟨hdne, htail⟩ := hok
  have hbytes : confBytes (.inData dsuf t) =
      dsuf ++ (CR :: LF :: tailBytes t) := by
    simp [confBytes]
  simp only [markerFuel] at hf
  rw [hbytes] at hn
  simp only [List.length_append, List.length_cons] at hn
  by_cases hcase : n ≤ dsuf.length
  · -- the recv chunk ends inside the payload: pure skip accounting
    unfold stepOut confStep
    have hlen : n ≠ (confBytes (.inData dsuf t)).length := by
      rw [hbytes]
      simp
      omega
    rw [if_neg hlen]
    have hslice : (confBytes (.inData dsuf t)).take n = dsuf.take n := by
      rw [hbytes, takeApp_le _ _ _ hcase]
    rw [hslice]
    have hne : dsuf.take n ≠ [] := by
      intro hx
      have : (dsuf.take n).length = 0 := by rw [hx]; rfl
      rw [List.length_take] at this
      omega
    have hlt : (dsuf.take n).length = n := by
      rw [List.length_take]
      omega
    simp only [confState]
    rw [pbF_no_search f dsuf.length clUnset false true _ hne]
    rw [if_pos (by rw [hlt]; omega)]
    rw [hlt]
    by_cases hend : n = dsuf.length
    · rw [if_pos (by omega)]
      rw [if_neg (by simp)]
      exact ⟨Conf.afterData t, htail,
        by rw [hbytes, dropApp_ge _ _ _ (by omega)]
           rw [show n - dsuf.length = 0 by omega]
           simp [confBytes],
        rfl, by simp [confState]; omega, rfl⟩
    · rw [if_neg (by omega)]
      exact ⟨Conf.inData (dsuf.drop n) t,
        ⟨by intro hx
            have : (dsuf.drop n).length = 0 := by rw [hx]; rfl
            rw [List.length_drop] at this
            omega, htail⟩,
        by rw [hbytes, dropApp_le _ _ _ hcase]; simp [confBytes],
        rfl, by simp [confState, List.length_drop], rfl⟩
  · push_neg at hcase
    obtain ⟨m, rfl⟩ : ∃ m, n = dsuf.length + m := ⟨n - dsuf.length, by omega⟩
    have hm0 : 0 < m := by omega
    have hdl : 0 < dsuf.length := by
      cases dsuf with
      | nil => exact absurd rfl hdne
      | cons a b => simp
    apply stepOut_transfer f (f + 1) (.inData dsuf t) (.afterData t)
      (dsuf.length + m) m
    · unfold confStep
      rw [hbytes]
      have hslice : (dsuf ++ (CR :: LF :: tailBytes t)).take (dsuf.length + m) =
          dsuf ++ (CR :: LF :: tailBytes t).take m := by
        rw [takeApp_ge _ _ _ (by omega)]
        congr 1
        congr 1
        omega
      rw [hslice]
      have hne : dsuf ++ (CR :: LF :: tailBytes t).take m ≠ [] := by
        intro hx
        rw [List.append_eq_nil] at hx
        exact hdne hx.1
      simp only [confState]
      rw [pbF_no_search f dsuf.length clUnset false true _ hne]
      have hlsl : (dsuf ++ (CR :: LF :: tailBytes t).take m).length =
          dsuf.length + ((CR :: LF :: tailBytes t).take m).length := by
        simp
      rw [if_neg (by
        rw [hlsl, List.length_take]
        simp only [List.length_cons]
        omega)]
      rw [if_pos (by
        have : dsuf.length ≠ 0 := by
          intro hx
          exact hdne (List.length_eq_zero.mp hx)
        omega)]
      rw [if_neg (by simp)]
      rw [dropApp_ge _ _ _ (by omega), Nat.sub_self, List.drop_zero]
      simp [confBytes, confState]
    · rw [hbytes]
      simp only [confBytes, List.length_append, List.length_cons]
      omega
    · rw [hbytes]
      rw [dropApp_ge _ _ _ (by omega)]
      rw [show dsuf.length + m - dsuf.length = m by omega]
      simp [confBytes]
    · exact ih (.afterData t) m htail
        (by simp only [confBytes, List.length_cons]; omega)
        (by simp [markerFuel]; omega)

theorem step_markerLF (f : Nat) (ih : StepIH f) (pay : Pay) (n : Nat)
    (hok : confOk (.markerLF pay)) (h0 : 0 < n)
    (hn : n ≤ (confBytes (.markerLF pay)).length)
    (hf : 2 * n + 1 + markerFuel (.markerLF pay) ≤ f + 1) :
    stepOut (f + 1) (.markerLF pay) n := by
  obtain ⟨m, rfl⟩ : ∃ m, n = m + 1 := ⟨n - 1, by omega⟩
  simp only [confBytes, List.length_cons] at hn
  simp only [markerFuel] at hf
  cases pay with
  | last tr =>
    apply stepOut_transfer f (f + 1) (.markerLF (.last tr))
      (.trailerStart tr) (m + 1) m
    · unfold confStep
      simp only [confBytes, confState, List.take_succ_cons, payVal, payBytes]
      rw [pbF_marker_lf f 0 0 false true
        (LF :: (trailerBytes tr).take m) (by simp)]
      simp
    · simp only [confBytes, List.length_cons, payBytes]
      omega
    · simp [confBytes, payBytes]
    · exact ih (.trailerStart tr) m hok
        (by simp only [confBytes, payBytes] at hn ⊢; omega)
        (by simp [markerFuel]; omega)
  | chunk data t =>
    obtain ⟨hdpos, hdle, htail⟩ := hok
    apply stepOut_transfer f (f + 1) (.markerLF (.chunk data t))
      (.inData data t) (m + 1) m
    · unfold confStep
      simp only [confBytes, confState, List.take_succ_cons, payVal, payBytes]
      rw [pbF_marker_lf f 0 data.length false true
        (LF :: ((data ++ [CR, LF] ++ tailBytes t)).take m) (by simp)]
      rw [if_pos (by simp)]
      rw [if_neg (by omega)]
      simp [confBytes]
    · simp only [confBytes, List.length_cons, payBytes]
      omega
    · simp [confBytes, payBytes]
    · exact ih (.inData data t) m
        ⟨by intro hx; rw [hx] at hdpos; simp at hdpos, htail⟩
        (by simp only [confBytes, payBytes] at hn ⊢; omega)
        (by simp [markerFuel]; omega)

theorem step_markerScan (f : Nat) (ih : StepIH f) (esuf : List Nat) (pay : Pay)
    (n : Nat) (hok : confOk (.markerScan esuf pay)) (h0 : 0 < n)
    (hn : n ≤ (confBytes (.markerScan esuf pay)).length)
    (hf : 2 * n + 1 + markerFuel (.markerScan esuf pay) ≤ f + 1) :
    stepOut (f + 1) (.markerScan esuf pay) n := by
  obtain ⟨hno, hpay⟩ := hok
  have hbytes : confBytes (.markerScan esuf pay) =
      esuf ++ (CR :: LF :: payBytes pay) := by
    simp [confBytes]
  simp only [markerFuel] at hf
  rw [hbytes] at hn
  simp only [List.length_append, List.length_cons] at hn
  by_cases hc1 : n ≤ esuf.length
  · -- the recv chunk ends inside the extension: no CR found yet
    unfold stepOut confStep
    have hlen : n ≠ (confBytes (.markerScan esuf pay)).length := by
      rw [hbytes]
      simp
      omega
    rw [if_neg hlen]
    have hslice : (confBytes (.markerScan esuf pay)).take n = esuf.take n := by
      rw [hbytes, takeApp_le _ _ _ hc1]
    rw [hslice]
    have hne : esuf.take n ≠ [] := by
      intro hx
      have : (esuf.take n).length = 0 := by rw [hx]; rfl
      rw [List.length_take] at this
      omega
    simp only [confState]
    rw [pbF_marker_cr f 0 (payVal pay) false true _ hne]
    rw [findCR_none _ (fun x hx => (hno x (List.take_subset _ _ hx)).1)]
    exact ⟨Conf.markerScan (esuf.drop n) pay,
      ⟨fun x hx => hno x (List.drop_subset _ _ hx), hpay⟩,
      by rw [hbytes, dropApp_le _ _ _ hc1]; simp [confBytes],
      rfl, rfl, rfl⟩
  · push_neg at hc1
    by_cases hc2 : n = esuf.length + 1
    · -- the recv chunk ends exactly on the marker CR: defer the LF
      subst hc2
      unfold stepOut confStep
      have hlen : esuf.length + 1 ≠ (confBytes (.markerScan esuf pay)).length := by
        rw [hbytes]
        simp
      rw [if_neg hlen]
      have hslice : (confBytes (.markerScan esuf pay)).take (esuf.length + 1) =
          esuf ++ CR :: [] := by
        rw [hbytes, takeApp_ge _ _ _ (by omega)]
        congr 1
        rw [show esuf.length + 1 - esuf.length = 1 by omega]
        rfl
      rw [hslice]
      simp only [confState]
      rw [pbF_marker_cr f 0 (payVal pay) false true _ (by simp)]
      rw [findCR_app esuf [] (fun x hx => (hno x hx).1)]
      simp only []
      rw [if_pos (by simp)]
      exact ⟨Conf.markerLF pay, hpay,
        by rw [hbytes, dropApp_ge _ _ _ (by omega)]
           rw [show esuf.length + 1 - esuf.length = 1 by omega]
           simp [confBytes],
        rfl, rfl, rfl⟩
    · -- the recv chunk runs past the marker CRLF
      obtain ⟨m, rfl⟩ : ∃ m, n = esuf.length + 2 + m :=
        ⟨n - esuf.length - 2, by omega⟩
      have hslice : (confBytes (.markerScan esuf pay)).take (esuf.length + 2 + m) =
          esuf ++ (CR :: LF :: (payBytes pay).take m) := by
        rw [hbytes, takeApp_ge _ _ _ (by omega)]
        congr 1
        rw [show esuf.length + 2 + m - esuf.length = m + 2 by omega]
        rfl
      have hfound :
          parseBodyF (f + 1) ⟨.MARKER_CR_SEARCH, 0, payVal pay, false, true⟩
            (esuf ++ (CR :: LF :: (payBytes pay).take m)) =
          (if payVal pay = 0 then
            parseBodyF f ⟨.CHUNK_CR_EXPECT, 0, payVal pay, true, true⟩
              ((payBytes pay).take m)
          else
            parseBodyF f ⟨.NO_SEARCH, payVal pay, clUnset, false, true⟩
              ((payBytes pay).take m)) := by
        rw [pbF_marker_cr f 0 (payVal pay) false true _ (by simp)]
        rw [findCR_app esuf _ (fun x hx => (hno x hx).1)]
        simp only []
        rw [if_neg (by
          simp only [List.length_append, List.length_cons, List.length_take]
          omega)]
        rw [show (esuf ++ (CR :: LF :: (payBytes pay).take m)).getD
              (esuf.length + 1) 0 = LF by
          have := getD_right esuf (CR :: LF :: (payBytes pay).take m) 1 0
          simpa using this]
        rw [if_pos rfl]
        rw [show (esuf ++ (CR :: LF :: (payBytes pay).take m)).drop
              (esuf.length + 2) = (payBytes pay).take m by
          rw [dropApp_ge _ _ _ (by omega)]
          rw [show esuf.length + 2 - esuf.length = 2 by omega]
          rfl]
      cases pay with
      | last tr =>
        apply stepOut_transfer f (f + 1) (.markerScan esuf (.last tr))
          (.trailerStart tr) (esuf.length + 2 + m) m
        · unfold confStep
          rw [hslice]
          simp only [confState]
          rw [hfound]
          rw [if_pos (show payVal (Pay.last tr) = 0 from rfl)]
          simp [confBytes, confState, payVal, payBytes]
        · rw [hbytes]
          simp only [confBytes, List.length_append, List.length_cons, payBytes]
          omega
        · rw [hbytes]
          rw [dropApp_ge _ _ _ (by omega)]
          rw [show esuf.length + 2 + m - esuf.length = m + 2 by omega]
          simp [confBytes, payBytes]
        · exact ih (.trailerStart tr) m hpay
            (by
              simp only [payBytes] at hn
              simp only [confBytes]
              omega)
            (by simp [markerFuel]; omega)
      | chunk data t =>
        obtain ⟨hdpos, hdle, htail⟩ := hpay
        apply stepOut_transfer f (f + 1) (.markerScan esuf (.chunk data t))
          (.inData data t) (esuf.length + 2 + m) m
        · unfold confStep
          rw [hslice]
          simp only [confState]
          rw [hfound]
          rw [if_neg (by simp only [payVal]; omega)]
          simp [confBytes, confState, payVal, payBytes]
        · rw [hbytes]
          simp only [confBytes, List.length_append, List.length_cons, payBytes]
          omega
        · rw [hbytes]
          rw [dropApp_ge _ _ _ (by omega)]
          rw [show esuf.length + 2 + m - esuf.length = m + 2 by omega]
          simp [confBytes, payBytes]
        · exact ih (.inData data t) m
            ⟨by intro hx; rw [hx] at hdpos; simp at hdpos, htail⟩
            (by
              simp only [payBytes] at hn
              simp only [confBytes]
              simp only [List.length_append, List.length_cons] at hn ⊢
              omega)
            (by simp [markerFuel]; omega)

theorem take_ne_nil_of (l : List Nat) (n : Nat) (h0 : 0 < n) (hl : l ≠ []) :
    l.take n ≠ [] := by
  intro hx
  have h1 : (l.take n).length = 0 := by rw [hx]; rfl
  rw [List.length_take] at h1
  rcases l with _ | ⟨a, t⟩
  · exact hl rfl
  · simp at h1
    omega

/-- The `marker` case with no digits left: the machine re-enters the
switch in `MARKER_CR_SEARCH` on the same bytes. -/
theorem step_marker_nodigits (f : Nat) (ih : StepIH f) (pre e : List Nat)
    (pay : Pay) (n : Nat) (hok : confOk (.marker pre [] e pay)) (h0 : 0 < n)
    (hn : n ≤ (confBytes (.marker pre [] e pay)).length)
    (hf : 2 * n + 1 + 1 ≤ f + 1) :
    stepOut (f + 1) (.marker pre [] e pay) n := by
  obtain ⟨hps, hpreHex, hsufHex, hval, hext, hpay⟩ := hok
  have hpre : pre ≠ [] := by simpa using hps
  have hvle : payVal pay ≤ 2 ^ 63 - 1 := payVal_le pay hpay
  have hhv : hexVal16 pre = payVal pay := by simpa using hval
  have hbytes : confBytes (.marker pre [] e pay) =
      e ++ (CR :: LF :: payBytes pay) := by
    simp [confBytes]
  obtain ⟨hb, tl, hcons, hbor, _⟩ :
      ∃ hb tl, e ++ (CR :: LF :: payBytes pay) = hb :: tl ∧
        (hb = CR ∨ hb = SEMI) ∧ isHexB hb = false := by
    rcases hext.1 with rfl | ⟨e', rfl⟩
    · exact ⟨CR, _, rfl, Or.inl rfl, by decide⟩
    · exact ⟨SEMI, _, rfl, Or.inr rfl, by decide⟩
  obtain ⟨m, rfl⟩ : ∃ m, n = m + 1 := ⟨n - 1, by omega⟩
  apply stepOut_transfer f (f + 1) (.marker pre [] e pay) (.markerScan e pay)
    (m + 1) (m + 1)
  · unfold confStep
    rw [hbytes]
    simp only [confBytes]
    rw [hcons, List.take_succ_cons]
    simp only [confState]
    rw [if_neg hpre]
    rw [pbF_no_search f 0 (hexVal16 pre) false true (hb :: tl.take m) (by simp)]
    rw [if_neg (by simp)]
    rw [if_neg (by simp)]
    rw [if_pos ⟨by rw [hhv]; unfold clUnset; omega, by simpa using hbor⟩]
    rw [hhv]
    congr 1
    rw [show e ++ [CR, LF] ++ payBytes pay = e ++ (CR :: LF :: payBytes pay) by
      simp]
    rw [hcons, List.take_succ_cons]
  · rw [hbytes]
    simp [confBytes]
  · rw [hbytes]
    simp [confBytes]
  · exact ih (.markerScan e pay) (m + 1) ⟨hext.2, hpay⟩
      (by rw [hbytes] at hn; simpa [confBytes] using hn)
      (by simp [markerFuel]; omega)

theorem getD_len0 (a : List Nat) (b0 : Nat) (b : List Nat) (d : Nat) :
    (a ++ b0 :: b).getD a.length d = b0 := by
  have h := getD_right a (b0 :: b) 0 d
  simpa using h

/-- The `marker` case with digits remaining: `stol` consumes the hex
digits of the recv chunk and the saved accumulator is shifted and
extended. -/
theorem step_marker_digits (f : Nat) (ih : StepIH f) (pre : List Nat)
    (s0 : Nat) (suf' e : List Nat) (pay : Pay) (n : Nat)
    (hok : confOk (.marker pre (s0 :: suf') e pay)) (h0 : 0 < n)
    (hn : n ≤ (confBytes (.marker pre (s0 :: suf') e pay)).length)
    (hf : 2 * n + 1 + 1 ≤ f + 1) :
    stepOut (f + 1) (.marker pre (s0 :: suf') e pay) n := by
  obtain ⟨hps, hpreHex, hsufHex, hval, hext, hpay⟩ := hok
  have hvle : payVal pay ≤ 2 ^ 63 - 1 := payVal_le pay hpay
  have hbig : (2 : Nat) ^ 63 - 1 < 2 ^ 64 := by decide
  have hsz : SIZE_MAX = 2 ^ 64 - 1 := rfl
  have hsufle : hexVal16 (s0 :: suf') ≤ 2 ^ 63 - 1 := by
    have h1 : hexVal16 (s0 :: suf') ≤ hexVal16 (pre ++ (s0 :: suf')) := by
      rw [hexVal16_append]
      exact Nat.le_add_left _ _
    omega
  have hpreB : hexVal16 pre ≤ 2 ^ 63 - 1 := by
    have h1 := hexVal16_prefix_le pre (s0 :: suf')
    omega
  have hs0 := hsufHex s0 (by simp)
  have hbytes : confBytes (.marker pre (s0 :: suf') e pay) =
      (s0 :: suf') ++ (e ++ (CR :: LF :: payBytes pay)) := by
    simp [confBytes]
  have htot : (confBytes (.marker pre (s0 :: suf') e pay)).length =
      (s0 :: suf').length + (e.length + (2 + (payBytes pay).length)) := by
    rw [hbytes]
    simp
    omega
  obtain ⟨m, rfl⟩ : ∃ m, n = m + 1 := ⟨n - 1, by omega⟩
  by_cases hA : m + 1 ≤ (s0 :: suf').length
  · -- the recv chunk ends inside the digits: everything is hoarded
    have hslice : (confBytes (.marker pre (s0 :: suf') e pay)).take (m + 1) =
        s0 :: suf'.take m := by
      rw [hbytes, takeApp_le _ _ _ hA]
      rfl
    have hshex : ∀ c ∈ s0 :: suf'.take m, isHexB c = true := by
      intro c hc
      rcases List.mem_cons.mp hc with rfl | hc
      · exact hs0
      · exact hsufHex c (List.mem_cons_of_mem _ (List.take_subset _ _ hc))
    have hjoin : (s0 :: suf'.take m) ++ suf'.drop m = s0 :: suf' := by
      simp [List.take_append_drop]
    have hsbound : hexVal16 (s0 :: suf'.take m) ≤ 2 ^ 63 - 1 := by
      have h1 := hexVal16_prefix_le (s0 :: suf'.take m) (suf'.drop m)
      rw [hjoin] at h1
      omega
    have hstol := stol_hex (s0 :: suf'.take m) (by simp) hshex hsbound
    have hpreJ : (pre ++ (s0 :: suf'.take m)) ++ suf'.drop m =
        pre ++ (s0 :: suf') := by
      rw [List.append_assoc, hjoin]
    have hpdsB : hexVal16 (pre ++ (s0 :: suf'.take m)) ≤ 2 ^ 63 - 1 := by
      have h1 := hexVal16_prefix_le (pre ++ (s0 :: suf'.take m)) (suf'.drop m)
      rw [hpreJ] at h1
      omega
    unfold stepOut confStep
    rw [if_neg (by rw [htot]; simp only [List.length_cons] at hA ⊢; omega)]
    rw [hslice]
    simp only [confState]
    by_cases hpre : pre = []
    · subst hpre
      rw [if_pos rfl]
      rw [pbF_no_search f 0 clUnset false true _ (by simp)]
      rw [if_neg (by simp)]
      rw [if_neg (by simp)]
      rw [if_neg (by
        rintro ⟨-, hc⟩
        simp only [List.headD_cons] at hc
        rcases hc with hc | hc
        · exact (isHexB_ne hs0).1 hc
        · exact (isHexB_ne hs0).2 hc)]
      rw [hstol]
      simp only [Bool.false_eq_true, if_false]
      rw [if_neg (by rintro ⟨hlt, -⟩; omega)]
      rw [if_pos trivial]
      simp only []
      rw [if_pos trivial]
      refine ⟨.marker (s0 :: suf'.take m) (suf'.drop m) e pay,
        ⟨by simp, ?_, ?_, ?_, hext, hpay⟩, ?_, rfl, ?_, rfl⟩
      · exact hshex
      · exact fun x hx =>
          hsufHex x (List.mem_cons_of_mem _ (List.drop_subset _ _ hx))
      · rw [hjoin]
        simpa using hval
      · rw [hbytes, dropApp_le _ _ _ hA]
        simp [confBytes]
      · simp only [confState]
        rw [if_neg (by simp)]
        have hlt : hexVal16 (s0 :: suf'.take m) < 2 ^ 64 := by omega
        simp [toSizeT_coe hlt]
    · rw [if_neg hpre]
      rw [pbF_no_search f 0 (hexVal16 pre) false true _ (by simp)]
      rw [if_neg (by simp)]
      rw [if_neg (by simp)]
      rw [if_neg (by
        rintro ⟨-, hc⟩
        simp only [List.headD_cons] at hc
        rcases hc with hc | hc
        · exact (isHexB_ne hs0).1 hc
        · exact (isHexB_ne hs0).2 hc)]
      rw [hstol]
      simp only [Bool.false_eq_true, if_false]
      rw [if_neg (by rintro ⟨hlt, -⟩; omega)]
      rw [if_neg (by unfold clUnset; omega)]
      have hmul : hexVal16 pre * 2 ^ ((s0 :: suf'.take m).length * 4) +
          hexVal16 (s0 :: suf'.take m) =
          hexVal16 (pre ++ (s0 :: suf'.take m)) := by
        rw [hexVal16_append, pow16]
      rw [if_neg (by
        intro hgt
        have hle2 : hexVal16 pre ≤
            SIZE_MAX / 2 ^ ((s0 :: suf'.take m).length * 4) := by
          apply (Nat.le_div_iff_mul_le (by positivity)).mpr
          have h1 : hexVal16 pre * 2 ^ ((s0 :: suf'.take m).length * 4) ≤
              hexVal16 (pre ++ (s0 :: suf'.take m)) := by omega
          calc hexVal16 pre * 2 ^ ((s0 :: suf'.take m).length * 4)
              ≤ hexVal16 (pre ++ (s0 :: suf'.take m)) := h1
            _ ≤ 2 ^ 63 - 1 := hpdsB
            _ ≤ SIZE_MAX := by rw [hsz]; decide
        omega)]
      simp only []
      rw [if_pos trivial]
      refine ⟨.marker (pre ++ (s0 :: suf'.take m)) (suf'.drop m) e pay,
        ⟨by simp, ?_, ?_, ?_, hext, hpay⟩, ?_, rfl, ?_, rfl⟩
      · intro x hx
        rcases List.mem_append.mp hx with hx | hx
        · exact hpreHex x hx
        · exact hshex x hx
      · exact fun x hx =>
          hsufHex x (List.mem_cons_of_mem _ (List.drop_subset _ _ hx))
      · rw [hpreJ]
        exact hval
      · rw [hbytes, dropApp_le _ _ _ hA]
        simp [confBytes]
      · simp only [confState]
        rw [if_neg (by simp)]
        rw [toSizeT_coe (by omega : hexVal16 (s0 :: suf'.take m) < 2 ^ 64)]
        rw [hmul]
        rw [Nat.mod_eq_of_lt (by omega)]
  · -- the recv chunk runs past the digits: the whole marker value is known
    push_neg at hA
    obtain ⟨k1, hk⟩ : ∃ k1, m + 1 = (s0 :: suf').length + (k1 + 1) := by
      refine ⟨m - (s0 :: suf').length, ?_⟩
      simp only [List.length_cons] at hA ⊢
      omega
    obtain ⟨rb, rt, hrcons, hbor, hbhex⟩ :
        ∃ rb rt, e ++ (CR :: LF :: payBytes pay) = rb :: rt ∧
          (rb = CR ∨ rb = SEMI) ∧ isHexB rb = false := by
      rcases hext.1 with rfl | ⟨e', rfl⟩
      · exact ⟨CR, _, rfl, Or.inl rfl, by decide⟩
      · exact ⟨SEMI, _, rfl, Or.inr rfl, by decide⟩
    have hn2 : m + 1 ≤ (s0 :: suf').length + (rt.length + 1) := by
      have hlb : (confBytes (.marker pre (s0 :: suf') e pay)).length =
          (s0 :: suf').length + (rt.length + 1) := by
        rw [hbytes, List.length_append, hrcons]
        simp
      rw [hlb] at hn
      exact hn
    have hkrt : k1 ≤ rt.length := by omega
    have hslice : (confBytes (.marker pre (s0 :: suf') e pay)).take (m + 1) =
        s0 :: (suf' ++ rb :: rt.take k1) := by
      rw [hbytes, takeApp_ge _ _ _ (by simp only [List.length_cons] at hk ⊢; omega)]
      rw [hrcons, hk]
      rw [show (s0 :: suf').length + (k1 + 1) - (s0 :: suf').length = k1 + 1
        by omega]
      simp
    have hstolA := stol_hex_app (s0 :: suf') (rb :: rt.take k1) (by simp)
      hsufHex hsufle (Or.inr ⟨rb, rt.take k1, rfl, hbhex⟩)
    rw [List.cons_append] at hstolA
    have hgetrb : (s0 :: (suf' ++ rb :: rt.take k1)).getD (s0 :: suf').length 0
        = rb := by
      rw [← List.cons_append]
      exact getD_len0 _ _ _ _
    have hidxne : ¬ (s0 :: suf').length =
        (s0 :: (suf' ++ rb :: rt.take k1)).length := by
      simp only [List.length_cons, List.length_append, List.length_take]
      omega
    have hinner : (confBytes (.markerScan e pay)).take (k1 + 1) =
        rb :: rt.take k1 := by
      simp only [confBytes]
      rw [show e ++ [CR, LF] ++ payBytes pay = rb :: rt by
        rw [← hrcons]; simp]
      rfl
    have hdropeq : (s0 :: (suf' ++ rb :: rt.take k1)).drop (s0 :: suf').length
        = rb :: rt.take k1 := by
      rw [← List.cons_append]
      exact List.drop_left _ _
    apply stepOut_transfer f (f + 1) (.marker pre (s0 :: suf') e pay)
      (.markerScan e pay) (m + 1) (k1 + 1)
    · unfold confStep
      rw [hslice, hinner]
      simp only [confState]
      by_cases hpre : pre = []
      · subst hpre
        rw [if_pos rfl]
        rw [pbF_no_search f 0 clUnset false true _ (by simp)]
        rw [if_neg (by simp)]
        rw [if_neg (by simp)]
        rw [if_neg (by
          rintro ⟨-, hc⟩
          simp only [List.headD_cons] at hc
          rcases hc with hc | hc
          · exact (isHexB_ne hs0).1 hc
          · exact (isHexB_ne hs0).2 hc)]
        rw [hstolA]
        simp only [Bool.false_eq_true, if_false]
        rw [if_neg (by
          rintro ⟨-, h2, h3⟩
          rcases hbor with rfl | rfl
          · exact h3 hgetrb
          · exact h2 hgetrb)]
        rw [if_pos trivial]
        simp only []
        rw [if_neg hidxne]
        rw [hdropeq]
        rw [toSizeT_coe (by omega : hexVal16 (s0 :: suf') < 2 ^ 64)]
        have hv0 : hexVal16 (s0 :: suf') = payVal pay := by simpa using hval
        rw [hv0]
      · rw [if_neg hpre]
        rw [pbF_no_search f 0 (hexVal16 pre) false true _ (by simp)]
        rw [if_neg (by simp)]
        rw [if_neg (by simp)]
        rw [if_neg (by
          rintro ⟨-, hc⟩
          simp only [List.headD_cons] at hc
          rcases hc with hc | hc
          · exact (isHexB_ne hs0).1 hc
          · exact (isHexB_ne hs0).2 hc)]
        rw [hstolA]
        simp only [Bool.false_eq_true, if_false]
        rw [if_neg (by
          rintro ⟨-, h2, h3⟩
          rcases hbor with rfl | rfl
          · exact h3 hgetrb
          · exact h2 hgetrb)]
        rw [if_neg (by unfold clUnset; omega)]
        have hmulA : hexVal16 pre * 2 ^ ((s0 :: suf').length * 4) +
            hexVal16 (s0 :: suf') = hexVal16 (pre ++ (s0 :: suf')) := by
          rw [hexVal16_append, pow16]
        rw [if_neg (by
          intro hgt
          have hle2 : hexVal16 pre ≤
              SIZE_MAX / 2 ^ ((s0 :: suf').length * 4) := by
            apply (Nat.le_div_iff_mul_le (by positivity)).mpr
            have h1 : hexVal16 pre * 2 ^ ((s0 :: suf').length * 4) ≤
                hexVal16 (pre ++ (s0 :: suf')) := by omega
            calc hexVal16 pre * 2 ^ ((s0 :: suf').length * 4)
                ≤ hexVal16 (pre ++ (s0 :: suf')) := h1
              _ = payVal pay := hval
              _ ≤ 2 ^ 63 - 1 := hvle
              _ ≤ SIZE_MAX := by rw [hsz]; decide
          omega)]
        simp only []
        rw [if_neg hidxne]
        rw [hdropeq]
        rw [toSizeT_coe (by omega : hexVal16 (s0 :: suf') < 2 ^ 64)]
        rw [hmulA]
        rw [Nat.mod_eq_of_lt (by rw [hval]; omega)]
        rw [hval]
    · rw [htot]
      simp only [confBytes, List.length_append, List.length_cons,
        List.length_nil]
      simp only [List.length_cons] at hk
      constructor
      · intro hx
        omega
      · intro hx
        omega
    · rw [hbytes, dropApp_ge _ _ _ (by simp only [List.length_cons] at hk ⊢; omega)]
      rw [show m + 1 - (s0 :: suf').length = k1 + 1 by omega]
      simp [confBytes]
    · exact ih (.markerScan e pay) (k1 + 1) ⟨hext.2, hpay⟩
        (by
          simp only [confBytes, List.length_append, List.length_cons,
            List.length_nil]
          have hlb : (e ++ (CR :: LF :: payBytes pay)).length = rt.length + 1 := by
            rw [hrcons]
            simp
          simp only [List.length_append, List.length_cons] at hlb
          omega)
        (by simp [markerFuel]; omega)

theorem markerFuel_le (d : Conf) : markerFuel d ≤ 1 := by
  cases d <;> simp [markerFuel]

/-- The chunk-step simulation: enough fuel proves `stepOut` at every
resumption point, recv-chunk length and fuel. -/
theorem conf_step : ∀ f, StepIH f := by
  intro f
  induction f with
  | zero =>
    intro d n hok hn hf
    omega
  | succ f ih =>
    intro d n hok hn hf
    by_cases h0 : n = 0
    · subst h0
      exact step_zero (f + 1) d hok (by omega)
    · have h0' : 0 < n := by omega
      cases d with
      | marker pre suf e pay =>
        cases suf with
        | nil =>
          exact step_marker_nodigits f ih pre e pay n hok h0' hn hf
        | cons s0 suf' =>
          exact step_marker_digits f ih pre s0 suf' e pay n hok h0' hn hf
      | markerScan esuf pay => exact step_markerScan f ih esuf pay n hok h0' hn hf
      | markerLF pay => exact step_markerLF f ih pay n hok h0' hn hf
      | inData dsuf t => exact step_inData f ih dsuf t n hok h0' hn hf
      | afterData t => exact step_afterData f ih t n hok h0' hn hf
      | afterDataCR t => exact step_afterDataCR f ih t n hok h0' hn hf
      | trailerStart tr => exact step_trailerStart f ih tr n hok h0' hn hf
      | inLine lsuf tr => exact step_inLine f ih lsuf tr n hok h0' hn hf
      | lineCR tr => exact step_lineCR f ih tr n hok h0' hn hf
      | lineLF tr => exact step_lineLF f ih tr n hok h0' hn hf
      | finalTrailerCR => exact step_finalTrailerCR f n h0' hn
      | finalChunkCR => exact step_finalChunkCR f n h0' hn

theorem catB_append (p q : List (List Nat)) :
    catB (p ++ q) = catB p ++ catB q := by
  induction p with
  | nil => rfl
  | cons c p' ih => simp [catB, ih]

theorem catB_ne (cs : List (List Nat)) (h1 : cs ≠ [])
    (h2 : ∀ c ∈ cs, c ≠ []) : catB cs ≠ [] := by
  cases cs with
  | nil => exact absurd rfl h1
  | cons c cs' =>
    simp only [catB]
    intro hx
    rw [List.append_eq_nil] at hx
    exact h2 c (by simp) hx.1

/-- Feeding a partition of everything remaining at a resumption point:
the last call returns `PROCEED` with the window at the final LF, and the
`CHUNK_LF_EXPECT` assertion holds throughout. -/
theorem feed_steps : ∀ (cs : List (List Nat)) (d : Conf), cs ≠ [] →
    (∀ c ∈ cs, c ≠ []) → confOk d → catB cs = confBytes d →
    (feedBody (confState d) cs).status = .PROCEED ∧
    (feedBody (confState d) cs).rest = [LF] ∧
    (feedBody (confState d) cs).lfAssertOk = true := by
  intro cs
  induction cs with
  | nil => intro d h1 _ _ _; exact absurd rfl h1
  | cons c cs' ih =>
    intro d _ h2 hok hcat
    have hcb : confBytes d = c ++ catB cs' := by rw [← hcat]; rfl
    have htake : (confBytes d).take c.length = c := by
      rw [hcb]
      exact List.take_left c (catB cs')
    have hlenle : c.length ≤ (confBytes d).length := by
      rw [hcb]
      simp
    have hstep := conf_step (2 * c.length + 2) d c.length hok hlenle
      (by have h := markerFuel_le d; omega)
    have hpb : parseBody (confState d) c = confStep (2 * c.length + 2) d c.length := by
      unfold parseBody confStep
      rw [htake]
    unfold stepOut at hstep
    cases cs' with
    | nil =>
      have hlen : c.length = (confBytes d).length := by
        rw [hcb]
        simp [catB]
      rw [if_pos hlen] at hstep
      obtain ⟨hs1, hs2, hs3⟩ := hstep
      rw [← hpb] at hs1 hs2 hs3
      unfold feedBody
      rcases hres : parseBody (confState d) c with ⟨st, st1, rest, ok⟩
      rw [hres] at hs1 hs2 hs3
      simp only at hs1 hs2 hs3
      cases st with
      | CONTINUE => exact absurd hs1 (by simp)
      | TERMINATE => exact absurd hs1 (by simp)
      | PROCEED => exact ⟨rfl, hs2, hs3⟩
    | cons c2 cs'' =>
      have hlt : c.length < (confBytes d).length := by
        rw [hcb, List.length_append]
        have hne2 : catB (c2 :: cs'') ≠ [] :=
          catB_ne _ (by simp) (fun x hx => h2 x (by simp [hx]))
        have : 0 < (catB (c2 :: cs'')).length := by
          cases hcx : catB (c2 :: cs'') with
          | nil => exact absurd hcx hne2
          | cons a b => simp
        omega
      rw [if_neg (by omega)] at hstep
      obtain ⟨d', hok', hbytes', hs1, hs2, hs3⟩ := hstep
      rw [← hpb] at hs1 hs2 hs3
      have hdrop : catB (c2 :: cs'') = confBytes d' := by
        rw [hbytes', hcb, List.drop_left]
      have hih := ih d' (by simp) (fun x hx => h2 x (by simp [hx])) hok' hdrop
      unfold feedBody
      rcases hres : parseBody (confState d) c with ⟨st, st1, rest, ok⟩
      rw [hres] at hs1 hs2 hs3
      simp only at hs1 hs2 hs3
      cases st with
      | TERMINATE => exact absurd hs1 (by simp)
      | PROCEED => exact absurd hs1 (by simp)
      | CONTINUE =>
        simp only
        rw [hs2]
        refine ⟨hih.1, hih.2.1, ?_⟩
        rw [hs3, hih.2.2]
        rfl

/-- Feeding a partition of a proper prefix of the bytes remaining at a
resumption point: every call returns `CONTINUE`. -/
theorem feed_prefix : ∀ (cs : List (List Nat)) (d : Conf), cs ≠ [] →
    (∀ c ∈ cs, c ≠ []) → confOk d →
    (confBytes d).take (catB cs).length = catB cs →
    (catB cs).length < (confBytes d).length →
    (feedBody (confState d) cs).status = .CONTINUE ∧
    (feedBody (confState d) cs).lfAssertOk = true := by
  intro cs
  induction cs with
  | nil => intro d h1 _ _ _ _; exact absurd rfl h1
  | cons c cs' ih =>
    intro d _ h2 hok hpre hlt
    have hcats : catB (c :: cs') = c ++ catB cs' := rfl
    have hclen : c.length ≤ (catB (c :: cs')).length := by
      rw [hcats]
      simp
    have htake : (confBytes d).take c.length = c := by
      have h1 : (confBytes d).take c.length =
          ((confBytes d).take (catB (c :: cs')).length).take c.length := by
        rw [List.take_take]
        congr 1
        omega
      rw [h1, hpre, hcats, List.take_left]
    have hlenle : c.length ≤ (confBytes d).length := by omega
    have hstep := conf_step (2 * c.length + 2) d c.length hok hlenle
      (by have h := markerFuel_le d; omega)
    have hpb : parseBody (confState d) c = confStep (2 * c.length + 2) d c.length := by
      unfold parseBody confStep
      rw [htake]
    unfold stepOut at hstep
    rw [if_neg (by omega)] at hstep
    obtain ⟨d', hok', hbytes', hs1, hs2, hs3⟩ := hstep
    rw [← hpb] at hs1 hs2 hs3
    unfold feedBody
    rcases hres : parseBody (confState d) c with ⟨st, st1, rest, ok⟩
    rw [hres] at hs1 hs2 hs3
    simp only at hs1 hs2 hs3
    cases st with
    | TERMINATE => exact absurd hs1 (by simp)
    | PROCEED => exact absurd hs1 (by simp)
    | CONTINUE =>
      cases cs' with
      | nil => exact ⟨rfl, hs3⟩
      | cons c2 cs'' =>
        simp only
        rw [hs2]
        have hleq : c.length + (catB (c2 :: cs'')).length =
            (catB (c :: c2 :: cs'')).length := by
          rw [hcats, List.length_append]
        have hpre' : (confBytes d').take (catB (c2 :: cs'')).length =
            catB (c2 :: cs'') := by
          rw [hbytes']
          have h3 : ((confBytes d).drop c.length).take (catB (c2 :: cs'')).length
              = ((confBytes d).take
                  (c.length + (catB (c2 :: cs'')).length)).drop c.length := by
            rw [List.drop_take]
            congr 1
            omega
          rw [h3, hleq, hpre, hcats, List.drop_left]
        have hlt' : (catB (c2 :: cs'')).length < (confBytes d').length := by
          rw [hbytes', List.length_drop]
          omega
        have hih := ih d' (by simp) (fun x hx => h2 x (by simp [hx])) hok'
          hpre' hlt'
        refine ⟨hih.1, ?_⟩
        rw [hs3, hih.2]
        rfl

/-! ### Scan-position equivalence for `next_line` resumption

`parse_head` may resume the CRLF scan either from a stored deferral
position or from one byte before the freshly received chunk.  Two resume
positions are interchangeable whenever no CRLF can start between them —
neither inside the present buffer nor across its end (the byte before
the end must not be CR). -/

def scanEq (buf : List Nat) (r r' : Nat) : Prop :=
  r ≤ buf.length ∧ r' ≤ buf.length ∧
  (∀ p, min r r' ≤ p → p < max r r' → p + 1 < buf.length →
    ¬(buf.getD p 0 = CR ∧ buf.getD (p + 1) 0 = LF)) ∧
  (∀ p, min r r' ≤ p → p < max r r' → p + 1 = buf.length →
    buf.getD p 0 ≠ CR)

theorem scanEq_refl (buf : List Nat) (r : Nat) (h : r ≤ buf.length) :
    scanEq buf r r :=
  ⟨h, h, fun p h1 h2 _ => absurd (lt_of_le_of_lt h1 h2) (by simp [lt_irrefl]),
   fun p h1 h2 _ => absurd (lt_of_le_of_lt h1 h2) (by simp [lt_irrefl])⟩

theorem scanEq_symm {buf : List Nat} {r r' : Nat} (h : scanEq buf r r') :
    scanEq buf r' r := by
  obtain ⟨h1, h2, h3, h4⟩ := h
  refine ⟨h2, h1, ?_, ?_⟩
  · intro p hp1 hp2 hp3
    exact h3 p (by omega) (by omega) hp3
  · intro p hp1 hp2 hp3
    exact h4 p (by omega) (by omega) hp3

theorem scanEq_trans {buf : List Nat} {a b c : Nat}
    (h1 : scanEq buf a b) (h2 : scanEq buf b c) : scanEq buf a c := by
  obtain ⟨ha, hb, h13, h14⟩ := h1
  obtain ⟨_, hc, h23, h24⟩ := h2
  refine ⟨ha, hc, ?_, ?_⟩
  · intro p hp1 hp2 hp3
    by_cases hab : min a b ≤ p ∧ p < max a b
    · exact h13 p hab.1 hab.2 hp3
    · exact h23 p (by omega) (by omega) hp3
  · intro p hp1 hp2 hp3
    by_cases hab : min a b ≤ p ∧ p < max a b
    · exact h14 p hab.1 hab.2 hp3
    · exact h24 p (by omega) (by omega) hp3

/-- `scanEq` survives appending bytes to the buffer. -/
theorem scanEq_ext {buf : List Nat} {r r' : Nat} (h : scanEq buf r r')
    (d : List Nat) : scanEq (buf ++ d) r r' := by
  obtain ⟨h1, h2, h3, h4⟩ := h
  refine ⟨by rw [List.length_append]; omega,
    by rw [List.length_append]; omega, ?_, ?_⟩
  · intro p hp1 hp2 hp3
    rintro ⟨hcr, hlf⟩
    have hpb : p < buf.length := by
      have := max_le h1 h2
      omega
    rw [List.getD_append _ _ _ _ hpb] at hcr
    by_cases hp1b : p + 1 < buf.length
    · rw [List.getD_append _ _ _ _ hp1b] at hlf
      exact h3 p hp1 hp2 hp1b ⟨hcr, hlf⟩
    · exact h4 p hp1 hp2 (by omega) hcr
  · intro p hp1 hp2 hp3
    have hm := max_le h1 h2
    have hpb : p < buf.length := by omega
    rw [List.getD_append _ _ _ _ hpb]
    rw [List.length_append] at hp3
    exact h4 p hp1 hp2 (by omega)

theorem findCRLFIn_getD : ∀ (l : List Nat) (i : Nat),
    findCRLFIn l = some i →
    l.getD i 0 = CR ∧ l.getD (i + 1) 0 = LF ∧
    ∀ q, q < i → ¬(l.getD q 0 = CR ∧ l.getD (q + 1) 0 = LF) := by
  intro l
  induction l with
  | nil => intro i h; simp [findCRLFIn] at h
  | cons a t ih =>
    intro i h
    cases t with
    | nil => simp [findCRLFIn] at h
    | cons b rest =>
      simp only [findCRLFIn] at h
      by_cases hab : a = CR ∧ b = LF
      · simp only [if_pos hab, Option.some.injEq] at h
        subst h
        exact ⟨by simp [hab.1], by simp [hab.2], fun q hq => by omega⟩
      · simp only [if_neg hab, Option.map_eq_some'] at h
        obtain ⟨j, hj, hji⟩ := h
        obtain ⟨hc1, hc2, hc3⟩ := ih j hj
        subst hji
        refine ⟨by simpa using hc1, by simpa using hc2, ?_⟩
        intro q hq
        cases q with
        | zero => simpa using hab
        | succ q' =>
          have := hc3 q' (by omega)
          simpa using this

/-- Conversely, a CRLF pair inside the list bounds what `findCRLFIn`
returns. -/
theorem findCRLFIn_of_pair : ∀ (l : List Nat) (p : Nat),
    p + 1 < l.length → l.getD p 0 = CR → l.getD (p + 1) 0 = LF →
    ∃ i, findCRLFIn l = some i ∧ i ≤ p := by
  intro l
  induction l with
  | nil => intro p h; simp at h
  | cons a t ih =>
    intro p hp hcr hlf
    cases t with
    | nil => simp at hp
    | cons b rest =>
      simp only [findCRLFIn]
      by_cases hab : a = CR ∧ b = LF
      · exact ⟨0, by simp [hab], by omega⟩
      · rw [if_neg hab]
        cases p with
        | zero =>
          simp at hcr hlf
          exact absurd ⟨hcr, hlf⟩ hab
        | succ p' =>
          obtain ⟨i, hi, hip⟩ := ih p' (by simpa using hp)
            (by simpa using hcr) (by simpa using hlf)
          exact ⟨i + 1, by simp [hi], by omega⟩

theorem findCRLF_getD {buf : List Nat} {s i : Nat}
    (h : findCRLF buf s = some i) :
    buf.getD i 0 = CR ∧ buf.getD (i + 1) 0 = LF ∧
    ∀ q, s ≤ q → q < i → ¬(buf.getD q 0 = CR ∧ buf.getD (q + 1) 0 = LF) := by
  have hb := findCRLF_bounds h
  simp only [findCRLF, Option.map_eq_some'] at h
  obtain ⟨j, hj, hji⟩ := h
  obtain ⟨h1, h2, h3⟩ := findCRLFIn_getD _ _ hj
  have hjlt := findCRLFIn_lt _ _ hj
  simp only [List.length_drop] at hjlt
  have hget : ∀ k, (buf.drop s).getD k 0 = buf.getD (s + k) 0 := by
    intro k
    rcases Nat.lt_or_ge (s + k) buf.length with hlt | hge
    · rw [List.getD_eq_getElem?_getD, List.getElem?_drop,
        ← List.getD_eq_getElem?_getD]
    · rw [List.getD_eq_default _ _ (by simp; omega),
        List.getD_eq_default _ _ (by omega)]
  subst hji
  refine ⟨?_, ?_, ?_⟩
  · have hh := hget j
    rw [show s + j = j + s from by omega] at hh
    rw [← hh]
    exact h1
  · have hh := hget (j + 1)
    rw [show s + (j + 1) = j + s + 1 from by omega] at hh
    rw [← hh]
    exact h2
  · intro q hq1 hq2
    have h3q := h3 (q - s) (by omega)
    have ha := hget (q - s)
    have hb2 := hget (q - s + 1)
    rw [show s + (q - s) = q from by omega] at ha
    rw [show s + (q - s + 1) = q + 1 from by omega] at hb2
    rw [ha, hb2] at h3q
    exact h3q

theorem findCRLF_of_pair {buf : List Nat} {s p : Nat} (hs : s ≤ p)
    (hp : p + 1 < buf.length) (hcr : buf.getD p 0 = CR)
    (hlf : buf.getD (p + 1) 0 = LF) :
    ∃ i, findCRLF buf s = some i ∧ i ≤ p := by
  have hget : ∀ k, (buf.drop s).getD k 0 = buf.getD (s + k) 0 := by
    intro k
    rcases Nat.lt_or_ge (s + k) buf.length with hlt | hge
    · rw [List.getD_eq_getElem?_getD, List.getElem?_drop,
        ← List.getD_eq_getElem?_getD]
    · rw [List.getD_eq_default _ _ (by simp; omega),
        List.getD_eq_default _ _ (by omega)]
  obtain ⟨i, hi, hip⟩ := findCRLFIn_of_pair (buf.drop s) (p - s)
    (by simp; omega)
    (by rw [hget]; rw [show s + (p - s) = p by omega]; exact hcr)
    (by rw [hget]; rw [show s + (p - s + 1) = p + 1 by omega]; exact hlf)
  exact ⟨i + s, by simp [findCRLF, hi], by omega⟩

/-- Scanning from either of two `scanEq` positions finds the same
CRLF. -/
theorem scanEq_findCRLF {buf : List Nat} {r r' : Nat}
    (h : scanEq buf r r') : findCRLF buf r = findCRLF buf r' := by
  obtain ⟨h1, h2, h3, h4⟩ := h
  -- symmetric argument: reduce to min ≤ max
  have key : ∀ (u v : Nat), u ≤ v → u = min r r' → v = max r r' →
      findCRLF buf u = findCRLF buf v := by
    intro u v huv hu hv
    cases hfv : findCRLF buf v with
    | some i =>
      have hb := findCRLF_bounds hfv
      obtain ⟨hcr, hlf, hmin⟩ := findCRLF_getD hfv
      obtain ⟨j, hj, hjle⟩ := findCRLF_of_pair (le_trans huv hb.1) hb.2 hcr hlf
      have hbj := findCRLF_bounds hj
      obtain ⟨hcrj, hlfj, _⟩ := findCRLF_getD hj
      have hjge : v ≤ j := by
        by_contra hjlt
        exact h3 j (by omega) (by omega) (by omega) ⟨hcrj, hlfj⟩
      have hji : j = i := by
        by_contra hne
        exact hmin j hjge (by omega) ⟨hcrj, hlfj⟩
      rw [hj, hji]
    | none =>
      cases hfu : findCRLF buf u with
      | none => rfl
      | some j =>
        have hbj := findCRLF_bounds hfu
        obtain ⟨hcrj, hlfj, _⟩ := findCRLF_getD hfu
        have hjge : v ≤ j := by
          by_contra hjlt
          exact h3 j (by omega) (by omega) (by omega) ⟨hcrj, hlfj⟩
        obtain ⟨k, hk, _⟩ := findCRLF_of_pair hjge hbj.2 hcrj hlfj
        rw [hk] at hfv
        exact absurd hfv (by simp)
  rcases le_total r r' with hle | hle
  · exact key r r' hle (by omega) (by omega)
  · exact (key r' r hle (by omega) (by omega)).symm

/-! ### Extension stability of the CRLF scan -/

theorem getD_ext {buf d : List Nat} {p : Nat} (h : p < buf.length)
    (v : Nat) : (buf ++ d).getD p v = buf.getD p v :=
  List.getD_append _ _ _ _ h

theorem findCRLF_ext {buf : List Nat} {s i : Nat} (d : List Nat)
    (h : findCRLF buf s = some i) : findCRLF (buf ++ d) s = some i := by
  have hb := findCRLF_bounds h
  obtain ⟨hcr, hlf, hmin⟩ := findCRLF_getD h
  obtain ⟨j, hj, hjle⟩ := findCRLF_of_pair hb.1
    (show i + 1 < (buf ++ d).length from by rw [List.length_append]; omega)
    (by rw [getD_ext (by omega)]; exact hcr)
    (by rw [getD_ext (by omega)]; exact hlf)
  have hbj := findCRLF_bounds hj
  obtain ⟨hcrj, hlfj, _⟩ := findCRLF_getD hj
  have hji : j = i := by
    by_contra hne
    have hjb : j + 1 < buf.length := by omega
    rw [getD_ext (by omega)] at hcrj
    rw [getD_ext (by omega)] at hlfj
    exact hmin j hbj.1 (by omega) ⟨hcrj, hlfj⟩
  rw [hj, hji]

/-- If no CRLF is found in the present buffer, any CRLF of the extended
buffer starts at its last byte or beyond. -/
theorem findCRLF_ext_none {buf : List Nat} {s : Nat} {d : List Nat} {i : Nat}
    (hnone : findCRLF buf s = none) (hs : s ≤ buf.length)
    (h : findCRLF (buf ++ d) s = some i) : buf.length ≤ i + 1 := by
  by_contra hlt
  obtain ⟨hcr, hlf, _⟩ := findCRLF_getD h
  have hib : i + 1 < buf.length := by omega
  rw [getD_ext (by omega)] at hcr
  rw [getD_ext (by omega)] at hlf
  obtain ⟨j, hj, _⟩ := findCRLF_of_pair (findCRLF_bounds h).1 hib hcr hlf
  rw [hj] at hnone
  exact absurd hnone (by simp)

/-! ### `next_line` facts: match shape, extension stability, failure
characterization -/

/-- The end of the current `found_line` (0 for an unset line). -/
def flEnd (fl : Option Span) : Nat :=
  match fl with
  | none => 0
  | some f => f.2

theorem nextLineF_found_facts : ∀ (fuel : Nat) (buf : List Nat)
    (fl : Option Span) (s : Nat) fl' s' store',
    nextLineF fuel buf fl s = (fl', s', store', true) →
    store' = none ∧ fl' = some (flEnd fl, s') ∧
    buf.getD (s' - 1) 0 = LF ∧ buf.getD (s' - 2) 0 = CR := by
  intro fuel
  induction fuel with
  | zero => intro buf fl s fl' s' store' h; simp [nextLineF] at h
  | succ f ih =>
    intro buf fl s fl' s' store' h
    simp only [nextLineF] at h
    cases hcr : findCRLF buf s with
    | none => rw [hcr] at h; simp at h
    | some i =>
      rw [hcr] at h
      obtain ⟨hgcr, hglf, _⟩ := findCRLF_getD hcr
      by_cases hne : fl.isSome ∧ (fl.getD (0, 0)).2 ≠ i
      · simp only [if_pos hne] at h
        by_cases hend : i + 2 = buf.length
        · simp [hend] at h
        · simp only [if_neg hend] at h
          by_cases hwsp : buf.getD (i + 2) 0 = SPC ∨ buf.getD (i + 2) 0 = HTAB
          · simp only [if_pos hwsp] at h
            exact ih buf fl (i + 3) fl' s' store' h
          · simp only [if_neg hwsp, Prod.mk.injEq] at h
            obtain ⟨h1, h2, h3, -⟩ := h
            refine ⟨h3.symm, ?_, ?_, ?_⟩
            · rw [← h1, ← h2]
              rfl
            · rw [← h2]
              simpa using hglf
            · rw [← h2]
              simpa using hgcr
      · simp only [if_neg hne, Prod.mk.injEq] at h
        obtain ⟨h1, h2, h3, -⟩ := h
        refine ⟨h3.symm, ?_, ?_, ?_⟩
        · rw [← h1, ← h2]
          rfl
        · rw [← h2]
          simpa using hglf
        · rw [← h2]
          simpa using hgcr

/-- A matched line is matched identically on any buffer extension. -/
theorem nextLineF_ext_found : ∀ (fuel : Nat) (buf : List Nat)
    (fl : Option Span) (s : Nat) fl' s' store' (d : List Nat) (f2 : Nat),
    nextLineF fuel buf fl s = (fl', s', store', true) →
    buf.length ≤ s + f2 →
    nextLineF f2 (buf ++ d) fl s = (fl', s', store', true) := by
  intro fuel
  induction fuel with
  | zero => intro buf fl s fl' s' store' d f2 h _; simp [nextLineF] at h
  | succ f ih =>
    intro buf fl s fl' s' store' d f2 h hf2
    simp only [nextLineF] at h
    cases hcr : findCRLF buf s with
    | none => rw [hcr] at h; simp at h
    | some i =>
      rw [hcr] at h
      have hb := findCRLF_bounds hcr
      have hf21 : 1 ≤ f2 := by omega
      obtain ⟨g, rfl⟩ : ∃ g, f2 = g + 1 := ⟨f2 - 1, by omega⟩
      simp only [nextLineF]
      rw [findCRLF_ext d hcr]
      by_cases hne : fl.isSome ∧ (fl.getD (0, 0)).2 ≠ i
      · simp only [if_pos hne] at h ⊢
        by_cases hend : i + 2 = buf.length
        · simp [hend] at h
        · simp only [if_neg hend] at h
          have hi2 : i + 2 < buf.length := by omega
          rw [if_neg (by rw [List.length_append]; omega)]
          rw [getD_ext hi2]
          by_cases hwsp : buf.getD (i + 2) 0 = SPC ∨ buf.getD (i + 2) 0 = HTAB
          · simp only [if_pos hwsp] at h ⊢
            exact ih buf fl (i + 3) fl' s' store' d g h (by omega)
          · simp only [if_neg hwsp] at h ⊢
            exact h
      · simp only [if_neg hne] at h ⊢
        exact h

/-- Characterization of a `next_line` call that fails to match: the
`found_line` is unchanged, the scan halts at a position from which the
present buffer has no further CRLF (or at a deferred fold check at the
buffer end, recorded in `scan_buf_store`), and on any buffer extension
the same call picks up exactly where the halt position left off. -/
theorem nextLineF_false : ∀ (fuel : Nat) (buf : List Nat) (fl : Option Span)
    (s : Nat) fl' s' store',
    nextLineF fuel buf fl s = (fl', s', store', false) →
    buf.length ≤ s + fuel →
    s ≤ buf.length →
    (s = buf.length → buf.getD (buf.length - 1) 0 ≠ CR) →
    fl' = fl ∧ s ≤ s' ∧ s' ≤ buf.length ∧
    (s' = buf.length → buf.getD (buf.length - 1) 0 ≠ CR) ∧
    ((store' = none ∧ findCRLF buf s' = none) ∨
     (store' = some s' ∧ ∃ i, findCRLF buf s' = some i ∧ i + 2 = buf.length ∧
        fl.isSome ∧ (fl.getD (0, 0)).2 ≠ i)) ∧
    (∀ (d : List Nat) (f2 f3 : Nat), (buf ++ d).length ≤ s + f2 →
      (buf ++ d).length ≤ s' + f3 →
      nextLineF f2 (buf ++ d) fl s = nextLineF f3 (buf ++ d) fl s') := by
  intro fuel
  induction fuel with
  | zero =>
    intro buf fl s fl' s' store' h hfu hs hbyte
    simp only [nextLineF, Prod.mk.injEq] at h
    obtain ⟨h1, h2, h3, -⟩ := h
    subst h1
    subst h2
    subst h3
    refine ⟨rfl, le_refl s, hs, hbyte, Or.inl ⟨rfl, ?_⟩, ?_⟩
    · exact findCRLF_none_of_ge (by omega)
    · intro d f2 f3 ha2 ha3
      exact nextLineF_irrel f2 f3 (buf ++ d) fl s ha2 ha3
  | succ f ih =>
    intro buf fl s fl' s' store' h hfu hs hbyte
    simp only [nextLineF] at h
    cases hcr : findCRLF buf s with
    | none =>
      rw [hcr] at h
      simp only [Prod.mk.injEq] at h
      obtain ⟨h1, h2, h3, -⟩ := h
      subst h1
      subst h2
      subst h3
      refine ⟨rfl, le_refl s, hs, hbyte, Or.inl ⟨rfl, hcr⟩, ?_⟩
      intro d f2 f3 ha2 ha3
      exact nextLineF_irrel f2 f3 (buf ++ d) fl s ha2 ha3
    | some i =>
      rw [hcr] at h
      have hb := findCRLF_bounds hcr
      by_cases hne : fl.isSome ∧ (fl.getD (0, 0)).2 ≠ i
      · simp only [if_pos hne] at h
        by_cases hend : i + 2 = buf.length
        · simp only [if_pos hend, Prod.mk.injEq] at h
          obtain ⟨h1, h2, h3, -⟩ := h
          subst h1
          subst h2
          subst h3
          refine ⟨rfl, le_refl s, hs, hbyte,
            Or.inr ⟨rfl, i, hcr, hend, hne.1, hne.2⟩, ?_⟩
          intro d f2 f3 ha2 ha3
          exact nextLineF_irrel f2 f3 (buf ++ d) fl s ha2 ha3
        · simp only [if_neg hend] at h
          by_cases hwsp : buf.getD (i + 2) 0 = SPC ∨ buf.getD (i + 2) 0 = HTAB
          · simp only [if_pos hwsp] at h
            have hi2 : i + 2 < buf.length := by omega
            have hih := ih buf fl (i + 3) fl' s' store' h (by omega) (by omega)
              (by
                intro hiend
                have : buf.getD (buf.length - 1) 0 = SPC ∨
                    buf.getD (buf.length - 1) 0 = HTAB := by
                  rw [show buf.length - 1 = i + 2 by omega]
                  exact hwsp
                rcases this with hx | hx <;> rw [hx] <;> decide)
            obtain ⟨c1, c2, c3, c4, c5, c6⟩ := hih
            refine ⟨c1, by omega, c3, c4, c5, ?_⟩
            intro d f2 f3 ha2 ha3
            rw [List.length_append] at ha2 ha3
            have hf21 : 1 ≤ f2 := by omega
            obtain ⟨g, rfl⟩ : ∃ g, f2 = g + 1 := ⟨f2 - 1, by omega⟩
            simp only [nextLineF]
            rw [findCRLF_ext d hcr]
            simp only [if_pos hne]
            rw [if_neg (by rw [List.length_append]; omega)]
            rw [getD_ext hi2]
            rw [if_pos hwsp]
            exact c6 d g f3 (by rw [List.length_append]; omega)
              (by rw [List.length_append]; omega)
          · simp only [if_neg hwsp, Prod.mk.injEq] at h
            simp at h
      · simp only [if_neg hne, Prod.mk.injEq] at h
        simp at h

/-! ### Extension stability of the line handlers

The dispatched line handlers read the buffer only through the current
line's span and through spans recorded from earlier lines (`via`,
`x_forwarded_for`, `http_version`), all of which lie inside the already
received bytes; the only write (the host terminator zero) also lands
there.  Hence appending bytes to the buffer commutes with dispatching a
line. -/

def SpanInv (st : HeadState) : Prop :=
  st.via.2 ≤ st.buf.length ∧ st.xff.2 ≤ st.buf.length ∧
  st.httpVersion.2 ≤ st.buf.length

theorem slice_ext {buf : List Nat} {sp : Span} (d : List Nat)
    (h : sp.2 ≤ buf.length) : slice (buf ++ d) sp = slice buf sp := by
  unfold slice
  rw [takeApp_le _ _ _ h]

theorem sliceLen (buf : List Nat) (sp : Span) :
    (slice buf sp).length = min sp.2 buf.length - sp.1 := by
  simp [slice, List.length_drop, List.length_take]

theorem findB_lt {c : Nat} : ∀ {l : List Nat} {i : Nat},
    findB c l = some i → i < l.length := by
  intro l
  induction l with
  | nil => intro i h; simp [findB] at h
  | cons b rest ih =>
    intro i h
    simp only [findB] at h
    by_cases hb : b = c
    · simp [hb] at h
      simp only [List.length_cons]
      omega
    · simp [hb] at h
      obtain ⟨j, hj, hji⟩ := h
      have := ih hj
      simp only [List.length_cons]
      omega

theorem getHeaderValue_facts {line : List Nat} {colon : Nat} {vsp : Span}
    (h : getHeaderValue line colon = some vsp) :
    vsp.2 = line.length - 2 ∧ 4 ≤ line.length := by
  unfold getHeaderValue at h
  by_cases h1 : colon + 1 + 2 ≥ line.length
  · rw [if_pos h1] at h
    simp at h
  · rw [if_neg h1] at h
    cases h2 : findNotLWSPFrom line (colon + 1) with
    | none => rw [h2] at h; simp at h
    | some val =>
      rw [h2] at h
      simp only [Option.some.injEq] at h
      subst h
      exact ⟨rfl, by omega⟩

theorem copyModifiedHeadersOut_ext (st : HeadState) (d : List Nat)
    (hv : st.via.2 ≤ st.buf.length)
    (hh : st.httpVersion.2 ≤ st.buf.length) :
    copyModifiedHeadersOut { st with buf := st.buf ++ d } =
      copyModifiedHeadersOut st := by
  unfold copyModifiedHeadersOut
  dsimp only
  rw [slice_ext d hv, slice_ext d hh]

theorem parseRequestLine_ext (st : HeadState) (d : List Nat)
    (hfl2 : (st.fl.getD (0, 0)).2 ≤ st.buf.length)
    (hfl1 : (st.fl.getD (0, 0)).1 ≤ (st.fl.getD (0, 0)).2) :
    parseRequestLine { st with buf := st.buf ++ d } =
      ((parseRequestLine st).1,
       { (parseRequestLine st).2 with
         buf := (parseRequestLine st).2.buf ++ d }) := by
  have hsl : slice (st.buf ++ d) (st.fl.getD (0, 0)) =
      slice st.buf (st.fl.getD (0, 0)) := slice_ext d hfl2
  have hLa : (st.fl.getD (0, 0)).1 +
      (slice st.buf (st.fl.getD (0, 0))).length = (st.fl.getD (0, 0)).2 := by
    rw [sliceLen]
    omega
  have key : ∀ p, slice (st.buf ++ d)
      (p, (st.fl.getD (0, 0)).1 +
        (slice st.buf (st.fl.getD (0, 0))).length - 2) =
      slice st.buf (p, (st.fl.getD (0, 0)).1 +
        (slice st.buf (st.fl.getD (0, 0))).length - 2) := by
    intro p
    exact slice_ext d (by simp only; omega)
  simp only [parseRequestLine]
  rw [hsl]
  simp only [key]
  repeat' split
  all_goals rfl

theorem setApp {buf : List Nat} (d : List Nat) {p : Nat} (h : p < buf.length)
    (v : Nat) : (buf ++ d).set p v = buf.set p v ++ d :=
  List.set_append_left _ _ h

theorem parseRequestHead_ext (st : HeadState) (d : List Nat)
    (hfl2 : (st.fl.getD (0, 0)).2 ≤ st.buf.length)
    (hfl1 : (st.fl.getD (0, 0)).1 ≤ (st.fl.getD (0, 0)).2)
    (hv : st.via.2 ≤ st.buf.length)
    (hh : st.httpVersion.2 ≤ st.buf.length) :
    parseRequestHead { st with buf := st.buf ++ d } =
      ((parseRequestHead st).1,
       { (parseRequestHead st).2 with
         buf := (parseRequestHead st).2.buf ++ d }) := by
  have hsl : slice (st.buf ++ d) (st.fl.getD (0, 0)) =
      slice st.buf (st.fl.getD (0, 0)) := slice_ext d hfl2
  have hL : (slice st.buf (st.fl.getD (0, 0))).length =
      (st.fl.getD (0, 0)).2 - (st.fl.getD (0, 0)).1 := by
    rw [sliceLen]
    omega
  have key1 : ∀ x, copyModifiedHeadersOut
      { st with buf := st.buf ++ d, skipChunk := x } =
      copyModifiedHeadersOut { st with skipChunk := x } := fun x =>
    copyModifiedHeadersOut_ext { st with skipChunk := x } d hv hh
  have key0 : copyModifiedHeadersOut { st with buf := st.buf ++ d } =
      copyModifiedHeadersOut st := copyModifiedHeadersOut_ext st d hv hh
  simp only [parseRequestHead]
  rw [hsl]
  by_cases hL2 : (slice st.buf (st.fl.getD (0, 0))).length = 2
  · simp only [if_pos hL2]
    by_cases hch : st.chunked = true
    · simp only [if_pos hch]
      rw [key0]
      repeat' split
      all_goals rfl
    · simp only [if_neg hch]
      rw [key1]
      repeat' split
      all_goals rfl
  · simp only [if_neg hL2]
    cases hcolon : findB 58 (slice st.buf (st.fl.getD (0, 0))) with
    | none => rfl
    | some colon =>
      dsimp only
      cases hdr : reqHeaderFind ((slice st.buf (st.fl.getD (0, 0))).take colon) with
      | HOST =>
        dsimp only
        cases hco : copyLineOut st.output st.outCap
            (slice st.buf (st.fl.getD (0, 0))) with
        | none => rfl
        | some out =>
          dsimp only
          cases hgv : getHeaderValue (slice st.buf (st.fl.getD (0, 0))) colon with
          | none => rfl
          | some vsp =>
            obtain ⟨hv2, hv4⟩ := getHeaderValue_facts hgv
            have hsl2 : slice (st.buf ++ d)
                ((st.fl.getD (0, 0)).1 + vsp.1, (st.fl.getD (0, 0)).1 + vsp.2) =
                slice st.buf
                ((st.fl.getD (0, 0)).1 + vsp.1, (st.fl.getD (0, 0)).1 + vsp.2) :=
              slice_ext d (by simp only; omega)
            dsimp only
            rw [hsl2]
            cases hc2 : findB 58 (slice st.buf
                ((st.fl.getD (0, 0)).1 + vsp.1,
                 (st.fl.getD (0, 0)).1 + vsp.2)) with
            | none =>
              have hlt : (st.fl.getD (0, 0)).1 + vsp.2 < st.buf.length := by
                omega
              dsimp only
              rw [getD_ext hlt, setApp d hlt]
            | some c2 =>
              have hc2lt := findB_lt hc2
              rw [sliceLen] at hc2lt
              have hlt : (st.fl.getD (0, 0)).1 + vsp.1 + c2 < st.buf.length := by
                omega
              by_cases hport : c2 + 1 < (slice st.buf
                  ((st.fl.getD (0, 0)).1 + vsp.1,
                   (st.fl.getD (0, 0)).1 + vsp.2)).length
              · simp only [if_pos hport]
                rw [getD_ext hlt, setApp d hlt]
              · simp only [if_neg hport]
                rw [getD_ext hlt, setApp d hlt]
      | _ =>
        dsimp only
        repeat' split
        all_goals rfl

theorem parseResponseLine_ext (st : HeadState) (d : List Nat)
    (hfl2 : (st.fl.getD (0, 0)).2 ≤ st.buf.length) :
    parseResponseLine { st with buf := st.buf ++ d } =
      ((parseResponseLine st).1,
       { (parseResponseLine st).2 with
         buf := (parseResponseLine st).2.buf ++ d }) := by
  have hsl : slice (st.buf ++ d) (st.fl.getD (0, 0)) =
      slice st.buf (st.fl.getD (0, 0)) := slice_ext d hfl2
  simp only [parseResponseLine]
  rw [hsl]
  repeat' split
  all_goals rfl

theorem parseResponseHead_ext (st : HeadState) (d : List Nat)
    (hfl2 : (st.fl.getD (0, 0)).2 ≤ st.buf.length) :
    parseResponseHead { st with buf := st.buf ++ d } =
      ((parseResponseHead st).1,
       { (parseResponseHead st).2 with
         buf := (parseResponseHead st).2.buf ++ d }) := by
  have hsl : slice (st.buf ++ d) (st.fl.getD (0, 0)) =
      slice st.buf (st.fl.getD (0, 0)) := slice_ext d hfl2
  simp only [parseResponseHead]
  rw [hsl]
  repeat' split
  all_goals rfl

theorem getD_set_ne {l : List Nat} {i j : Nat} (h : i ≠ j) (v : Nat) :
    (l.set i v).getD j 0 = l.getD j 0 := by
  rw [List.getD_eq_getElem?_getD, List.getD_eq_getElem?_getD,
    List.getElem?_set_ne h]

theorem findBFrom_lt {c : Nat} {l : List Nat} {s i : Nat}
    (h : findBFrom c l s = some i) : i < l.length := by
  simp only [findBFrom, Option.map_eq_some'] at h
  obtain ⟨j, hj, hji⟩ := h
  have := findB_lt hj
  simp only [List.length_drop] at this
  omega

/-- The facts about a dispatched line handler that the `parse_head` loop
induction consumes: the line spans recorded in the state stay inside the
buffer, `found_line` and `scan_buf_store` are untouched, the buffer
length is unchanged, and bytes from one before the line's end on are
unchanged. -/
def DispatchFacts (st st2 : HeadState) : Prop :=
  SpanInv st2 ∧ st2.fl = st.fl ∧ st2.store = st.store ∧
  st2.buf.length = st.buf.length ∧
  (∀ p, (st.fl.getD (0, 0)).2 ≤ p + 1 →
    st2.buf.getD p 0 = st.buf.getD p 0)

theorem parseRequestLine_facts (st : HeadState)
    (h2 : (st.fl.getD (0, 0)).2 ≤ st.buf.length)
    (h1 : (st.fl.getD (0, 0)).1 ≤ (st.fl.getD (0, 0)).2)
    (hsp : SpanInv st) : DispatchFacts st (parseRequestLine st).2 := by
  have hL := sliceLen st.buf (st.fl.getD (0, 0))
  have hbnd : (st.fl.getD (0, 0)).1 +
      (slice st.buf (st.fl.getD (0, 0))).length - 2 ≤ st.buf.length := by
    omega
  simp only [parseRequestLine]
  repeat' split
  all_goals
    first
    | exact ⟨⟨hsp.1, hsp.2.1, hsp.2.2⟩, rfl, rfl, rfl, fun p _ => rfl⟩
    | exact ⟨⟨hsp.1, hsp.2.1, hbnd⟩, rfl, rfl, rfl, fun p _ => rfl⟩

theorem parseResponseLine_facts (st : HeadState)
    (h2 : (st.fl.getD (0, 0)).2 ≤ st.buf.length)
    (h1 : (st.fl.getD (0, 0)).1 ≤ (st.fl.getD (0, 0)).2)
    (hsp : SpanInv st) : DispatchFacts st (parseResponseLine st).2 := by
  have hL := sliceLen st.buf (st.fl.getD (0, 0))
  simp only [parseResponseLine]
  cases hsep : findB 47 (slice st.buf (st.fl.getD (0, 0))) with
  | none => exact ⟨⟨hsp.1, hsp.2.1, hsp.2.2⟩, rfl, rfl, rfl, fun p _ => rfl⟩
  | some sep =>
    dsimp only
    split
    · exact ⟨⟨hsp.1, hsp.2.1, hsp.2.2⟩, rfl, rfl, rfl, fun p _ => rfl⟩
    · cases hsp1 : findBFrom SPC (slice st.buf (st.fl.getD (0, 0))) (sep + 1) with
      | none => exact ⟨⟨hsp.1, hsp.2.1, hsp.2.2⟩, rfl, rfl, rfl, fun p _ => rfl⟩
      | some sp1 =>
        have hsp1lt := findBFrom_lt hsp1
        have hbnd : (st.fl.getD (0, 0)).1 + sp1 ≤ st.buf.length := by omega
        dsimp only
        repeat' split
        all_goals exact ⟨⟨hsp.1, hsp.2.1, hbnd⟩, rfl, rfl, rfl, fun p _ => rfl⟩

theorem parseResponseHead_facts (st : HeadState)
    (hsp : SpanInv st) : DispatchFacts st (parseResponseHead st).2 := by
  simp only [parseResponseHead]
  repeat' split
  all_goals exact ⟨⟨hsp.1, hsp.2.1, hsp.2.2⟩, rfl, rfl, rfl, fun p _ => rfl⟩

theorem parseRequestHead_facts (st : HeadState)
    (h2 : (st.fl.getD (0, 0)).2 ≤ st.buf.length)
    (h1 : (st.fl.getD (0, 0)).1 ≤ (st.fl.getD (0, 0)).2)
    (hsp : SpanInv st) : DispatchFacts st (parseRequestHead st).2 := by
  have hL := sliceLen st.buf (st.fl.getD (0, 0))
  have hunch : DispatchFacts st st :=
    ⟨⟨hsp.1, hsp.2.1, hsp.2.2⟩, rfl, rfl, rfl, fun p _ => rfl⟩
  have hVIA : (st.fl.getD (0, 0)).1 +
      (slice st.buf (st.fl.getD (0, 0))).length ≤ st.buf.length := by
    omega
  simp only [parseRequestHead]
  by_cases hL2 : (slice st.buf (st.fl.getD (0, 0))).length = 2
  · simp only [if_pos hL2]
    repeat' split
    all_goals exact hunch
  · simp only [if_neg hL2]
    cases hcolon : findB 58 (slice st.buf (st.fl.getD (0, 0))) with
    | none => exact hunch
    | some colon =>
      dsimp only
      cases hdr : reqHeaderFind ((slice st.buf (st.fl.getD (0, 0))).take colon) with
      | HOST =>
        dsimp only
        cases hco : copyLineOut st.output st.outCap
            (slice st.buf (st.fl.getD (0, 0))) with
        | none => exact hunch
        | some out =>
          dsimp only
          cases hgv : getHeaderValue (slice st.buf (st.fl.getD (0, 0))) colon with
          | none => exact hunch
          | some vsp =>
            obtain ⟨hv2, hv4⟩ := getHeaderValue_facts hgv
            dsimp only
            have main : ∀ q, q ≤ (st.fl.getD (0, 0)).1 + vsp.2 →
                ∀ (st1 : HeadState), st1.buf = st.buf → st1.fl = st.fl →
                st1.store = st.store → st1.via = st.via → st1.xff = st.xff →
                st1.httpVersion = st.httpVersion →
                DispatchFacts st
                  { st1 with hostTerminator := st1.buf.getD q 0,
                             buf := st1.buf.set q 0 } := by
              intro q hq st1 hb hf hsv hvia hxff hhv
              have hqlt : q < st.buf.length := by omega
              refine ⟨⟨?_, ?_, ?_⟩, ?_, ?_, ?_, ?_⟩
              · simp only [hvia, hb, List.length_set]
                exact hsp.1
              · simp only [hxff, hb, List.length_set]
                exact hsp.2.1
              · simp only [hhv, hb, List.length_set]
                exact hsp.2.2
              · exact hf
              · exact hsv
              · simp only [hb, List.length_set]
              · intro p hp
                simp only [hb]
                exact getD_set_ne (by omega) 0
            cases hc2 : findB 58 (slice st.buf
                ((st.fl.getD (0, 0)).1 + vsp.1,
                 (st.fl.getD (0, 0)).1 + vsp.2)) with
            | none =>
              exact main _ (le_refl _) _ rfl rfl rfl rfl rfl rfl
            | some c2 =>
              have hc2lt := findB_lt hc2
              rw [sliceLen] at hc2lt
              dsimp only
              split
              · exact main _ (by omega) _ rfl rfl rfl rfl rfl rfl
              · exact main _ (by omega) _ rfl rfl rfl rfl rfl rfl
      | _ =>
        dsimp only
        repeat' split
        all_goals
          first
          | exact hunch
          | exact ⟨⟨hVIA, hsp.2.1, hsp.2.2⟩, rfl, rfl, rfl, fun p _ => rfl⟩
          | exact ⟨⟨hsp.1, hVIA, hsp.2.2⟩, rfl, rfl, rfl, fun p _ => rfl⟩

theorem parseLineDispatch_ext (st : HeadState) (d : List Nat)
    (hfl2 : (st.fl.getD (0, 0)).2 ≤ st.buf.length)
    (hfl1 : (st.fl.getD (0, 0)).1 ≤ (st.fl.getD (0, 0)).2)
    (hsp : SpanInv st) :
    parseLineDispatch { st with buf := st.buf ++ d } =
      ((parseLineDispatch st).1,
       { (parseLineDispatch st).2 with
         buf := (parseLineDispatch st).2.buf ++ d }) := by
  obtain ⟨hv, hx, hh⟩ := hsp
  cases hph : st.phase with
  | reqLine =>
    simp only [parseLineDispatch, hph]
    rw [show Phase.reqLine = st.phase from hph.symm]
    exact parseRequestLine_ext st d hfl2 hfl1
  | reqHead =>
    simp only [parseLineDispatch, hph]
    rw [show Phase.reqHead = st.phase from hph.symm]
    exact parseRequestHead_ext st d hfl2 hfl1 hv hh
  | respLine =>
    simp only [parseLineDispatch, hph]
    rw [show Phase.respLine = st.phase from hph.symm]
    exact parseResponseLine_ext st d hfl2
  | respHead =>
    simp only [parseLineDispatch, hph]
    rw [show Phase.respHead = st.phase from hph.symm]
    exact parseResponseHead_ext st d hfl2

theorem parseLineDispatch_facts (st : HeadState)
    (h2 : (st.fl.getD (0, 0)).2 ≤ st.buf.length)
    (h1 : (st.fl.getD (0, 0)).1 ≤ (st.fl.getD (0, 0)).2)
    (hsp : SpanInv st) : DispatchFacts st (parseLineDispatch st).2 := by
  cases hph : st.phase with
  | reqLine =>
    simp only [parseLineDispatch, hph]
    exact parseRequestLine_facts st h2 h1 hsp
  | reqHead =>
    simp only [parseLineDispatch, hph]
    exact parseRequestHead_facts st h2 h1 hsp
  | respLine =>
    simp only [parseLineDispatch, hph]
    exact parseResponseLine_facts st h2 h1 hsp
  | respHead =>
    simp only [parseLineDispatch, hph]
    exact parseResponseHead_facts st hsp

/-! ### The `parse_head` loop: replay and tiny-window behaviour -/

theorem findCRLFIn_short {l : List Nat} (h : l.length ≤ 1) :
    findCRLFIn l = none := by
  cases l with
  | nil => rfl
  | cons a t =>
    cases t with
    | nil => rfl
    | cons b r => simp at h

theorem findCRLF_none_of_short {buf : List Nat} {s : Nat}
    (h : buf.length ≤ s + 1) : findCRLF buf s = none := by
  unfold findCRLF
  rw [findCRLFIn_short (by simp only [List.length_drop]; omega)]
  rfl

theorem findCRLF_none_getD {buf : List Nat} {s : Nat}
    (h : findCRLF buf s = none) :
    ∀ p, s ≤ p → p + 1 < buf.length →
    ¬(buf.getD p 0 = CR ∧ buf.getD (p + 1) 0 = LF) := by
  rintro p hs hp ⟨hcr, hlf⟩
  obtain ⟨j, hj, -⟩ := findCRLF_of_pair hs hp hcr hlf
  rw [h] at hj
  exact absurd hj (by simp)

theorem nextLineF_short {buf : List Nat} {s : Nat} (fuel : Nat)
    (fl : Option Span) (h : buf.length ≤ s + 1) :
    nextLineF fuel buf fl s = (fl, s, none, false) := by
  cases fuel with
  | zero => rfl
  | succ f =>
    simp only [nextLineF]
    rw [findCRLF_none_of_short h]

/-- With a scan window of at most one byte the loop exits immediately. -/
theorem loop_tiny (f : Nat) (st : HeadState) (s : Nat)
    (h : st.buf.length ≤ s + 1) :
    parseHeadLoopF (f + 1) st s = (.CONTINUE, { st with store := none }, s) := by
  simp only [parseHeadLoopF, nextLine]
  rw [nextLineF_short _ _ h]

/-- If the first `next_line` probes from two positions coincide, the whole
loop coincides (the loop state after a match depends only on the match). -/
theorem loop_replay (f f' : Nat) (st : HeadState) (s s' : Nat)
    (hnl : nextLine st.buf st.fl s = nextLine st.buf st.fl s')
    (hs : s ≤ st.buf.length) (hs' : s' ≤ st.buf.length)
    (hf : st.buf.length + 2 ≤ s + 2 * f)
    (hf' : st.buf.length + 2 ≤ s' + 2 * f') :
    parseHeadLoopF f st s = parseHeadLoopF f' st s' := by
  obtain ⟨fuelA, rfl⟩ : ∃ u, f = u + 1 := ⟨f - 1, by omega⟩
  obtain ⟨fuelB, rfl⟩ : ∃ u, f' = u + 1 := ⟨f' - 1, by omega⟩
  simp only [parseHeadLoopF]
  rw [hnl]
  cases hnl' : nextLine st.buf st.fl s' with
  | mk fl2 rest =>
    match rest with
    | (s2, w2, found) =>
      cases found with
      | false => rfl
      | true =>
        have hb' := nextLineF_found_bounds st.buf.length st.buf st.fl s'
          fl2 s2 w2 hnl'
        have hb : s + 2 ≤ s2 ∧ s2 ≤ st.buf.length := by
          apply nextLineF_found_bounds st.buf.length st.buf st.fl s fl2 s2 w2
          rw [← nextLine, hnl, hnl']
        simp only
        cases hpd : parseLineDispatch { st with fl := fl2 } with
        | mk res st2 =>
          cases res with
          | CONTINUE =>
            simp only
            have hlen : st2.buf.length = st.buf.length := by
              have := parseLineDispatch_buf_len { st with fl := fl2 }
              rw [hpd] at this
              exact this
            exact parseHeadLoopF_irrel fuelA fuelB st2 s2 (by omega) (by omega)
          | TERMINATE => rfl
          | PROCEED => rfl

theorem flEnd_eq (fl : Option Span) : flEnd fl = (fl.getD (0, 0)).2 := by
  cases fl <;> rfl

/-- The master lemma about one `parse_head` line loop run: structural facts
about the exit state, and the behaviour of the same loop on the buffer
extended by further bytes (it replays the same matched lines, and past the
exit position of the shorter run the two scans coincide). -/
theorem loop_main : ∀ (fuel : Nat) (st : HeadState) (s : Nat) (r : Status)
    (st1 : HeadState) (s1 : Nat),
    parseHeadLoopF fuel st s = (r, st1, s1) →
    st.buf.length + 2 ≤ s + 2 * fuel →
    s ≤ st.buf.length →
    (st.fl.getD (0, 0)).2 ≤ s + 1 →
    (st.fl.getD (0, 0)).2 ≤ st.buf.length →
    (s = st.buf.length → st.buf.getD (st.buf.length - 1) 0 ≠ CR) →
    SpanInv st →
    (SpanInv st1 ∧ st1.buf.length = st.buf.length ∧ s ≤ s1 ∧
     s1 ≤ st.buf.length ∧ (st1.fl.getD (0, 0)).2 ≤ s1 + 1 ∧
     (st1.fl.getD (0, 0)).2 ≤ st.buf.length ∧
     (r = .CONTINUE →
       ((st1.store = none ∧ findCRLF st1.buf s1 = none) ∨
        (st1.store = some s1 ∧ ∃ i, findCRLF st1.buf s1 = some i ∧
          i + 2 = st.buf.length))) ∧
     (s1 = st.buf.length → st1.buf.getD (st.buf.length - 1) 0 ≠ CR)) ∧
    (∀ (d : List Nat) (f2 : Nat),
      st.buf.length + d.length + 2 ≤ s + 2 * f2 →
      (r = .CONTINUE →
        ∀ (f3 : Nat), st.buf.length + d.length + 2 ≤ s1 + 2 * f3 →
        parseHeadLoopF f2 { st with buf := st.buf ++ d } s =
        parseHeadLoopF f3
          { st1 with store := st.store, buf := st1.buf ++ d } s1) ∧
      (r ≠ .CONTINUE →
        parseHeadLoopF f2 { st with buf := st.buf ++ d } s =
        (r, { st1 with buf := st1.buf ++ d }, s1))) := by
  intro fuel
  induction fuel with
  | zero =>
    intro st s r st1 s1 hloop hfu hs hfl1 hflB hbyte hSp
    omega
  | succ f ih =>
    intro st s r st1 s1 hloop hfu hs hfl1 hflB hbyte hSp
    simp only [parseHeadLoopF] at hloop
    rcases hnlv : nextLine st.buf st.fl s with ⟨fl', s', store', found⟩
    rw [hnlv] at hloop
    cases found with
    | false =>
      simp only [Prod.mk.injEq] at hloop
      obtain ⟨hr, hst1, hs1⟩ := hloop
      subst hr
      subst hst1
      subst hs1
      have hnlv' : nextLineF st.buf.length st.buf st.fl s =
          (fl', s', store', false) := hnlv
      obtain ⟨c1, c2, c3, c4, c5, c6⟩ := nextLineF_false st.buf.length st.buf
        st.fl s fl' s' store' hnlv' (by omega) hs hbyte
      subst c1
      refine ⟨⟨hSp, rfl, c2, c3,
        (by show (st.fl.getD (0, 0)).2 ≤ s' + 1; omega), hflB, ?_, c4⟩, ?_⟩
      · intro _
        rcases c5 with ⟨hn, hf⟩ | ⟨hsome, i, hi, hlen, -, -⟩
        · exact Or.inl ⟨hn, hf⟩
        · exact Or.inr ⟨hsome, i, hi, hlen⟩
      · intro d f2 hf2
        constructor
        · intro _ f3 hf3
          apply loop_replay
          · show nextLine (st.buf ++ d) st.fl s = nextLine (st.buf ++ d) st.fl s'
            exact c6 d (st.buf ++ d).length (st.buf ++ d).length
              (by rw [List.length_append]; omega)
              (by rw [List.length_append]; omega)
          · show s ≤ (st.buf ++ d).length
            rw [List.length_append]
            omega
          · show s' ≤ (st.buf ++ d).length
            rw [List.length_append]
            omega
          · show (st.buf ++ d).length + 2 ≤ s + 2 * f2
            rw [List.length_append]
            omega
          · show (st.buf ++ d).length + 2 ≤ s' + 2 * f3
            rw [List.length_append]
            omega
        · intro hr
          exact absurd rfl hr
    | true =>
      have hnlv' : nextLineF st.buf.length st.buf st.fl s =
          (fl', s', store', true) := hnlv
      obtain ⟨hstore', hfl'eq, hlfB, hcrB⟩ :=
        nextLineF_found_facts st.buf.length st.buf st.fl s fl' s' store' hnlv'
      obtain ⟨hs'lo, hs'hi⟩ :=
        nextLineF_found_bounds st.buf.length st.buf st.fl s fl' s' store' hnlv'
      have hfsp : (({ st with fl := fl' } : HeadState).fl.getD (0, 0)) =
          (flEnd st.fl, s') := by
        show (fl'.getD (0, 0)) = (flEnd st.fl, s')
        rw [hfl'eq]
        rfl
      have hdh2 : (({ st with fl := fl' } : HeadState).fl.getD (0, 0)).2 ≤
          ({ st with fl := fl' } : HeadState).buf.length := by
        rw [hfsp]
        exact hs'hi
      have hdh1 : (({ st with fl := fl' } : HeadState).fl.getD (0, 0)).1 ≤
          (({ st with fl := fl' } : HeadState).fl.getD (0, 0)).2 := by
        rw [hfsp]
        show flEnd st.fl ≤ s'
        rw [flEnd_eq]
        omega
      have hDF := parseLineDispatch_facts { st with fl := fl' } hdh2 hdh1 hSp
      rcases hpd : parseLineDispatch { st with fl := fl' } with ⟨res, st2⟩
      rw [hpd] at hDF
      dsimp only at hDF
      obtain ⟨hSp2, hfl2eq, hst2store, hlen2, hbytes2⟩ := hDF
      have hfl2v : st2.fl = fl' := hfl2eq
      have hbyteNext : s' = st2.buf.length →
          st2.buf.getD (st2.buf.length - 1) 0 ≠ CR := by
        intro hse
        rw [hlen2] at hse ⊢
        rw [hbytes2 (st.buf.length - 1)
          (by rw [hfsp]; show s' ≤ st.buf.length - 1 + 1;
              exact le_trans hs'hi (by omega))]
        rw [show st.buf.length - 1 = s' - 1 by rw [hse], hlfB]
        decide
      have hext1 : ∀ (d : List Nat),
          nextLine (st.buf ++ d) st.fl s = (fl', s', store', true) := by
        intro d
        show nextLineF (st.buf ++ d).length (st.buf ++ d) st.fl s = _
        exact nextLineF_ext_found st.buf.length st.buf st.fl s fl' s' store' d
          (st.buf ++ d).length hnlv' (by rw [List.length_append]; omega)
      have hext2 : ∀ (d : List Nat),
          parseLineDispatch { st with buf := st.buf ++ d, fl := fl' } =
          ((parseLineDispatch { st with fl := fl' }).1,
           { (parseLineDispatch { st with fl := fl' }).2 with
             buf := (parseLineDispatch { st with fl := fl' }).2.buf ++ d }) :=
        fun d => parseLineDispatch_ext { st with fl := fl' } d hdh2 hdh1 hSp
      simp only at hloop
      rw [hpd] at hloop
      cases res with
      | CONTINUE =>
        simp only at hloop
        have hcheck : st2.buf.length = st.buf.length := hlen2
        have hstcl : st2.store = st.store := hst2store
        have hih := ih st2 s' r st1 s1 hloop (by omega) (by omega)
          (by rw [hfl2v, hfl'eq]; show s' ≤ s' + 1; omega)
          (by rw [hfl2v, hfl'eq]; show s' ≤ st2.buf.length; omega)
          hbyteNext hSp2
        obtain ⟨⟨k1, k2, k3, k4, k5, k6, k7, k8⟩, kext⟩ := hih
        refine ⟨⟨k1, by omega, by omega, by omega, k5, by omega, ?_, ?_⟩, ?_⟩
        · intro hr
          rcases k7 hr with ⟨hn, hf⟩ | ⟨hsome, i, hi, hlen⟩
          · exact Or.inl ⟨hn, hf⟩
          · exact Or.inr ⟨hsome, i, hi, by omega⟩
        · intro hse
          rw [show st.buf.length = st2.buf.length from hlen2.symm] at hse ⊢
          exact k8 hse
        · intro d f2 hf2
          have hf2pos : 1 ≤ f2 := by omega
          obtain ⟨g2, rfl⟩ : ∃ g2, f2 = g2 + 1 := ⟨f2 - 1, by omega⟩
          have hunf : parseHeadLoopF (g2 + 1) { st with buf := st.buf ++ d } s =
              parseHeadLoopF g2 { st2 with buf := st2.buf ++ d } s' := by
            simp only [parseHeadLoopF]
            rw [hext1 d]
            simp only
            rw [hext2 d, hpd]
          constructor
          · intro hr f3 hf3
            rw [hunf]
            have := (kext d g2 (by omega)).1 hr f3 (by omega)
            nth_rewrite 2 [hstcl] at this
            exact this
          · intro hr
            rw [hunf]
            exact (kext d g2 (by omega)).2 hr
      | TERMINATE =>
        simp only [Prod.mk.injEq] at hloop
        obtain ⟨hr, hst1, hs1⟩ := hloop
        subst hr
        subst hst1
        subst hs1
        refine ⟨⟨hSp2, hlen2, by omega, hs'hi, ?_, ?_, ?_, ?_⟩, ?_⟩
        · rw [hfl2v, hfl'eq]
          show s' ≤ s' + 1
          omega
        · rw [hfl2v, hfl'eq]
          show s' ≤ st.buf.length
          omega
        · intro hr
          exact absurd hr (by simp)
        · intro hse
          rw [← hlen2] at hse
          have := hbyteNext hse
          rw [hlen2] at this
          exact this
        · intro d f2 hf2
          refine ⟨fun hr => absurd hr (by simp), fun _ => ?_⟩
          have hf2pos : 1 ≤ f2 := by omega
          obtain ⟨g2, rfl⟩ : ∃ g2, f2 = g2 + 1 := ⟨f2 - 1, by omega⟩
          simp only [parseHeadLoopF]
          rw [hext1 d]
          simp only
          rw [hext2 d, hpd]
      | PROCEED =>
        simp only [Prod.mk.injEq] at hloop
        obtain ⟨hr, hst1, hs1⟩ := hloop
        subst hr
        subst hst1
        subst hs1
        refine ⟨⟨hSp2, hlen2, by omega, hs'hi, ?_, ?_, ?_, ?_⟩, ?_⟩
        · rw [hfl2v, hfl'eq]
          show s' ≤ s' + 1
          omega
        · rw [hfl2v, hfl'eq]
          show s' ≤ st.buf.length
          omega
        · intro hr
          exact absurd hr (by simp)
        · intro hse
          rw [← hlen2] at hse
          have := hbyteNext hse
          rw [hlen2] at this
          exact this
        · intro d f2 hf2
          refine ⟨fun hr => absurd hr (by simp), fun _ => ?_⟩
          have hf2pos : 1 ≤ f2 := by omega
          obtain ⟨g2, rfl⟩ : ∃ g2, f2 = g2 + 1 := ⟨f2 - 1, by omega⟩
          simp only [parseHeadLoopF]
          rw [hext1 d]
          simp only
          rw [hext2 d, hpd]

/-- From two positions with no CRLF in between (and none hanging at the
buffer edge), `next_line` either returns identical results or fails to
complete a line from both (possibly deferring at each position). -/
theorem nextLine_scanEq (buf : List Nat) (fl : Option Span) (r r' : Nat)
    (h : scanEq buf r r') :
    nextLine buf fl r = nextLine buf fl r' ∨
    ((nextLine buf fl r).2.2.2 = false ∧ (nextLine buf fl r').2.2.2 = false) := by
  have hcr := scanEq_findCRLF h
  unfold nextLine
  cases hfl : buf.length with
  | zero => exact Or.inr ⟨rfl, rfl⟩
  | succ g =>
    simp only [nextLineF]
    rw [hcr]
    cases hf : findCRLF buf r' with
    | none => exact Or.inr ⟨rfl, rfl⟩
    | some i =>
      by_cases hne : fl.isSome ∧ (fl.getD (0, 0)).2 ≠ i
      · simp only [if_pos hne]
        by_cases hend : i + 2 = buf.length
        · simp only [if_pos hend]
          exact Or.inr ⟨trivial, trivial⟩
        · simp only [if_neg hend]
          by_cases hwsp : buf.getD (i + 2) 0 = SPC ∨ buf.getD (i + 2) 0 = HTAB
          · simp only [if_pos hwsp]
            exact Or.inl trivial
          · simp only [if_neg hwsp]
            exact Or.inl trivial
      · simp only [if_neg hne]
        exact Or.inl trivial

/-- Loop runs from two `scanEq` positions agree in status, and agree
completely when a line handler ended the loop. -/
theorem loop_scanEq (f f' : Nat) (st : HeadState) (r r' : Nat)
    (hscan : scanEq st.buf r r')
    (hr : r ≤ st.buf.length) (hr' : r' ≤ st.buf.length)
    (hf : st.buf.length + 2 ≤ r + 2 * f)
    (hf' : st.buf.length + 2 ≤ r' + 2 * f') :
    (parseHeadLoopF f st r).1 = (parseHeadLoopF f' st r').1 ∧
    ((parseHeadLoopF f st r).1 ≠ .CONTINUE →
      parseHeadLoopF f st r = parseHeadLoopF f' st r') := by
  rcases nextLine_scanEq st.buf st.fl r r' hscan with heq | ⟨hb1, hb2⟩
  · have hall := loop_replay f f' st r r' heq hr hr' hf hf'
    exact ⟨by rw [hall], fun _ => hall⟩
  · obtain ⟨fuelC, rfl⟩ : ∃ u, f = u + 1 := ⟨f - 1, by omega⟩
    obtain ⟨fuelD, rfl⟩ : ∃ u, f' = u + 1 := ⟨f' - 1, by omega⟩
    simp only [parseHeadLoopF]
    rcases hn1 : nextLine st.buf st.fl r with ⟨fl1, s1, w1, found1⟩
    rcases hn2 : nextLine st.buf st.fl r' with ⟨fl2, s2, w2, found2⟩
    rw [hn1] at hb1
    rw [hn2] at hb2
    simp only at hb1 hb2
    subst hb1
    subst hb2
    exact ⟨rfl, fun hx => absurd rfl hx⟩

/-! ### Resume positions and the cross-call equivalence -/

/-- The scan position a `parse_head` call would start from: the deferred
store if present, otherwise one byte before the current buffer end (when
possible). -/
def resumePos (A : HeadState) : Nat :=
  match A.store with
  | some w => w
  | none => if 2 ≤ A.buf.length then A.buf.length - 1 else 0

/-- `parse_head` with an explicitly chosen resume position. -/
def parseHeadFrom (A : HeadState) (r : Nat) (x : List Nat) :
    Status × HeadState :=
  parseHead { A with store := some r } x

/-- Well-formedness of a parser state between `parse_head` calls. -/
def WfHead (A : HeadState) : Prop :=
  SpanInv A ∧ (A.fl.getD (0, 0)).2 ≤ A.buf.length ∧
  (∀ w, A.store = some w →
    w + 2 ≤ A.buf.length ∧ (A.fl.getD (0, 0)).2 ≤ w + 1)

theorem resumePos_le (A : HeadState) (hWf : WfHead A) :
    resumePos A ≤ A.buf.length := by
  cases hst : A.store with
  | some w =>
    have hrp : resumePos A = w := by
      unfold resumePos
      rw [hst]
    have := (hWf.2.2 w hst).1
    omega
  | none =>
    have hrp : resumePos A =
        if 2 ≤ A.buf.length then A.buf.length - 1 else 0 := by
      unfold resumePos
      rw [hst]
    rw [hrp]
    split <;> omega

theorem resumePos_fl (A : HeadState) (hWf : WfHead A) :
    (A.fl.getD (0, 0)).2 ≤ resumePos A + 1 := by
  cases hst : A.store with
  | some w =>
    have hrp : resumePos A = w := by
      unfold resumePos
      rw [hst]
    rw [hrp]
    exact (hWf.2.2 w hst).2
  | none =>
    have hrp : resumePos A =
        if 2 ≤ A.buf.length then A.buf.length - 1 else 0 := by
      unfold resumePos
      rw [hst]
    rw [hrp]
    have := hWf.2.1
    split <;> omega

/-- A real `parse_head` call is the canonical-position call. -/
theorem parseHead_canon (A : HeadState) (x : List Nat) :
    parseHead A x = parseHeadFrom A (resumePos A) x := by
  cases hst : A.store with
  | some w =>
    have hrp : resumePos A = w := by
      unfold resumePos
      rw [hst]
    have hA : ({ A with store := some w } : HeadState) = A := by
      rw [← hst]
    rw [parseHeadFrom, hrp, hA]
  | none =>
    have hrp : resumePos A =
        if 2 ≤ A.buf.length then A.buf.length - 1 else 0 := by
      unfold resumePos
      rw [hst]
    rw [parseHeadFrom, hrp]
    show parseHead A x = parseHead { A with store := some _ } x
    simp only [parseHead]
    rw [show ({ A with buf := A.buf ++ x } : HeadState).store = A.store from
      rfl, hst]

theorem nextLineF_none {buf : List Nat} {s : Nat} (fuel : Nat)
    (fl : Option Span) (h : findCRLF buf s = none) :
    nextLineF fuel buf fl s = (fl, s, none, false) := by
  cases fuel with
  | zero => rfl
  | succ f =>
    simp only [nextLineF]
    rw [h]

/-- One `parse_head` call started from either of two `scanEq` resume
positions returns the same status, and the same full result whenever the
status is not `CONTINUE`. -/
theorem parseHead_posEq (A : HeadState) (r r' : Nat) (x : List Nat)
    (hr : r ≤ A.buf.length) (hr' : r' ≤ A.buf.length)
    (hscan : scanEq A.buf r r') :
    (parseHeadFrom A r x).1 = (parseHeadFrom A r' x).1 ∧
    ((parseHeadFrom A r x).1 ≠ .CONTINUE →
      parseHeadFrom A r x = parseHeadFrom A r' x) := by
  have hlift := scanEq_ext hscan x
  have hlen : A.buf.length ≤ (A.buf ++ x).length := by
    rw [List.length_append]
    omega
  have hun : ∀ (q : Nat), parseHeadFrom A q x =
      (if (A.buf ++ x).length - q < 2 then
        ((.CONTINUE : Status),
          ({ A with store := none, buf := A.buf ++ x } : HeadState))
       else
        match parseHeadLoopF ((A.buf ++ x).length + 1)
            { A with store := none, buf := A.buf ++ x } q with
        | (r0, st1, _) => (r0, st1)) := by
    intro q
    rfl
  rw [hun r, hun r']
  by_cases g1 : (A.buf ++ x).length - r < 2 <;>
    by_cases g2 : (A.buf ++ x).length - r' < 2
  · simp only [if_pos g1, if_pos g2]
    exact ⟨trivial, fun _ => trivial⟩
  · -- the r-side window is empty, the r'-side loop finds nothing
    simp only [if_pos g1, if_neg g2]
    have hfn : findCRLF (A.buf ++ x) r' = none := by
      cases hfc : findCRLF (A.buf ++ x) r' with
      | none => rfl
      | some i =>
        exfalso
        have hb := findCRLF_bounds hfc
        obtain ⟨hcr, hlf, -⟩ := findCRLF_getD hfc
        rcases le_or_lt r i with hri | hir
        · omega
        · exact hlift.2.2.1 i (by omega) (by omega) (by omega) ⟨hcr, hlf⟩
    have hloopr' : parseHeadLoopF ((A.buf ++ x).length + 1)
        { A with store := none, buf := A.buf ++ x } r' =
        (.CONTINUE, { A with store := none, buf := A.buf ++ x }, r') := by
      simp only [parseHeadLoopF, nextLine]
      rw [nextLineF_none _ _ hfn]
    rw [hloopr']
    exact ⟨rfl, fun h => absurd rfl h⟩
  · -- symmetric: the r'-side window is empty
    simp only [if_neg g1, if_pos g2]
    have hfn : findCRLF (A.buf ++ x) r = none := by
      cases hfc : findCRLF (A.buf ++ x) r with
      | none => rfl
      | some i =>
        exfalso
        have hb := findCRLF_bounds hfc
        obtain ⟨hcr, hlf, -⟩ := findCRLF_getD hfc
        rcases le_or_lt r' i with hri | hir
        · omega
        · exact hlift.2.2.1 i (by omega) (by omega) (by omega) ⟨hcr, hlf⟩
    have hloopr : parseHeadLoopF ((A.buf ++ x).length + 1)
        { A with store := none, buf := A.buf ++ x } r =
        (.CONTINUE, { A with store := none, buf := A.buf ++ x }, r) := by
      simp only [parseHeadLoopF, nextLine]
      rw [nextLineF_none _ _ hfn]
    rw [hloopr]
    exact ⟨rfl, fun h => absurd rfl h⟩
  · -- both guards pass: compare the loops
    simp only [if_neg g1, if_neg g2]
    have hLS := loop_scanEq ((A.buf ++ x).length + 1) ((A.buf ++ x).length + 1)
      { A with store := none, buf := A.buf ++ x } r r' hlift
      (by show r ≤ (A.buf ++ x).length; omega)
      (by show r' ≤ (A.buf ++ x).length; omega)
      (by show (A.buf ++ x).length + 2 ≤ r + 2 * ((A.buf ++ x).length + 1)
          omega)
      (by show (A.buf ++ x).length + 2 ≤ r' + 2 * ((A.buf ++ x).length + 1)
          omega)
    rcases hlp1 : parseHeadLoopF ((A.buf ++ x).length + 1)
        { A with store := none, buf := A.buf ++ x } r with ⟨r1, st1, s1⟩
    rcases hlp2 : parseHeadLoopF ((A.buf ++ x).length + 1)
        { A with store := none, buf := A.buf ++ x } r' with ⟨r2, st2, s2⟩
    rw [hlp1, hlp2] at hLS
    simp only at hLS
    obtain ⟨hstat, hfull⟩ := hLS
    refine ⟨hstat, fun h => ?_⟩
    have := hfull h
    simp only [Prod.mk.injEq] at this
    simp only [Prod.mk.injEq]
    exact ⟨this.1, this.2.1⟩

theorem parseHeadFrom_eq (A : HeadState) (q : Nat) (y : List Nat) :
    parseHeadFrom A q y =
      (if (A.buf ++ y).length - q < 2 then
        ((.CONTINUE : Status),
          ({ A with store := none, buf := A.buf ++ y } : HeadState))
       else
        match parseHeadLoopF ((A.buf ++ y).length + 1)
            { A with store := none, buf := A.buf ++ y } q with
        | (r0, st1, _) => (r0, st1)) := rfl

/-- The merge lemma: a call that returned `CONTINUE` can be replayed on
any extension of its chunk as a fresh call on the updated state from a
resume position `scanEq`-equivalent to the canonical one; a call that
ended the head parse gives the same terminal result on any extension. -/
theorem parseHead_step (A : HeadState) (c : List Nat) (res : Status)
    (A1 : HeadState) (hWf : WfHead A) (hc : c ≠ [])
    (hrun : parseHeadFrom A (resumePos A) c = (res, A1)) :
    (res = .CONTINUE → WfHead A1 ∧
      ∃ r1, r1 ≤ A1.buf.length ∧ (A1.fl.getD (0, 0)).2 ≤ r1 + 1 ∧
        scanEq A1.buf (resumePos A1) r1 ∧
        ∀ d, parseHeadFrom A (resumePos A) (c ++ d) = parseHeadFrom A1 r1 d) ∧
    (res ≠ .CONTINUE →
      (A1.fl.getD (0, 0)).2 ≤ A1.buf.length ∧
      ∀ d, parseHeadFrom A (resumePos A) (c ++ d) =
        (res, { A1 with buf := A1.buf ++ d })) := by
  obtain ⟨hSp, hflB, hstoreW⟩ := hWf
  obtain ⟨hv, hxf, hhv⟩ := hSp
  have hWfA : WfHead A := ⟨⟨hv, hxf, hhv⟩, hflB, hstoreW⟩
  have hrp := resumePos_le A hWfA
  have hfl1 := resumePos_fl A hWfA
  have hclen : 0 < c.length := List.length_pos.mpr hc
  rw [parseHeadFrom_eq] at hrun
  by_cases hg : (A.buf ++ c).length - resumePos A < 2
  · -- tiny first window: the call only appended the chunk
    rw [if_pos hg] at hrun
    simp only [Prod.mk.injEq] at hrun
    obtain ⟨hres, hA1⟩ := hrun
    subst hres
    subst hA1
    have hg' : A.buf.length + c.length ≤ resumePos A + 1 := by
      rw [List.length_append] at hg
      omega
    have hrpA : resumePos A = A.buf.length := by omega
    have hc1 : c.length = 1 := by omega
    refine ⟨fun _ => ⟨⟨⟨?_, ?_, ?_⟩, ?_, ?_⟩, ?_⟩, fun hne => absurd rfl hne⟩
    · show A.via.2 ≤ (A.buf ++ c).length
      rw [List.length_append]
      omega
    · show A.xff.2 ≤ (A.buf ++ c).length
      rw [List.length_append]
      omega
    · show A.httpVersion.2 ≤ (A.buf ++ c).length
      rw [List.length_append]
      omega
    · show (A.fl.getD (0, 0)).2 ≤ (A.buf ++ c).length
      rw [List.length_append]
      omega
    · intro w hw
      exact absurd hw (by simp)
    · have hWfW : WfHead { A with store := none, buf := A.buf ++ c } := by
        refine ⟨⟨?_, ?_, ?_⟩, ?_, ?_⟩
        · show A.via.2 ≤ (A.buf ++ c).length
          rw [List.length_append]
          omega
        · show A.xff.2 ≤ (A.buf ++ c).length
          rw [List.length_append]
          omega
        · show A.httpVersion.2 ≤ (A.buf ++ c).length
          rw [List.length_append]
          omega
        · show (A.fl.getD (0, 0)).2 ≤ (A.buf ++ c).length
          rw [List.length_append]
          omega
        · intro w hw
          exact absurd hw (by simp)
      refine ⟨resumePos { A with store := none, buf := A.buf ++ c },
        resumePos_le _ hWfW, resumePos_fl _ hWfW,
        scanEq_refl _ _ (resumePos_le _ hWfW), ?_⟩
      have hrpW : resumePos { A with store := none, buf := A.buf ++ c } =
          resumePos A := by
        show (if 2 ≤ (A.buf ++ c).length then (A.buf ++ c).length - 1 else 0) =
          resumePos A
        rw [List.length_append]
        split <;> omega
      intro d
      rw [hrpW, parseHeadFrom_eq, parseHeadFrom_eq,
        show A.buf ++ (c ++ d) = (A.buf ++ c) ++ d from
          (List.append_assoc A.buf c d).symm]
  · -- the loop ran
    rw [if_neg hg] at hrun
    rcases hlp : parseHeadLoopF ((A.buf ++ c).length + 1)
        { A with store := none, buf := A.buf ++ c } (resumePos A)
      with ⟨r0, st1, s1⟩
    rw [hlp] at hrun
    simp only [Prod.mk.injEq] at hrun
    obtain ⟨hres0, hA10⟩ := hrun
    have hres1 : res = r0 := hres0.symm
    have hA11 : A1 = st1 := hA10.symm
    subst hres1
    subst hA11
    have hlm := loop_main ((A.buf ++ c).length + 1)
      { A with store := none, buf := A.buf ++ c } (resumePos A) res A1 s1 hlp
      (by show (A.buf ++ c).length + 2 ≤
            resumePos A + 2 * ((A.buf ++ c).length + 1)
          omega)
      (by show resumePos A ≤ (A.buf ++ c).length
          rw [List.length_append]
          omega)
      hfl1
      (by show (A.fl.getD (0, 0)).2 ≤ (A.buf ++ c).length
          rw [List.length_append]
          omega)
      (by intro h
          exact absurd h (by show resumePos A ≠ (A.buf ++ c).length
                             rw [List.length_append]
                             omega))
      (by refine ⟨?_, ?_, ?_⟩
          · show A.via.2 ≤ (A.buf ++ c).length
            rw [List.length_append]
            omega
          · show A.xff.2 ≤ (A.buf ++ c).length
            rw [List.length_append]
            omega
          · show A.httpVersion.2 ≤ (A.buf ++ c).length
            rw [List.length_append]
            omega)
    obtain ⟨⟨k1, k2, k3, k4, k5, k6, k7, k8⟩, kext⟩ := hlm
    have hA1len : A1.buf.length = (A.buf ++ c).length := k2
    have hk4 : s1 ≤ (A.buf ++ c).length := k4
    have hk6 : (A1.fl.getD (0, 0)).2 ≤ (A.buf ++ c).length := k6
    refine ⟨fun hres => ?_, fun hres => ?_⟩
    · subst hres
      have hk7 := k7 rfl
      have hWf1 : WfHead A1 := by
        refine ⟨k1, by omega, ?_⟩
        intro w hw
        rcases hk7 with ⟨hnone, -⟩ | ⟨hsome, i, hi, hilen⟩
        · rw [hnone] at hw
          exact absurd hw (by simp)
        · rw [hsome] at hw
          have hw' : s1 = w := by
            simpa using hw
          subst hw'
          have hb := findCRLF_bounds hi
          exact ⟨by omega, k5⟩
      refine ⟨hWf1, s1, by omega, k5, ?_, ?_⟩
      · -- the canonical resume of A1 rescans an empty stretch
        rcases hk7 with ⟨hnone, hfnone⟩ | ⟨hsome, i, hi, hilen⟩
        · have hrp1 : resumePos A1 =
              if 2 ≤ A1.buf.length then A1.buf.length - 1 else 0 := by
            unfold resumePos
            rw [hnone]
          rw [hrp1]
          refine ⟨by split <;> omega, by omega, ?_, ?_⟩
          · intro p hp1 hp2 hp3
            rcases le_or_lt s1 p with hsp | hsp
            · exact findCRLF_none_getD hfnone p hsp hp3
            · exfalso
              by_cases hlen2 : 2 ≤ A1.buf.length
              · simp only [if_pos hlen2] at hp1 hp2
                omega
              · simp only [if_neg hlen2] at hp1 hp2
                omega
          · intro p hp1 hp2 hp3
            have hps : s1 = (A.buf ++ c).length := by
              by_cases hlen2 : 2 ≤ A1.buf.length
              · simp only [if_pos hlen2] at hp1 hp2
                omega
              · simp only [if_neg hlen2] at hp1 hp2
                omega
            rw [show p = (A.buf ++ c).length - 1 from by omega]
            exact k8 hps
        · have hrp1 : resumePos A1 = s1 := by
            unfold resumePos
            rw [hsome]
          rw [hrp1]
          exact scanEq_refl _ _ (by omega)
      · intro d
        rw [parseHeadFrom_eq,
          show A.buf ++ (c ++ d) = (A.buf ++ c) ++ d from
            (List.append_assoc A.buf c d).symm,
          if_neg (by simp only [List.length_append]
                     simp only [List.length_append] at hg
                     omega)]
        have hstep1 := (kext d (((A.buf ++ c) ++ d).length + 1)
          (by simp only [List.length_append]
              omega)).1 rfl (((A.buf ++ c) ++ d).length + 1)
          (by simp only [List.length_append]
              omega)
        rw [hstep1]
        rw [parseHeadFrom_eq]
        by_cases hgd : (A1.buf ++ d).length - s1 < 2
        · rw [if_pos hgd]
          rw [loop_tiny (((A.buf ++ c) ++ d).length)
            { A1 with store := none, buf := A1.buf ++ d } s1
            (by show (A1.buf ++ d).length ≤ s1 + 1
                omega)]
        · rw [if_neg hgd]
          rw [parseHeadLoopF_irrel (((A.buf ++ c) ++ d).length + 1)
            ((A1.buf ++ d).length + 1)
            { A1 with store := none, buf := A1.buf ++ d } s1
            (by show (A1.buf ++ d).length + 2 ≤
                  s1 + 2 * (((A.buf ++ c) ++ d).length + 1)
                simp only [List.length_append]
                simp only [List.length_append] at hA1len
                omega)
            (by show (A1.buf ++ d).length + 2 ≤
                  s1 + 2 * ((A1.buf ++ d).length + 1)
                simp only [List.length_append]
                simp only [List.length_append] at hA1len
                omega)]
    · refine ⟨by omega, ?_⟩
      intro d
      rw [parseHeadFrom_eq,
        show A.buf ++ (c ++ d) = (A.buf ++ c) ++ d from
          (List.append_assoc A.buf c d).symm,
        if_neg (by simp only [List.length_append]
                   simp only [List.length_append] at hg
                   omega)]
      have hstep1 := (kext d (((A.buf ++ c) ++ d).length + 1)
        (by simp only [List.length_append]
            omega)).2 hres
      rw [hstep1]

/-- Feeding the chunks one at a time reproduces a single-shot run that
parses the whole head, provided the head occupies the entire input. -/
theorem feed_main : ∀ (cs : List (List Nat)) (A : HeadState) (r' : Nat)
    (S : HeadState),
    WfHead A → r' ≤ A.buf.length → scanEq A.buf (resumePos A) r' →
    (∀ c ∈ cs, c ≠ []) → cs ≠ [] →
    parseHeadFrom A r' (catB cs) = (.PROCEED, S) →
    (S.fl.getD (0, 0)).2 = S.buf.length →
    feedHead A cs = (.PROCEED, S) := by
  intro cs
  induction cs with
  | nil =>
    intro A r' S _ _ _ _ hne _ _
    exact absurd rfl hne
  | cons c cs' ihc =>
    intro A r' S hWf hr' hscan hnn _ hsingle hend
    have hc : c ≠ [] := hnn c (by simp)
    have hrp := resumePos_le A hWf
    have hE := parseHead_posEq A (resumePos A) r' (catB (c :: cs')) hrp hr' hscan
    have hsingle' : parseHeadFrom A (resumePos A) (catB (c :: cs')) =
        (.PROCEED, S) := by
      have h1 : (parseHeadFrom A (resumePos A) (catB (c :: cs'))).1 =
          .PROCEED := by
        rw [hE.1, hsingle]
      rw [hE.2 (by rw [h1]; simp), hsingle]
    have hcat : catB (c :: cs') = c ++ catB cs' := rfl
    rcases hrun : parseHeadFrom A (resumePos A) c with ⟨res, A1⟩
    have hstep := parseHead_step A c res A1 hWf hc hrun
    cases res with
    | CONTINUE =>
      obtain ⟨hWf1, r1, hr1, hfl1, hscan1, hall⟩ := hstep.1 rfl
      have hred : parseHeadFrom A1 r1 (catB cs') = (.PROCEED, S) := by
        rw [← hall (catB cs'), ← hcat]
        exact hsingle'
      by_cases hcs' : cs' = []
      · exfalso
        rw [hcs'] at hred
        have h1 : parseHeadFrom A1 r1 (catB ([] : List (List Nat))) =
            parseHeadFrom A (resumePos A) (c ++ []) := (hall _).symm
        rw [List.append_nil, hrun] at h1
        rw [h1] at hred
        exact absurd hred (by simp)
      · show feedHead A (c :: cs') = (.PROCEED, S)
        simp only [feedHead]
        rw [parseHead_canon A c, hrun]
        exact ihc A1 r1 S hWf1 hr1 hscan1
          (fun x hx => hnn x (List.mem_cons_of_mem c hx))
          hcs' hred hend
    | TERMINATE =>
      exfalso
      obtain ⟨-, hall⟩ := hstep.2 (by simp)
      have h1 := hall (catB cs')
      rw [← hcat, hsingle'] at h1
      exact absurd h1 (by simp)
    | PROCEED =>
      obtain ⟨hflb, hall⟩ := hstep.2 (by simp)
      have h1 := hall (catB cs')
      rw [← hcat, hsingle'] at h1
      simp only [Prod.mk.injEq, true_and] at h1
      have hlen0 : (catB cs').length = 0 := by
        have := congrArg (fun z => z.buf.length) h1
        simp only at this
        rw [List.length_append] at this
        have hSfl := hend
        rw [this] at hSfl
        have hSfl2 : (S.fl.getD (0, 0)).2 = (A1.fl.getD (0, 0)).2 := by
          rw [h1]
        omega
      have hnil : catB cs' = [] := List.length_eq_zero.mp hlen0
      have hSA1 : S = A1 := by
        rw [h1, hnil, List.append_nil]
      show feedHead A (c :: cs') = (.PROCEED, S)
      simp only [feedHead]
      rw [parseHead_canon A c, hrun, hSA1]

/-! ## Claims -/

/-- C1: for every sequence of non-empty recv chunks whose concatenation a
single `parse_head` call parses to `PROCEED` with the final matched line
ending exactly at the end of the received bytes (i.e. the chunks
partition a complete request head), feeding the chunks one at a time
through `parse_head` — with `next_line` rescanning from one byte before
each new chunk and the deferred-carry store — ends in `PROCEED` with the
identical parser state: the same `method`, `request_uri`, `host`, `port`,
`content_length`, `chunked`, `keep_alive`, `force_close` fields and the
same emitted output bytes as the single-chunk run. -/
theorem claim_C1 (la pa : List Nat) (cap : Nat) (cs : List (List Nat))
    (S : HeadState) (hcs : cs ≠ []) (hne : ∀ c ∈ cs, c ≠ [])
    (hsingle : parseHead (initHead la pa cap) (catB cs) = (.PROCEED, S))
    (hend : (S.fl.getD (0, 0)).2 = S.buf.length) :
    feedHead (initHead la pa cap) cs = (.PROCEED, S) := by
  have hWf : WfHead (initHead la pa cap) := by
    refine ⟨⟨?_, ?_, ?_⟩, ?_, ?_⟩
    · show (0 : Nat) ≤ 0
      exact Nat.le_refl 0
    · show (0 : Nat) ≤ 0
      exact Nat.le_refl 0
    · show (0 : Nat) ≤ 0
      exact Nat.le_refl 0
    · show (0 : Nat) ≤ 0
      exact Nat.le_refl 0
    · intro w hw
      exact Option.noConfusion hw
  apply feed_main cs (initHead la pa cap) (resumePos (initHead la pa cap)) S
    hWf (resumePos_le _ hWf) (scanEq_refl _ _ (resumePos_le _ hWf)) hne hcs
    ?_ hend
  rw [← parseHead_canon]
  exact hsingle

/-- Witness: the head `GET / HTTP/1.1\r\n\r\n` split right between the CR
and the LF of the request line gives the same `PROCEED` state as the
single-chunk run. -/
theorem claim_C1_witness :
    feedHead (initHead [] [] 100)
        [strBytes "GET / HTTP/1.1\r", strBytes "\n\r\n"] =
      (.PROCEED,
        (parseHead (initHead [] [] 100)
          (catB [strBytes "GET / HTTP/1.1\r", strBytes "\n\r\n"])).2) :=
  claim_C1 [] [] 100 [strBytes "GET / HTTP/1.1\r", strBytes "\n\r\n"]
    (parseHead (initHead [] [] 100)
      (catB [strBytes "GET / HTTP/1.1\r", strBytes "\n\r\n"])).2
    (by simp) (by decide) (by rfl) (by rfl)

/-- C4: for every well-formed chunked body (chunks with hex size
markers and CR/LF-free extensions, a zero-valued last marker, an
optional trailer of CR/LF-free header lines, the final CRLF) and every
partition of its bytes into non-empty recv chunks, repeated `parse_body`
calls return `PROCEED` exactly at the call that supplies the final LF:
every proper partition prefix returns `CONTINUE`, and the full partition
returns `PROCEED` with the recv window exactly at that final LF (so no
byte beyond it is consumed — the window handed back is the single LF
byte).  The `recv_chunk.size() == 1` assertion holds throughout such a
run. -/
theorem claim_C4 (t : BTail) (cs : List (List Nat))
    (hwf : tailOk t) (hne : cs ≠ []) (hcne : ∀ c ∈ cs, c ≠ [])
    (hpart : catB cs = tailBytes t) :
    ((feedBody initBody cs).status = .PROCEED ∧
     (feedBody initBody cs).rest = [LF] ∧
     (feedBody initBody cs).lfAssertOk = true) ∧
    ∀ p q, cs = p ++ q → p ≠ [] → q ≠ [] →
      (feedBody initBody p).status = .CONTINUE := by
  have hok := startConf_ok t hwf
  have hb := startConf_bytes t
  have hst : confState (startConf t) = initBody := by
    rw [startConf_state]
    rfl
  constructor
  · have h := feed_steps cs (startConf t) hne hcne hok (by rw [hb]; exact hpart)
    rw [hst] at h
    exact h
  · intro p q hpq hp hq
    subst hpq
    have hcb := catB_append p q
    have hqne := catB_ne q hq (fun c hc => hcne c (by simp [hc]))
    have hq0 : 0 < (catB q).length := by
      cases hcq : catB q with
      | nil => exact absurd hcq hqne
      | cons a b => simp
    have hplen : (catB p).length < (confBytes (startConf t)).length := by
      rw [hb, ← hpart, hcb, List.length_append]
      omega
    have hppre : (confBytes (startConf t)).take (catB p).length = catB p := by
      rw [hb, ← hpart, hcb]
      exact List.take_left _ _
    have h := feed_prefix p (startConf t) hp
      (fun c hc => hcne c (by simp [hc])) hok hppre hplen
    rw [hst] at h
    exact h.1

/-- Witness for C4 at the spec's scenario: the body `1\r\nx\r\n0\r\n\r\n`
split across the chunk-terminator CRLF. -/
theorem claim_C4_witness :
    ((feedBody initBody
        [strBytes "1\r\nx", strBytes "\r\n0\r\n\r\n"]).status = .PROCEED ∧
     (feedBody initBody
        [strBytes "1\r\nx", strBytes "\r\n0\r\n\r\n"]).rest = [LF] ∧
     (feedBody initBody
        [strBytes "1\r\nx", strBytes "\r\n0\r\n\r\n"]).lfAssertOk = true) ∧
    ∀ p q, [strBytes "1\r\nx", strBytes "\r\n0\r\n\r\n"] = p ++ q →
      p ≠ [] → q ≠ [] → (feedBody initBody p).status = .CONTINUE :=
  claim_C4 ⟨[⟨strBytes "1", [], strBytes "x"⟩], strBytes "0", [], []⟩
    [strBytes "1\r\nx", strBytes "\r\n0\r\n\r\n"]
    ⟨fun c hc => by
        simp at hc
        subst hc
        exact ⟨by decide, by decide, by decide, by decide, by decide,
          Or.inl rfl, by decide⟩,
      by decide, by decide, by decide, ⟨Or.inl rfl, by decide⟩, by simp⟩
    (by simp) (by decide) (by decide)

/-- C6: when a chunk-size marker's hex digits are split across recv
chunks, a chunk consisting solely of further hex digits makes
`parse_body` shift the saved `marker_hoarder` left by 4 bits per digit
and add the digits' value, and it returns `TERMINATE` exactly when that
shift would overflow the `size_t` accumulator
(`marker_hoarder > SIZE_MAX >> bits`). -/
theorem claim_C6 (h : Nat) (bE ch : Bool) (ds : List Nat)
    (hne : h ≠ clUnset) (hds : ds ≠ [])
    (hhex : ∀ c ∈ ds, isHexB c = true)
    (hval : hexVal16 ds ≤ 2 ^ 63 - 1) :
    parseBody ⟨.NO_SEARCH, 0, h, bE, ch⟩ ds =
      if h > SIZE_MAX / 2 ^ (ds.length * 4)
      then ⟨.TERMINATE, ⟨.NO_SEARCH, 0, h, bE, ch⟩, ds, true⟩
      else ⟨.CONTINUE,
            ⟨.NO_SEARCH, 0, h * 2 ^ (ds.length * 4) + hexVal16 ds, bE, ch⟩,
            ds, true⟩ := by
  match ds, hds with
  | c :: rest, _ =>
    have hstol := stol_hex (c :: rest) (by simp) hhex hval
    have hcd := isHexB_ne (hhex c (by simp))
    have hvlt : hexVal16 (c :: rest) < 2 ^ 64 := by
      have : (2 : Nat) ^ 63 - 1 < 2 ^ 64 := by decide
      omega
    unfold parseBody
    have hfe : 2 * (c :: rest).length + 2 = (2 * (c :: rest).length + 1) + 1 := by
      omega
    rw [hfe]
    simp only [parseBodyF]
    rw [if_neg (by simp)]
    rw [if_neg (by simp)]
    rw [if_neg (by
      rintro ⟨-, (hc | hc)⟩
      · exact hcd.1 hc
      · exact hcd.2 hc)]
    rw [hstol]
    simp only [Bool.false_eq_true, if_false]
    rw [if_neg (by
      rintro ⟨hlt, -⟩
      simp at hlt)]
    rw [if_neg hne]
    by_cases hov : h > SIZE_MAX / 2 ^ ((c :: rest).length * 4)
    · rw [if_pos hov, if_pos hov]
    · rw [if_neg hov, if_neg hov]
      simp only [if_pos rfl]
      have hp1 : hexVal16 (c :: rest) < 2 ^ ((c :: rest).length * 4) := by
        have := hexVal16_lt (c :: rest) hhex
        have h16 : (16 : Nat) ^ (c :: rest).length = 2 ^ ((c :: rest).length * 4) := by
          rw [show (16 : Nat) = 2 ^ 4 from rfl, ← pow_mul, Nat.mul_comm]
        omega
      rw [toSizeT_coe hvlt]
      rw [Nat.mod_eq_of_lt
        (shift_no_overflow h ((c :: rest).length * 4) (hexVal16 (c :: rest))
          (by unfold SIZE_MAX at hov; omega) hp1 hvlt)]
      rw [if_pos trivial]

/-- Witness for C6 at the spec's own scenario 4: the marker `1ff` split
as `1` then `ff` accumulates `marker_hoarder` to `0x1ff = 511`. -/
theorem claim_C6_witness :
    parseBody ⟨.NO_SEARCH, 0, 1, false, true⟩ (strBytes "ff") =
      ⟨.CONTINUE, ⟨.NO_SEARCH, 0, 511, false, true⟩, strBytes "ff", true⟩ := by
  have h := claim_C6 1 false true (strBytes "ff") (by decide) (by decide)
    (by decide) (by decide)
  rw [h]
  rw [if_neg (by decide)]
  norm_num
  decide

/-- C2: for a request with exactly one Via header and `no_transform`
false, the source does NOT merge `, <HTTP-VERSION> <LOCAL-IP>` into the
received Via line before its CRLF: `copy_modified_headers` re-emits the
captured `via` view including its terminating CRLF and only then appends
the suffix, so for the spec's own example (`Via: 1.0 other`, local
address `10.0.0.1`, request version 1.1) the emitted bytes contain
`Via: 1.0 other\r\n, 1.1 10.0.0.1\r\n` and never the claimed
`Via: 1.0 other, 1.1 10.0.0.1\r\n` line. -/
theorem claim_C2 :
    (parseHead sampleInit
        (strBytes "GET / HTTP/1.1\r\nHost: h\r\nVia: 1.0 other\r\n\r\n")).1 =
      .PROCEED ∧
    (parseHead sampleInit
        (strBytes "GET / HTTP/1.1\r\nHost: h\r\nVia: 1.0 other\r\n\r\n")).2.output =
      strBytes "GET / HTTP/1.1\r\nHost: h\r\nVia: 1.0 other\r\n, 1.1 10.0.0.1\r\nx-forwarded-for: 5.6.7.8\r\n\r\n" ∧
    containsSeq
      (parseHead sampleInit
        (strBytes "GET / HTTP/1.1\r\nHost: h\r\nVia: 1.0 other\r\n\r\n")).2.output
      (strBytes "Via: 1.0 other, 1.1 10.0.0.1\r\n") = false := by
  refine ⟨by decide, by decide, by decide⟩

/-- C3: for a request carrying an X-Forwarded-For header the source
never re-emits that header's line: the X-Forwarded-For branch of
`copy_modified_headers` copies the `via` field instead of
`x_forwarded_for` (src/http.cc line 216).  With `no_transform` false the
output carries only the appended `, <PEER>` fragment (after a freshly
built `via:` line), and with `Cache-Control: no-transform` the received
X-Forwarded-For line disappears from the output entirely instead of
being passed through byte-identically. -/
theorem claim_C3 :
    ((parseHead sampleInit
        (strBytes "GET / HTTP/1.1\r\nHost: h\r\nX-Forwarded-For: 1.2.3.4\r\n\r\n")).1 =
      .PROCEED ∧
     (parseHead sampleInit
        (strBytes "GET / HTTP/1.1\r\nHost: h\r\nX-Forwarded-For: 1.2.3.4\r\n\r\n")).2.output =
      strBytes "GET / HTTP/1.1\r\nHost: h\r\nvia: 1.1 10.0.0.1\r\n, 5.6.7.8\r\n\r\n" ∧
     containsSeq
      (parseHead sampleInit
        (strBytes "GET / HTTP/1.1\r\nHost: h\r\nX-Forwarded-For: 1.2.3.4\r\n\r\n")).2.output
      (strBytes "X-Forwarded-For") = false) ∧
    ((parseHead sampleInit
        (strBytes "GET / HTTP/1.1\r\nHost: h\r\nCache-Control: no-transform\r\nX-Forwarded-For: 1.2.3.4\r\n\r\n")).1 =
      .PROCEED ∧
     containsSeq
      (parseHead sampleInit
        (strBytes "GET / HTTP/1.1\r\nHost: h\r\nCache-Control: no-transform\r\nX-Forwarded-For: 1.2.3.4\r\n\r\n")).2.output
      (strBytes "X-Forwarded-For") = false) := by
  refine ⟨⟨by decide, by decide, by decide⟩, by decide, by decide⟩

/-- C5 (amended): after a response head completes, Progress becomes
`RESPONSE_WAIT_SHUTDOWN` if and only if the response has no
Content-Length, is not chunked, and `keep_alive` is false — the
response version does not appear in the decision (it only influences the
default value of `keep_alive`). -/
theorem claim_C5 (st : HeadState) :
    backendProgressAfterHead st = .RESPONSE_WAIT_SHUTDOWN ↔
      st.contentLength = clUnset ∧ st.chunked = false ∧
        st.keepAlive = false := by
  unfold backendProgressAfterHead
  by_cases h0 : st.contentLength = 0
  · have h0c : (0 : Nat) ≠ clUnset := by decide
    simp [h0, h0c]
  · simp only [if_neg h0]
    by_cases h1 : st.contentLength = clUnset ∧ st.chunked = false
    · simp only [if_pos h1]
      cases hka : st.keepAlive <;> simp [h1]
    · simp only [if_neg h1]
      constructor
      · intro h; exact absurd h (by decide)
      · intro ⟨ha, hb, _⟩; exact absurd ⟨ha, hb⟩ h1

/-- C5 (counterexample to the claim as stated): the response
`HTTP/1.1 200 OK` with `Connection: close`, no Content-Length and no
chunking has response version 1.1 (1001, not below 1.1), yet the code
sets Progress to `RESPONSE_WAIT_SHUTDOWN`, contradicting the claimed
"response version is below 1.1" conjunct of the iff. -/
theorem claim_C5_cx :
    (parseHead
        (startResponse
          (parseHead sampleInit (strBytes "GET / HTTP/1.1\r\nHost: h\r\n\r\n")).2)
        (strBytes "HTTP/1.1 200 OK\r\nConnection: close\r\n\r\n")).1 = .PROCEED ∧
    (parseHead
        (startResponse
          (parseHead sampleInit (strBytes "GET / HTTP/1.1\r\nHost: h\r\n\r\n")).2)
        (strBytes "HTTP/1.1 200 OK\r\nConnection: close\r\n\r\n")).2.responseVersion = 1001 ∧
    backendProgressAfterHead
      (parseHead
        (startResponse
          (parseHead sampleInit (strBytes "GET / HTTP/1.1\r\nHost: h\r\n\r\n")).2)
        (strBytes "HTTP/1.1 200 OK\r\nConnection: close\r\n\r\n")).2 =
      .RESPONSE_WAIT_SHUTDOWN := by
  refine ⟨by decide, by decide, by decide⟩

/-- C7: a backend connect failure at Progress `REQUEST_FINISHED` resets
the frontend buffer and fills it with exactly the 502 response followed
by the system error text and ` (<errno>)`, stops all backend events and
switches the frontend to write-only; at any Progress before
`REQUEST_FINISHED` the session is released instead. -/
theorem claim_C7 (p : Progress) (fbuf : List Nat) (fcap : Nat)
    (bbuf : List Nat) (fEv bEv : Nat) (errText : List Nat) (errNo : Nat)
    (hfit : BAD_GATEWAY.length + errText.length + (decDigits errNo).length + 3 ≤ fcap) :
    (p.toNat < Progress.REQUEST_FINISHED.toNat →
      backendErrorCallback p fbuf fcap bbuf fEv bEv errText errNo =
        ⟨true, p, bbuf, fbuf, fEv, bEv⟩) ∧
    (p = .REQUEST_FINISHED →
      backendErrorCallback p fbuf fcap bbuf fEv bEv errText errNo =
        ⟨false, .RESPONSE_FINISHED, [],
         BAD_GATEWAY ++ errText ++ strBytes " (" ++ decDigits errNo ++
           strBytes ")",
         EV_WRITE, 0⟩) := by
  constructor
  · intro hlt
    have hne : p ≠ .REQUEST_FINISHED := by
      intro he; rw [he] at hlt; simp [Progress.toNat] at hlt
    unfold backendErrorCallback
    rw [if_pos hne]
  · intro he
    subst he
    unfold backendErrorCallback
    rw [if_neg (by simp)]
    rw [setErrorBuf_eq hfit]

/-- Witness for C7 at the spec's own scenario: `ECONNREFUSED` (111) with
error text `Connection refused` produces exactly the documented client
bytes. -/
theorem claim_C7_witness :
    backendErrorCallback .REQUEST_FINISHED [] 4096 [] 0 0
        (strBytes "Connection refused") 111 =
      ⟨false, .RESPONSE_FINISHED, [],
       strBytes "HTTP/1.1 502 Bad Gateway\r\nConnection: close\r\nContent-Type: text/plain\r\n\r\nConnection refused (111)",
       EV_WRITE, 0⟩ := by
  have h := (claim_C7 .REQUEST_FINISHED [] 4096 [] 0 0
    (strBytes "Connection refused") 111 (by decide)).2 rfl
  rw [h]
  decide

/-- C8 (amended): `NameCache::get` returns the stored address and
promotes the entry to the most-recently-used position exactly when a
case-insensitively matching entry exists and is unexpired, where
unexpired means creation time + TTL ≥ now (the source expires only on
`ctime + item_lifetime < time(nullptr)`); an expired entry is erased
from both the map and the MRU list and absent is returned. -/
theorem claim_C8 (c : NameCacheState) (name : List Nat) (ttl now : Nat) :
    ((cacheGet c name ttl now).1 ≠ none ↔
      ∃ e, c.entries.find? (fun x => ciEq x.name name) = some e ∧
        now ≤ e.ctime + ttl) ∧
    (∀ e, c.entries.find? (fun x => ciEq x.name name) = some e →
      now ≤ e.ctime + ttl →
      cacheGet c name ttl now =
        (some e.ip,
         ⟨c.entries, e.name :: c.mru.filter (fun n => !ciEq n name)⟩)) ∧
    (∀ e, c.entries.find? (fun x => ciEq x.name name) = some e →
      e.ctime + ttl < now →
      cacheGet c name ttl now =
        (none, ⟨c.entries.filter (fun e2 => !ciEq e2.name name),
                c.mru.filter (fun n => !ciEq n name)⟩)) := by
  refine ⟨?_, ?_, ?_⟩
  · unfold cacheGet
    cases hf : c.entries.find? (fun x => ciEq x.name name) with
    | none => simp
    | some e =>
      dsimp only
      by_cases ht : e.ctime + ttl < now
      · rw [if_pos ht]
        constructor
        · intro h; exact absurd rfl h
        · rintro ⟨e2, he2, hle⟩
          have he : e = e2 := by injection he2
          subst he
          omega
      · rw [if_neg ht]
        constructor
        · intro _; exact ⟨e, rfl, by omega⟩
        · intro _; simp
  · intro e hf hle
    unfold cacheGet
    rw [hf]
    dsimp only
    rw [if_neg (by omega)]
  · intro e hf hlt
    unfold cacheGet
    rw [hf]
    dsimp only
    rw [if_pos hlt]

/-- Witness for C8: a concrete hit that is promoted over another entry. -/
theorem claim_C8_witness :
    cacheGet ⟨[⟨strBytes "a.example", 3, 7⟩, ⟨strBytes "b.example", 1, 9⟩],
              [strBytes "b.example", strBytes "a.example"]⟩
        (strBytes "A.EXAMPLE") 10 12 =
      (some 7,
       ⟨[⟨strBytes "a.example", 3, 7⟩, ⟨strBytes "b.example", 1, 9⟩],
        [strBytes "a.example", strBytes "b.example"]⟩) := by
  have h := (claim_C8
    ⟨[⟨strBytes "a.example", 3, 7⟩, ⟨strBytes "b.example", 1, 9⟩],
     [strBytes "b.example", strBytes "a.example"]⟩
    (strBytes "A.EXAMPLE") 10 12).2.1
    ⟨strBytes "a.example", 3, 7⟩ (by decide) (by decide)
  rw [h]
  decide

/-- C8 (counterexample to the claim as stated): at the boundary
`ctime + TTL = now` the claim's reading ("unexpired means creation time
+ TTL > now") demands a miss with eviction, but the source still returns
the stored address. -/
theorem claim_C8_cx :
    (cacheGet ⟨[⟨strBytes "h", 0, 7⟩], [strBytes "h"]⟩
        (strBytes "h") 5 5).1 = some 7 ∧
    ¬ ((0 : Nat) + 5 > 5) := by
  exact ⟨by decide, by omega⟩

/-- C9: the keep-alive restart reuses the session without a new
allocation, but `restart_request` resets neither `via`,
`x_forwarded_for` nor `keep_alive`, so parsing the second request does
NOT reproduce a fresh session's results: after a first request carrying
`Via: 1.0 other` and a keep-alive response, a second request without any
Via header re-emits the stale `via` window — which now holds unrelated
bytes of the second request — instead of a fresh `via:` header, and
`keep_alive` stays true where a fresh session has false. -/
theorem claim_C9 :
    (parseHead
        (keepAliveRestart
          (parseHead
            (startResponse
              (parseHead sampleInit
                (strBytes "GET /a HTTP/1.1\r\nHost: h\r\nVia: 1.0 other\r\n\r\n")).2)
            (strBytes "HTTP/1.1 200 OK\r\nContent-Length: 0\r\n\r\n")).2)
        (strBytes "GET /b HTTP/1.1\r\nHost: someotherhost.example.com\r\n\r\n")).1 =
      .PROCEED ∧
    (parseHead sampleInit
        (strBytes "GET /b HTTP/1.1\r\nHost: someotherhost.example.com\r\n\r\n")).1 =
      .PROCEED ∧
    (parseHead
        (keepAliveRestart
          (parseHead
            (startResponse
              (parseHead sampleInit
                (strBytes "GET /a HTTP/1.1\r\nHost: h\r\nVia: 1.0 other\r\n\r\n")).2)
            (strBytes "HTTP/1.1 200 OK\r\nContent-Length: 0\r\n\r\n")).2)
        (strBytes "GET /b HTTP/1.1\r\nHost: someotherhost.example.com\r\n\r\n")).2.output =
      strBytes "GET /b HTTP/1.1\r\nHost: someotherhost.example.com\r\neotherhost.examp, 1.1 10.0.0.1\r\nx-forwarded-for: 5.6.7.8\r\n\r\n" ∧
    (parseHead sampleInit
        (strBytes "GET /b HTTP/1.1\r\nHost: someotherhost.example.com\r\n\r\n")).2.output =
      strBytes "GET /b HTTP/1.1\r\nHost: someotherhost.example.com\r\nvia: 1.1 10.0.0.1\r\nx-forwarded-for: 5.6.7.8\r\n\r\n" ∧
    (parseHead
        (keepAliveRestart
          (parseHead
            (startResponse
              (parseHead sampleInit
                (strBytes "GET /a HTTP/1.1\r\nHost: h\r\nVia: 1.0 other\r\n\r\n")).2)
            (strBytes "HTTP/1.1 200 OK\r\nContent-Length: 0\r\n\r\n")).2)
        (strBytes "GET /b HTTP/1.1\r\nHost: someotherhost.example.com\r\n\r\n")).2.keepAlive =
      true ∧
    (parseHead sampleInit
        (strBytes "GET /b HTTP/1.1\r\nHost: someotherhost.example.com\r\n\r\n")).2.keepAlive =
      false := by
  refine ⟨by decide, by decide, by decide, by decide, by decide, by decide⟩

/-- C10 (amended): in `CHUNK_LF_EXPECT` with `body_end` set, an LF byte
makes `parse_body` return `PROCEED` with the recv window still at the
LF, regardless of how many bytes follow the LF in the same chunk; the
`assert(recv_chunk.size() == 1)` holds exactly when the LF is the
chunk's last byte, which the recv path does not guarantee. -/
theorem claim_C10 (st : BodyState) (rest : List Nat)
    (h1 : st.crlfSearch = .CHUNK_LF_EXPECT) (h2 : st.bodyEnd = true) :
    (parseBody st (LF :: rest)).status = .PROCEED ∧
    (parseBody st (LF :: rest)).state = st ∧
    (parseBody st (LF :: rest)).rest = LF :: rest ∧
    ((parseBody st (LF :: rest)).lfAssertOk = true ↔ rest = []) := by
  have hfuel : 2 * (LF :: rest).length + 2 = (2 * rest.length + 3) + 1 := by
    simp [List.length_cons]; omega
  unfold parseBody
  rw [hfuel]
  simp only [parseBodyF, h1, h2]
  have hLF : ¬ (LF ≠ LF) := by simp
  simp only [if_neg hLF, if_pos rfl]
  refine ⟨rfl, rfl, rfl, ?_⟩
  simp [List.length_cons, List.length_eq_zero]

/-- Witness for C10 at a concrete state and a chunk with a byte after
the final LF. -/
theorem claim_C10_witness :
    (parseBody ⟨.CHUNK_LF_EXPECT, 0, 0, true, true⟩ (LF :: [88])).status =
      .PROCEED ∧
    (parseBody ⟨.CHUNK_LF_EXPECT, 0, 0, true, true⟩ (LF :: [88])).state =
      ⟨.CHUNK_LF_EXPECT, 0, 0, true, true⟩ ∧
    (parseBody ⟨.CHUNK_LF_EXPECT, 0, 0, true, true⟩ (LF :: [88])).rest =
      LF :: [88] ∧
    ((parseBody ⟨.CHUNK_LF_EXPECT, 0, 0, true, true⟩ (LF :: [88])).lfAssertOk =
      true ↔ ([88] : List Nat) = []) :=
  claim_C10 ⟨.CHUNK_LF_EXPECT, 0, 0, true, true⟩ [88] rfl rfl

/-- C10 (counterexample to the claim as stated): the partition
`["0\r\n\r", "\nX"]` of a chunked body's tail is reachable through
`IOBuffer::recv` (the peer may send any bytes), reaches the
`CHUNK_LF_EXPECT`/`body_end` branch with the final LF not last in its
recv chunk, and the tracked assertion fails while the parser still
returns `PROCEED`. -/
theorem claim_C10_cx :
    feedBody initBody [strBytes "0\r\n\r", strBytes "\nX"] =
      ⟨.PROCEED, ⟨.CHUNK_LF_EXPECT, 0, 0, true, true⟩, strBytes "\nX",
       false⟩ := by
  decide

end Evoxy